import Mathlib

/-!
# TauDEM `linearpart.h`: row-band partitions of a raster grid

A shallow embedding of the class template `linearpart<datatype>` of
`src/linearpart.h` and of the message-passing calls it makes.

Conventions of the embedding.

* `int`, `long`, `int64_t` and `uint64_t` values are mathematical integers
  (`Int`).  The class addresses cells with `int` coordinates, so the grid
  extents are taken inside the range of `int`, where none of the conversions
  in the source truncates.  The C++ operators `/` and `%` on integers truncate
  towards zero: they are `Int.tdiv` and `Int.tmod`.
* The cell type `datatype` is a type parameter `α`; `==` on cells is decidable
  equality, `+=` is the addition of `α`, the literal `0` is the zero of `α`.
* The raw buffer `rawData` is a list of cells.  The three pointers into it are
  offsets: `topBorder = rawData + 0`, `gridData = rawData + nx`,
  `bottomBorder = rawData + nx + nx*ny`.
* `assert` is a trap: a function with an assertion returns `Except Fault _`,
  with `Fault.assertion` where the assertion fails and `Fault.outOfBounds`
  where an access would leave the allocation.
* The members `dxA`, `dyA` (doubles) and `MPI_type` (the transport datatype
  handle) are stored by `init` and read by none of the functions embedded
  here; they are left out of the record.
-/

/-- Ways in which a member function can stop without a result. -/
inductive Fault where
  | assertion
  | outOfBounds
  deriving DecidableEq

/-- The data members of `linearpart<datatype>` (with those inherited from
`tdpartition`: `totalx`, `totaly`, `nx`, `ny`). -/
structure linearpart (α : Type) where
  totalx : Int
  totaly : Int
  nx : Int
  ny : Int
  rank : Int
  size : Int
  noData : α
  rawData : List α

namespace linearpart

variable {α : Type}

/-- Read of `rawData[off]`. -/
def readCell (raw : List α) (off : Int) : Except Fault α :=
  if 0 ≤ off then
    match raw[off.toNat]? with
    | some v => .ok v
    | none => .error .outOfBounds
  else .error .outOfBounds

/-- Store `rawData[off] = v`. -/
def writeCell (raw : List α) (off : Int) (v : α) : Except Fault (List α) :=
  if 0 ≤ off ∧ off.toNat < raw.length then .ok (raw.set off.toNat v)
  else .error .outOfBounds

/-- The `n` cells that start at `rawData + off`: what a send of `n` cells
from that address transmits. -/
def readRow (raw : List α) (off n : Int) : List α :=
  (raw.drop off.toNat).take n.toNat

/-- Copy of `row` over the cells that start at `rawData + off`
(a receive into that address, or `memmove`). -/
def writeRow (raw : List α) (off : Int) (row : List α) : List α :=
  raw.take off.toNat ++ row ++ raw.drop (off.toNat + row.length)

/-- Offset of `topBorder` in `rawData`. -/
def topOff (_p : linearpart α) : Int := 0

/-- Offset of `gridData` in `rawData`. -/
def gridOff (p : linearpart α) : Int := p.nx

/-- Offset of `bottomBorder` in `rawData`. -/
def bottomOff (p : linearpart α) : Int := p.nx + p.nx * p.ny

/-- The routine `linearpart::init` (lines 129-170), on the process that
`MPI_Comm_rank` and `MPI_Comm_size` describe by `rank` and `size`. -/
def init (rank size : Int) (totalx totaly : Int) (nd : α) : linearpart α :=
  let nx := totalx
  let ny := Int.tdiv totaly size
  let ny := if rank = size - 1 then ny + Int.tmod totaly size else ny
  let prod := nx * ny + 2 * nx
  { totalx := totalx, totaly := totaly, nx := nx, ny := ny,
    rank := rank, size := size, noData := nd,
    rawData := List.replicate prod.toNat nd }

/-- The test `linearpart::isInPartition` (lines 174-176). -/
def isInPartition (p : linearpart α) (x y : Int) : Bool :=
  decide (x ≥ 0) && decide (x < p.nx) && decide (y ≥ 0) && decide (y < p.ny)

/-- The test `linearpart::hasAccess` (lines 180-187). -/
def hasAccess (p : linearpart α) (x y : Int) : Bool :=
  let badTopAccess := decide (p.rank = 0) && decide (y = -1)
  let badBottomAccess := decide (p.rank = p.size - 1) && decide (y = p.ny)
  decide (x ≥ 0) && decide (x < p.nx) && decide (y ≥ -1) && decide (y ≤ p.ny)
    && !badTopAccess && !badBottomAccess

/-- The conversion `linearpart::globalToLocal` (lines 350-359): the returned
flag, then the two output parameters `localX`, `localY`. -/
def globalToLocal (p : linearpart α) (globalX globalY : Int) : Bool × Int × Int :=
  let localX := globalX
  let localY := globalY - p.rank * p.ny
  let localY :=
    if p.rank = p.size - 1 then globalY - p.rank * (p.ny - Int.tmod p.totaly p.size)
    else localY
  (p.isInPartition localX localY, localX, localY)

/-- The conversion `linearpart::localToGlobal` (lines 363-368): the two output
parameters `globalX`, `globalY`. -/
def localToGlobal (p : linearpart α) (localX localY : Int) : Int × Int :=
  let globalX := localX
  let globalY := p.rank * p.ny + localY
  let globalY :=
    if p.rank = p.size - 1 then p.rank * (p.ny - Int.tmod p.totaly p.size) + localY
    else globalY
  (globalX, globalY)

/-- The accessor `linearpart::getData(x, y)` (lines 425-429). -/
def getData (p : linearpart α) (x y : Int) : Except Fault α :=
  if x ≥ 0 ∧ x < p.nx ∧ y ≥ -1 ∧ y ≤ p.ny then
    readCell p.rawData (p.gridOff + (x + y * p.nx))
  else .error .assertion

/-- The test `linearpart::isNodata` (lines 413-415). -/
def isNodata [DecidableEq α] (p : linearpart α) (x y : Int) : Except Fault Bool :=
  (p.getData x y).map (fun v => decide (v = p.noData))

/-- The mutator `linearpart::setData` (lines 462-466). -/
def setData (p : linearpart α) (x y : Int) (val : α) : Except Fault (linearpart α) :=
  if p.isInPartition x y then
    (writeCell p.rawData (p.gridOff + (x + y * p.nx)) val).map
      (fun raw => { p with rawData := raw })
  else .error .assertion

/-- The mutator `linearpart::addToData` (lines 470-474). -/
def addToData [Add α] (p : linearpart α) (x y : Int) (val : α) :
    Except Fault (linearpart α) :=
  if p.isInPartition x y then
    (readCell p.rawData (p.gridOff + (x + y * p.nx))).bind fun old =>
      (writeCell p.rawData (p.gridOff + (x + y * p.nx)) (old + val)).map
        (fun raw => { p with rawData := raw })
  else .error .assertion

/-- The mutator `linearpart::setToNodata` (lines 419-421). -/
def setToNodata (p : linearpart α) (x y : Int) : Except Fault (linearpart α) :=
  p.setData x y p.noData

/-- The buffer invariant that `init` establishes and every member function
keeps: non-negative extents and an allocation of `nx*ny + 2*nx` cells. -/
structure WF (p : linearpart α) : Prop where
  nx_nonneg : 0 ≤ p.nx
  ny_nonneg : 0 ≤ p.ny
  length_eq : p.rawData.length = (p.nx * p.ny + 2 * p.nx).toNat

end linearpart


/-! ## Message passing

The processes of the communicator `MCW` run one program each.  A blocking call
of a process is an `Act`; the state of the whole run is a `World`: per rank the
local state and the calls still to make, per (source, destination, tag) the
queue of messages sent and not yet received, and the number of messages sent
so far.

* A send (`MPI_Send`, `MPI_Bsend`, the send half of `MPI_Sendrecv`) appends its
  payload to the queue of its (source, destination, tag) and completes.
* A receive (`MPI_Recv`, the receive half of `MPI_Sendrecv`) names its source
  and tag; it waits while that queue is empty and takes the oldest message of
  it otherwise.  A receive whose buffer is too short for the message is an MPI
  error: the process never completes.
* A process whose program is `[]` has returned from the member function.
-/

namespace Mpi

/-- One call of a process: a send, a receive, or a local computation between
two calls. `S` is the local state, `M` the type of message payloads. -/
inductive Act (S M : Type) where
  | send (dest tag : Int) (payload : S → M)
  | recv (source tag : Int) (store : M → S → Option S)
  | compute (f : S → Option S)

/-- A process: its local state and the calls it has still to make. -/
structure Proc (S M : Type) where
  st : S
  prog : List (Act S M)

/-- The state of a run on all ranks. -/
structure World (S M : Type) where
  procs : Int → Proc S M
  chan : Int → Int → Int → List M
  sent : Nat

variable {S M : Type}

/-- Replace the process of rank `r`. -/
def World.put (w : World S M) (r : Int) (p : Proc S M) : World S M :=
  { w with procs := fun k => if k = r then p else w.procs k }

/-- Append message `m` to the queue from `s` to `d` with tag `t`. -/
def World.push (w : World S M) (s d t : Int) (m : M) : World S M :=
  { w with
    chan := fun s1 d1 t1 =>
      if s1 = s ∧ d1 = d ∧ t1 = t then w.chan s1 d1 t1 ++ [m] else w.chan s1 d1 t1
    sent := w.sent + 1 }

/-- Remove the oldest message of the queue from `s` to `d` with tag `t`. -/
def World.pop (w : World S M) (s d t : Int) : World S M :=
  { w with
    chan := fun s1 d1 t1 =>
      if s1 = s ∧ d1 = d ∧ t1 = t then (w.chan s1 d1 t1).tail else w.chan s1 d1 t1 }

/-- What a call does to the queues: it appends a message to the queue towards
`d`, removes the oldest message of the queue from `s`, or leaves them alone. -/
inductive Effect (M : Type) where
  | pushed (d t : Int) (m : M)
  | popped (s t : Int)
  | silent

/-- The call that a process can make next, seen from that process: from its
state, its program and the oldest message of each queue towards it.  `none`
when it has returned, when it waits in a receive on an empty queue, or when
the call fails. -/
def localStep (p : Proc S M) (head : Int → Int → Option M) :
    Option (Proc S M × Effect M) :=
  match p.prog with
  | [] => none
  | Act.send d t payload :: rest => some (⟨p.st, rest⟩, Effect.pushed d t (payload p.st))
  | Act.recv s t store :: rest =>
      match head s t with
      | none => none
      | some m => (store m p.st).map fun st1 => (⟨st1, rest⟩, Effect.popped s t)
  | Act.compute f :: rest => (f p.st).map fun st1 => (⟨st1, rest⟩, Effect.silent)

/-- The world after rank `r` became `p` by a call with effect `e`. -/
def applyEffect (w : World S M) (r : Int) (p : Proc S M) : Effect M → World S M
  | Effect.pushed d t m => (w.put r p).push r d t m
  | Effect.popped s t => (w.put r p).pop s r t
  | Effect.silent => w.put r p

/-- Rank `r` makes its next call, if it can. -/
def step (w : World S M) (r : Int) : Option (World S M) :=
  (localStep (w.procs r) (fun s t => (w.chan s r t).head?)).map
    fun pe => applyEffect w r pe.1 pe.2

/-- Run the ranks of a schedule one call each, in order; `none` when one of
them cannot make its call. -/
def exec : List Int → World S M → Option (World S M)
  | [], w => some w
  | r :: rs, w => (step w r).bind (exec rs)

/-- The first rank of the list that can make a call makes it. -/
def firstStep (w : World S M) : List Int → Option (World S M)
  | [] => none
  | r :: rs =>
      match step w r with
      | some w1 => some w1
      | none => firstStep w rs

/-- A scheduler: at most `fuel` times, let the lowest rank that can make a
call make it; stop when no rank can. -/
def run (ranks : List Int) : Nat → World S M → World S M
  | 0, w => w
  | fuel + 1, w =>
      match firstStep w ranks with
      | none => w
      | some w1 => run ranks fuel w1

/-- The ranks `0 .. size-1` of the communicator. -/
def ranks (size : Int) : List Int :=
  (List.range size.toNat).map Int.ofNat

/-- The world at the collective call: rank `r` of `0 .. size-1` starts with
local state `st r` and program `prog r`; no message is in flight. -/
def start (size : Int) (st : Int → S) (prog : Int → List (Act S M)) : World S M :=
  { procs := fun r => ⟨st r, if 0 ≤ r ∧ r < size then prog r else []⟩
    chan := fun _ _ _ => []
    sent := 0 }

/-- Every process has returned. -/
def World.Done (w : World S M) : Prop :=
  ∀ r : Int, (w.procs r).prog = []

/-- One call of some rank leads from `w` to `w1`. -/
def Step (w w1 : World S M) : Prop :=
  ∃ r : Int, step w r = some w1

/-- Any interleaving of calls leads from `w` to `w1`. -/
def Reaches (w w1 : World S M) : Prop :=
  Relation.ReflTransGen Step w w1

/-- No rank can make a call. -/
def World.Halted (w : World S M) : Prop :=
  ∀ r : Int, step w r = none

/-- The world `t` is the outcome of the collective call that starts in `w` on
`size` ranks: every process has returned in `t`, the scheduler ends in `t` for
all sufficient fuel, and every interleaving of the calls that runs until no
rank can make a call ends in `t`. -/
def Outcome (size : Int) (w t : World S M) : Prop :=
  t.Done ∧ (∃ n, ∀ fuel, n ≤ fuel → run (ranks size) fuel w = t)
    ∧ ∀ v, Reaches w v → v.Halted → v = t

end Mpi

/-! ## Halo exchange: `share` -/

namespace linearpart

variable {α : Type}

/-- The guard row `topBorder[0 .. nx)`. -/
def topBorder (p : linearpart α) : List α :=
  readRow p.rawData p.topOff p.nx

/-- The guard row `bottomBorder[0 .. nx)`. -/
def bottomBorder (p : linearpart α) : List α :=
  readRow p.rawData p.bottomOff p.nx

/-- The owned band `gridData[0 .. nx*ny)`. -/
def gridData (p : linearpart α) : List α :=
  readRow p.rawData p.gridOff (p.nx * p.ny)

/-- The owned row `y`: the cells `gridData[y*nx .. y*nx + nx)`, which
`getData(0, y) .. getData(nx-1, y)` read. -/
def gridRow (p : linearpart α) (y : Int) : List α :=
  readRow p.rawData (p.gridOff + y * p.nx) p.nx

/-- The `nx` cells at `gridData`: the first owned row. -/
def firstRow (p : linearpart α) : List α :=
  readRow p.rawData p.gridOff p.nx

/-- The `nx` cells at `gridData + (ny-1)*nx`: the last owned row. -/
def lastRow (p : linearpart α) : List α :=
  readRow p.rawData (p.gridOff + (p.ny - 1) * p.nx) p.nx

/-- A receive of at most `count` cells into the cells that start at
`rawData + off`; a longer message is an MPI truncation error. -/
def recvInto (p : linearpart α) (off count : Int) (m : List α) : Option (linearpart α) :=
  if (m.length : Int) ≤ count then some { p with rawData := writeRow p.rawData off m }
  else none

/-- The calls of `linearpart::share` (lines 192-208) on the process of `p`.
Each `MPI_Sendrecv` is its send followed by its receive. -/
def shareProg (p : linearpart α) : List (Mpi.Act (linearpart α) (List α)) :=
  if p.size ≤ 1 then []
  else
    (if p.rank < p.size - 1 then
      [Mpi.Act.send (p.rank + 1) 0 (fun q => q.lastRow),
       Mpi.Act.recv (p.rank + 1) 0 (fun m q => q.recvInto q.bottomOff q.nx m)]
     else []) ++
    (if p.rank > 0 then
      [Mpi.Act.send (p.rank - 1) 0 (fun q => q.firstRow),
       Mpi.Act.recv (p.rank - 1) 0 (fun m q => q.recvInto q.topOff q.nx m)]
     else [])

/-- The collective call of `share()` on `size` ranks, rank `r` holding the
partition `parts r`. -/
def share (size : Int) (parts : Int → linearpart α) :
    Mpi.World (linearpart α) (List α) :=
  Mpi.start size parts (fun r => (parts r).shareProg)

/-- The collective state of a run on `size` ranks: rank `r` holds a
partition of rank `r` in a communicator of `size` processes, `nx` columns
wide, with a buffer of `nx*ny + 2*nx` cells. -/
structure Collective (size nx : Int) (parts : Int → linearpart α) : Prop where
  rank_eq : ∀ r, 0 ≤ r → r < size → (parts r).rank = r
  size_eq : ∀ r, 0 ≤ r → r < size → (parts r).size = size
  nx_eq : ∀ r, 0 ≤ r → r < size → (parts r).nx = nx
  wf : ∀ r, 0 ≤ r → r < size → (parts r).WF

end linearpart

/-! ### Intermediate worlds of `share`

The schedule followed in the proofs: the ranks below `size-1` make their
first send in ascending order; then the ranks complete in descending order. -/

namespace linearpart

variable {α : Type}

/-- The calls of the second `MPI_Sendrecv` of `share` (lines 202-207). -/
def shareTop (p : linearpart α) : List (Mpi.Act (linearpart α) (List α)) :=
  if p.rank > 0 then
    [Mpi.Act.send (p.rank - 1) 0 (fun q => q.firstRow),
     Mpi.Act.recv (p.rank - 1) 0 (fun m q => q.recvInto q.topOff q.nx m)]
  else []

/-- The partition of rank `r` after the first `MPI_Sendrecv` of `share`. -/
def shareBottom (size : Int) (parts : Int → linearpart α) (r : Int) : linearpart α :=
  if r < size - 1 then
    { parts r with
      rawData := writeRow (parts r).rawData (parts r).bottomOff (parts (r + 1)).firstRow }
  else parts r

/-- The partition of rank `r` after `share()`. -/
def shareFinal (size : Int) (parts : Int → linearpart α) (r : Int) : linearpart α :=
  if r > 0 then
    { shareBottom size parts r with
      rawData := writeRow (shareBottom size parts r).rawData (shareBottom size parts r).topOff
        (parts (r - 1)).lastRow }
  else shareBottom size parts r

/-- The world in which the ranks below `k` have made their first send. -/
def shareSent (size : Int) (parts : Int → linearpart α) (k : Int) :
    Mpi.World (linearpart α) (List α) :=
  { procs := fun r =>
      if 0 ≤ r ∧ r < k then ⟨parts r, (parts r).shareProg.tail⟩
      else (share size parts).procs r
    chan := fun s d t =>
      if 0 ≤ s ∧ s < k ∧ d = s + 1 ∧ t = 0 then [(parts s).lastRow] else []
    sent := k.toNat }

/-- The world in which the ranks from `m` on have returned and the ranks
below `m` wait for their neighbour below. -/
def shareDone (size : Int) (parts : Int → linearpart α) (m : Int) :
    Mpi.World (linearpart α) (List α) :=
  { procs := fun r =>
      if m ≤ r ∧ r < size then ⟨shareFinal size parts r, []⟩
      else if 0 ≤ r ∧ r < size - 1 then ⟨parts r, (parts r).shareProg.tail⟩
      else (share size parts).procs r
    chan := fun s d t =>
      if 0 ≤ s ∧ s + 1 < m ∧ s + 1 < size ∧ d = s + 1 ∧ t = 0 then [(parts s).lastRow]
      else if s = m ∧ 1 ≤ m ∧ m < size ∧ d = m - 1 ∧ t = 0 then [(parts m).firstRow]
      else []
    sent := (size - 1 + (size - m) - (if m ≤ 0 then 1 else 0)).toNat }

/-- The world in which the ranks above `r` have returned and rank `r` is
between its two `MPI_Sendrecv` calls. -/
def shareMid (size : Int) (parts : Int → linearpart α) (r : Int) :
    Mpi.World (linearpart α) (List α) :=
  { procs := fun k =>
      if k = r then ⟨shareBottom size parts r, (parts r).shareTop⟩
      else (shareDone size parts (r + 1)).procs k
    chan := fun s d t =>
      if 0 ≤ s ∧ s < r ∧ s + 1 < size ∧ d = s + 1 ∧ t = 0 then [(parts s).lastRow] else []
    sent := (shareDone size parts (r + 1)).sent }

end linearpart

/-! ## Halo exchange: `passBorders`, `addBorders`, `clearBorders` -/

namespace linearpart

variable {α : Type}

/-- The local state of a process inside `passBorders`: the partition and the
row buffer `tempBorder` allocated at line 224. -/
structure PassState (α : Type) where
  part : linearpart α
  tempBorder : List α

/-- A receive of at most `nx` cells into `tempBorder`. -/
def PassState.recvTemp (s : PassState α) (m : List α) : Option (PassState α) :=
  if (m.length : Int) ≤ s.part.nx then some { s with tempBorder := writeRow s.tempBorder 0 m }
  else none

/-- A receive of at most `nx` cells into `bottomBorder`. -/
def PassState.recvBottom (s : PassState α) (m : List α) : Option (PassState α) :=
  (s.part.recvInto s.part.bottomOff s.part.nx m).map fun q => { s with part := q }

/-- The copy `memmove(topBorder, tempBorder, nx*sizeof(datatype))` of line 238. -/
def PassState.moveTemp (s : PassState α) : PassState α :=
  { s with part :=
      { s.part with
        rawData := writeRow s.part.rawData s.part.topOff (readRow s.tempBorder 0 s.part.nx) } }

/-- The calls of `linearpart::passBorders` (lines 214-241) on the process of
`p`.  The staging buffer `buf` of the buffered sends holds `nx` cells and the
transport overhead, so that each `MPI_Bsend` completes at once. -/
def passBordersProg (p : linearpart α) : List (Mpi.Act (PassState α) (List α)) :=
  if p.size ≤ 1 then []
  else
    (if p.rank < p.size - 1 then
      [Mpi.Act.send (p.rank + 1) 0 (fun s => s.part.bottomBorder)] else []) ++
    (if p.rank > 0 then
      [Mpi.Act.recv (p.rank - 1) 0 (fun m s => s.recvTemp m)] else []) ++
    (if p.rank > 0 then
      [Mpi.Act.send (p.rank - 1) 0 (fun s => s.part.topBorder)] else []) ++
    (if p.rank < p.size - 1 then
      [Mpi.Act.recv (p.rank + 1) 0 (fun m s => s.recvBottom m)] else []) ++
    [Mpi.Act.compute (fun s => some s.moveTemp)]

/-- The collective call of `passBorders()` on `size` ranks.  `new datatype[nx]`
does not initialise the cells of `tempBorder`: `junk r` is what the fresh
allocation of rank `r` happens to hold. -/
def passBorders (size : Int) (parts : Int → linearpart α) (junk : Int → List α) :
    Mpi.World (PassState α) (List α) :=
  Mpi.start size (fun r => ⟨parts r, junk r⟩) (fun r => (parts r).passBordersProg)

/-- The partitions `q` that differ from `p` in the contents of the buffer
only. -/
def SameShape (p q : linearpart α) : Prop :=
  q.totalx = p.totalx ∧ q.totaly = p.totaly ∧ q.nx = p.nx ∧ q.ny = p.ny
    ∧ q.rank = p.rank ∧ q.size = p.size ∧ q.noData = p.noData
    ∧ q.rawData.length = p.rawData.length

/-- The value that `getData(x, y)` returns (`noData` where it does not
return). -/
def cell (p : linearpart α) (x y : Int) : α :=
  match p.getData x y with
  | .ok v => v
  | .error _ => p.noData

/-- The value that the loop of `addBorders` leaves in an owned cell that held
`v`, for the guard cell `t` next to it (lines 278-279, 281-282). -/
def accumulate [DecidableEq α] [Add α] (nd t v : α) : α :=
  if t = nd ∨ v = nd then nd else v + t

/-- The value of cell `(x, y)` after the loop of `addBorders`, from the cells
before it: row 0 takes the top guard cell, then row `ny-1` takes the bottom
guard cell; with one owned row the two are the same row. -/
def addBordersCell [DecidableEq α] [Add α] (p : linearpart α) (x y : Int) : α :=
  let a := accumulate p.noData (p.cell x (-1)) (p.cell x 0)
  if y = p.ny - 1 then
    accumulate p.noData (p.cell x p.ny) (if p.ny = 1 then a else p.cell x (p.ny - 1))
  else if y = 0 then a
  else p.cell x y

/-- One iteration of the loop of `addBorders` (lines 277-283), for column `i`.
The operator `||` evaluates its second operand only when the first is false. -/
def addBordersCol [DecidableEq α] [Add α] (p : linearpart α) (i : Int) :
    Except Fault (linearpart α) := do
  let a ← p.isNodata i (-1)
  let c ← if a then pure true else p.isNodata i 0
  let p1 ← if c then p.setData i 0 p.noData
    else do
      let t ← readCell p.rawData (p.topOff + i)
      p.addToData i 0 t
  let a1 ← p1.isNodata i p1.ny
  let c1 ← if a1 then pure true else p1.isNodata i (p1.ny - 1)
  if c1 then p1.setData i (p1.ny - 1) p1.noData
  else do
    let b ← readCell p1.rawData (p1.bottomOff + i)
    p1.addToData i (p1.ny - 1) b

/-- The loop of `addBorders` (lines 275-284), over the columns `0 .. nx-1`. -/
def addBordersLoop [DecidableEq α] [Add α] (p : linearpart α) : Except Fault (linearpart α) :=
  (List.range p.nx.toNat).foldlM (fun q (i : Nat) => q.addBordersCol (i : Int)) p

/-- The loop of `addBorders` as a step of a process: a failed assertion stops
the process. -/
def PassState.addLoop [DecidableEq α] [Add α] (s : PassState α) : Option (PassState α) :=
  match s.part.addBordersLoop with
  | .ok q => some { s with part := q }
  | .error _ => none

/-- The calls of `linearpart::addBorders` (lines 271-285): those of
`passBorders`, then the loop. -/
def addBordersProg [DecidableEq α] [Add α] (p : linearpart α) :
    List (Mpi.Act (PassState α) (List α)) :=
  p.passBordersProg ++ [Mpi.Act.compute (fun s => s.addLoop)]

/-- The collective call of `addBorders()` on `size` ranks. -/
def addBorders [DecidableEq α] [Add α] (size : Int) (parts : Int → linearpart α)
    (junk : Int → List α) : Mpi.World (PassState α) (List α) :=
  Mpi.start size (fun r => ⟨parts r, junk r⟩) (fun r => (parts r).addBordersProg)

/-- The routine `linearpart::clearBorders` (lines 289-295). -/
def clearBorders [Zero α] (p : linearpart α) : linearpart α :=
  (List.range p.nx.toNat).foldl
    (fun q (i : Nat) =>
      let raw1 := q.rawData.set (q.topOff + (i : Int)).toNat 0
      { q with rawData := raw1.set (q.bottomOff + (i : Int)).toNat 0 })
    p

/-! ## Ring termination: `ringTerm` -/

/-- The calls of `linearpart::ringTerm` (lines 301-344) on the process of `p`,
for the argument `isFinished`.  The local state is the variable `ringBool`;
`false` is the integer 0. -/
def ringTermProg (p : linearpart α) (isFinished : Int) : List (Mpi.Act Int Int) :=
  if p.size > 1 then
    (if p.rank = 0 then
      [Mpi.Act.send (p.rank + 1) 1 (fun b => b),
       Mpi.Act.recv (p.size - 1) 1 (fun m _ => some m)]
     else
      [Mpi.Act.recv (p.rank - 1) 1 (fun m _ => some m),
       Mpi.Act.compute (fun b => some (if isFinished = 0 then 0 else b)),
       Mpi.Act.send (Int.tmod (p.rank + 1) p.size) 1 (fun b => b)]) ++
    (if p.rank = 0 then
      [Mpi.Act.send (p.rank + 1) 1 (fun b => b)]
     else
      Mpi.Act.recv (p.rank - 1) 1 (fun m _ => some m) ::
        (if p.rank ≠ p.size - 1 then
          [Mpi.Act.send (Int.tmod (p.rank + 1) p.size) 1 (fun b => b)]
         else []))
  else []

/-- The collective call of `ringTerm` on `size` ranks, rank `r` passing
`flags r`.  `ringBool` starts as `isFinished`; the value returned is the local
state when the process has returned. -/
def ringTerm (size : Int) (parts : Int → linearpart α) (flags : Int → Int) :
    Mpi.World Int Int :=
  Mpi.start size flags (fun r => (parts r).ringTermProg (flags r))

/-- The token that leaves rank `k` in the first phase of `ringTerm`. -/
def ringToken (flags : Int → Int) : Nat → Int
  | 0 => flags 0
  | k + 1 => if flags ((k : Int) + 1) = 0 then 0 else ringToken flags k

end linearpart

/-- Example: partitions of two columns and two rows on each of `size` ranks;
cell `i` of the buffer of rank `r` holds `100*r + i`. -/
def exampleParts (size : Int) : Int → linearpart Int := fun r =>
  { totalx := 2, totaly := 2 * size, nx := 2, ny := 2, rank := r, size := size,
    noData := -1, rawData := (List.range 8).map (fun (i : Nat) => 100 * r + (i : Int)) }

/-! ### Intermediate worlds of `ringTerm`

The schedule followed in the proofs: the token goes round the ring from rank 0
to rank `size-1` and back to rank 0; then the decision goes down the ranks. -/

namespace linearpart

variable {α : Type}

/-- Rank `r` of `0 .. size-1` holds a partition object of rank `r` in a
communicator of `size` processes. -/
structure Ranked (size : Int) (parts : Int → linearpart α) : Prop where
  rank_eq : ∀ r, 0 ≤ r → r < size → (parts r).rank = r
  size_eq : ∀ r, 0 ≤ r → r < size → (parts r).size = size

/-- The calls of the second phase of `ringTerm` (lines 331-340). -/
def ringTail (p : linearpart α) : List (Mpi.Act Int Int) :=
  if p.rank = 0 then
    [Mpi.Act.send (p.rank + 1) 1 (fun b => b)]
  else
    Mpi.Act.recv (p.rank - 1) 1 (fun m _ => some m) ::
      (if p.rank ≠ p.size - 1 then
        [Mpi.Act.send (Int.tmod (p.rank + 1) p.size) 1 (fun b => b)]
       else [])

/-- The world in which the ranks below `k` have sent the token on. -/
def ringFirst (size : Int) (parts : Int → linearpart α) (flags : Int → Int) (k : Int) :
    Mpi.World Int Int :=
  { procs := fun r =>
      if r = 0 then
        ⟨flags 0, Mpi.Act.recv (size - 1) 1 (fun m _ => some m) :: (parts 0).ringTail⟩
      else if 0 < r ∧ r < k then ⟨ringToken flags r.toNat, (parts r).ringTail⟩
      else (ringTerm size parts flags).procs r
    chan := fun s d t =>
      if s = k - 1 ∧ d = Int.tmod k size ∧ t = 1 then [ringToken flags (k - 1).toNat] else []
    sent := k.toNat }

/-- The world in which the ranks below `k` have returned. -/
def ringSecond (size : Int) (parts : Int → linearpart α) (flags : Int → Int) (k : Int) :
    Mpi.World Int Int :=
  { procs := fun r =>
      if 0 ≤ r ∧ r < k then ⟨ringToken flags (size - 1).toNat, []⟩
      else if k ≤ r ∧ r < size then ⟨ringToken flags r.toNat, (parts r).ringTail⟩
      else (ringTerm size parts flags).procs r
    chan := fun s d t =>
      if s = k - 1 ∧ d = k ∧ k < size ∧ t = 1 then [ringToken flags (size - 1).toNat] else []
    sent := (size + k - (if k = size then 1 else 0)).toNat }

end linearpart

/-- Example: the world after one collective `passBorders()` on the two ranks
of `exampleParts 2`, the fresh `tempBorder` of each rank holding `[7, 7]`. -/
def examplePassOnce : Mpi.World (linearpart.PassState Int) (List Int) :=
  Mpi.run (Mpi.ranks 2) 8 (linearpart.passBorders 2 (exampleParts 2) (fun _ => [7, 7]))

/-- Example: the world after a second collective `passBorders()`. -/
def examplePassTwice : Mpi.World (linearpart.PassState Int) (List Int) :=
  Mpi.run (Mpi.ranks 2) 8
    (linearpart.passBorders 2 (fun r => (examplePassOnce.procs r).st.part) (fun _ => [7, 7]))

/-- Example: the single-rank partition of one cell after `init(1, 1, ..)` with
`noData = -1` and `setData(0, 0, 5)`. -/
def exampleSingle : linearpart Int :=
  { totalx := 1, totaly := 1, nx := 1, ny := 1, rank := 0, size := 1, noData := -1,
    rawData := [-1, 5, -1] }

/-- Example: the world after `addBorders()` on the single rank of
`exampleSingle`. -/
def exampleAddSingle : Mpi.World (linearpart.PassState Int) (List Int) :=
  Mpi.run (Mpi.ranks 1) 4 (linearpart.addBorders 1 (fun _ => exampleSingle) (fun _ => [0]))

/-! ## Spacing cache: `savedxdyc` -/

namespace linearpart

variable {α : Type}

/-- The global row `globalY` that `linearpart::savedxdyc` computes for the
cache slot `i` (lines 443-444). -/
def savedxdycRow (p : linearpart α) (i : Int) : Int :=
  let globalY := p.rank * p.ny + i
  if p.rank = p.size - 1 then p.rank * (p.ny - Int.tmod p.totaly p.size) + i else globalY

/-- The routine `linearpart::savedxdyc` (lines 439-449): the arrays `dxc` and
`dyc` it fills.  The metadata object `obj` is its two queries `getdxc` and
`getdyc`; `β` is the type of the spacings. -/
def savedxdyc {β : Type} (p : linearpart α) (getdxc getdyc : Int → β) : List β × List β :=
  ((List.range p.ny.toNat).map (fun (i : Nat) => getdxc (p.savedxdycRow (i : Int))),
   (List.range p.ny.toNat).map (fun (i : Nat) => getdyc (p.savedxdycRow (i : Int))))

/-! ## `clearBorders` as a collective call -/

/-- The call of `clearBorders()` on a process: one local computation. -/
def clearBordersProg [Zero α] (_p : linearpart α) : List (Mpi.Act (linearpart α) (List α)) :=
  [Mpi.Act.compute (fun q => some q.clearBorders)]

/-- The ranks `0 .. size-1` call `clearBorders()`. -/
def clearBordersAll [Zero α] (size : Int) (parts : Int → linearpart α) :
    Mpi.World (linearpart α) (List α) :=
  Mpi.start size parts (fun r => (parts r).clearBordersProg)

end linearpart

namespace Mpi

variable {S M : Type}

/-- The world in which the ranks below `k` have made the one local computation
`g r` each that they start with. -/
def localUpto (size : Int) (st : Int → S) (g : Int → S → S) (k : Int) : World S M :=
  { procs := fun r =>
      if 0 ≤ r ∧ r < k ∧ r < size then ⟨g r (st r), []⟩
      else ⟨st r, if 0 ≤ r ∧ r < size then [Act.compute (fun s => some (g r s))] else []⟩
    chan := fun _ _ _ => []
    sent := 0 }

end Mpi

/-- Example: the world after one collective round of `ringTerm` on the two
ranks of `exampleParts 2`, both flags true. -/
def exampleRing : Mpi.World Int Int :=
  Mpi.run (Mpi.ranks 2) 16 (linearpart.ringTerm 2 (exampleParts 2) (fun _ => 1))

/-! ### Intermediate worlds of `passBorders`

The schedule followed in the proofs: in ascending order each rank sends its
bottom guard row, takes the row of the rank above into `tempBorder` and sends
its top guard row; then, in ascending order again, each rank takes the row of
the rank below and moves `tempBorder` into place. -/

namespace linearpart

variable {α : Type}

/-- The calls of `passBorders` from line 231 on. -/
def passMidProg (p : linearpart α) : List (Mpi.Act (PassState α) (List α)) :=
  (if p.rank > 0 then
    [Mpi.Act.recv (p.rank - 1) 0 (fun m s => s.recvTemp m)] else []) ++
  (if p.rank > 0 then
    [Mpi.Act.send (p.rank - 1) 0 (fun s => s.part.topBorder)] else []) ++
  (if p.rank < p.size - 1 then
    [Mpi.Act.recv (p.rank + 1) 0 (fun m s => s.recvBottom m)] else []) ++
  [Mpi.Act.compute (fun s => some s.moveTemp)]

/-- The calls of `passBorders` from line 237 on. -/
def passTail (p : linearpart α) : List (Mpi.Act (PassState α) (List α)) :=
  (if p.rank < p.size - 1 then
    [Mpi.Act.recv (p.rank + 1) 0 (fun m s => s.recvBottom m)] else []) ++
  [Mpi.Act.compute (fun s => some s.moveTemp)]

/-- The buffer `tempBorder` of rank `r` after the receive of line 231. -/
def passTemp (parts : Int → linearpart α) (junk : Int → List α) (r : Int) : List α :=
  if r > 0 then writeRow (junk r) 0 (parts (r - 1)).bottomBorder else junk r

/-- The partition of rank `r` after the receive of line 237. -/
def passBottom (size : Int) (parts : Int → linearpart α) (r : Int) : linearpart α :=
  if r < size - 1 then
    { parts r with
      rawData := writeRow (parts r).rawData (parts r).bottomOff (parts (r + 1)).topBorder }
  else parts r

/-- The state of rank `r` when it returns from `passBorders`. -/
def passFinal (size : Int) (parts : Int → linearpart α) (junk : Int → List α) (r : Int) :
    PassState α :=
  PassState.moveTemp ⟨passBottom size parts r, passTemp parts junk r⟩

/-- The world in which the ranks below `k` have made their calls up to line
236. -/
def passUp (size : Int) (parts : Int → linearpart α) (junk : Int → List α) (k : Int) :
    Mpi.World (PassState α) (List α) :=
  { procs := fun r =>
      if 0 ≤ r ∧ r < k ∧ r < size then ⟨⟨parts r, passTemp parts junk r⟩, (parts r).passTail⟩
      else (passBorders size parts junk).procs r
    chan := fun s d t =>
      if 0 ≤ s ∧ s = k - 1 ∧ s + 1 < size ∧ d = s + 1 ∧ t = 0 then [(parts s).bottomBorder]
      else if 1 ≤ s ∧ s < k ∧ s < size ∧ d = s - 1 ∧ t = 0 then [(parts s).topBorder]
      else []
    sent := ((if k < size then k else size - 1) + (if k ≤ 0 then 0 else k - 1)).toNat }

/-- The world in which, besides, rank `k` has made its send of line 228. -/
def passMid (size : Int) (parts : Int → linearpart α) (junk : Int → List α) (k : Int) :
    Mpi.World (PassState α) (List α) :=
  { procs := fun r =>
      if r = k then ⟨⟨parts k, junk k⟩, (parts k).passMidProg⟩
      else (passUp size parts junk k).procs r
    chan := fun s d t =>
      if 0 ≤ s ∧ (s = k - 1 ∨ s = k) ∧ s + 1 < size ∧ d = s + 1 ∧ t = 0 then
        [(parts s).bottomBorder]
      else if 1 ≤ s ∧ s < k ∧ s < size ∧ d = s - 1 ∧ t = 0 then [(parts s).topBorder]
      else []
    sent := (passUp size parts junk k).sent + (if k < size - 1 then 1 else 0) }

/-- The world in which all ranks have made their calls up to line 236 and the
ranks below `k` have returned. -/
def passDown (size : Int) (parts : Int → linearpart α) (junk : Int → List α) (k : Int) :
    Mpi.World (PassState α) (List α) :=
  { procs := fun r =>
      if 0 ≤ r ∧ r < k ∧ r < size then ⟨passFinal size parts junk r, []⟩
      else if 0 ≤ r ∧ r < size then ⟨⟨parts r, passTemp parts junk r⟩, (parts r).passTail⟩
      else (passBorders size parts junk).procs r
    chan := fun s d t =>
      if 1 ≤ s ∧ s < size ∧ k ≤ s - 1 ∧ d = s - 1 ∧ t = 0 then [(parts s).topBorder] else []
    sent := (2 * (size - 1)).toNat }

end linearpart

/-! ## Variable-length exchange: `transferPack` -/

/-- The memory behind the four pointer arguments of `transferPack` on one
process: the two counts and the two integer arrays of the caller.  The length
of a list is the number of cells the caller allocated. -/
structure PackState where
  countA : Int
  bufferAbove : List Int
  countB : Int
  bufferBelow : List Int

/-- The counts are non-negative and within the arrays they describe. -/
def PackState.Valid (s : PackState) : Prop :=
  0 ≤ s.countA ∧ s.countA ≤ s.bufferAbove.length
    ∧ 0 ≤ s.countB ∧ s.countB ≤ s.bufferBelow.length

/-- The payload of `MPI_Bsend(bufferAbove, *countA, MPI_INT, ...)` (line 390). -/
def PackState.msgAbove (s : PackState) : List Int :=
  linearpart.readRow s.bufferAbove 0 s.countA

/-- The payload of `MPI_Bsend(bufferBelow, *countB, MPI_INT, ...)` (line 398). -/
def PackState.msgBelow (s : PackState) : List Int :=
  linearpart.readRow s.bufferBelow 0 s.countB

/-- Lines 394-396 once the message `m` has arrived: `MPI_Get_count` stores its
number of elements in `*countA` and `MPI_Recv` copies them to `bufferAbove`. -/
def PackState.storeAbove (s : PackState) (m : List Int) : PackState :=
  { s with countA := m.length, bufferAbove := linearpart.writeRow s.bufferAbove 0 m }

/-- Lines 402-404 once the message `m` has arrived. -/
def PackState.storeBelow (s : PackState) (m : List Int) : PackState :=
  { s with countB := m.length, bufferBelow := linearpart.writeRow s.bufferBelow 0 m }

/-- The probe and receive of lines 394-396.  The count of the receive is that
of the message, so that it is never truncated; a message longer than the array
of the caller is written past its end, and the call fails. -/
def PackState.recvAbove (s : PackState) (m : List Int) : Option PackState :=
  if m.length ≤ s.bufferAbove.length then some (s.storeAbove m) else none

/-- The probe and receive of lines 402-404. -/
def PackState.recvBelow (s : PackState) (m : List Int) : Option PackState :=
  if m.length ≤ s.bufferBelow.length then some (s.storeBelow m) else none

namespace linearpart

variable {α : Type}

/-- The calls of `linearpart::transferPack` (lines 372-409) on the process of
`p`.  The staging buffers `abuf` and `bbuf` hold the declared counts and the
transport overhead, so that each `MPI_Bsend` completes at once. -/
def transferPackProg (p : linearpart α) : List (Mpi.Act PackState (List Int)) :=
  if p.size = 1 then []
  else
    (if p.rank > 0 then
      [Mpi.Act.send (p.rank - 1) 3 (fun s => s.msgAbove)] else []) ++
    (if p.rank < p.size - 1 then
      [Mpi.Act.recv (p.rank + 1) 3 (fun m s => s.recvAbove m),
       Mpi.Act.send (p.rank + 1) 3 (fun s => s.msgBelow)] else []) ++
    (if p.rank > 0 then
      [Mpi.Act.recv (p.rank - 1) 3 (fun m s => s.recvBelow m)] else [])

/-- The collective call of `transferPack` on `size` ranks; `args r` is what
the arguments of rank `r` point to. -/
def transferPack (size : Int) (parts : Int → linearpart α) (args : Int → PackState) :
    Mpi.World PackState (List Int) :=
  Mpi.start size args (fun r => (parts r).transferPackProg)

/-! ### Intermediate worlds of `transferPack`

The schedule followed in the proofs: in ascending order each rank above 0
sends its upward buffer; then, in ascending order again, each rank takes the
buffer of the rank below it, sends its downward buffer, and takes the buffer
of the rank above it. -/

/-- The calls of `transferPack` from line 401 on. -/
def packLast (p : linearpart α) : List (Mpi.Act PackState (List Int)) :=
  if p.rank > 0 then [Mpi.Act.recv (p.rank - 1) 3 (fun m s => s.recvBelow m)] else []

/-- The calls of `transferPack` from line 393 on. -/
def packTail (p : linearpart α) : List (Mpi.Act PackState (List Int)) :=
  (if p.rank < p.size - 1 then
    [Mpi.Act.recv (p.rank + 1) 3 (fun m s => s.recvAbove m),
     Mpi.Act.send (p.rank + 1) 3 (fun s => s.msgBelow)] else []) ++ p.packLast

/-- The arguments of rank `r` after line 400. -/
def packAbove (size : Int) (args : Int → PackState) (r : Int) : PackState :=
  if r < size - 1 then (args r).storeAbove (args (r + 1)).msgAbove else args r

/-- The arguments of rank `r` when it returns from `transferPack`. -/
def packFinal (size : Int) (args : Int → PackState) (r : Int) : PackState :=
  if r > 0 then (packAbove size args r).storeBelow (args (r - 1)).msgBelow
  else packAbove size args r

/-- The world in which the ranks below `k` have made their calls up to line
392. -/
def packUp (size : Int) (parts : Int → linearpart α) (args : Int → PackState) (k : Int) :
    Mpi.World PackState (List Int) :=
  { procs := fun r =>
      if 0 ≤ r ∧ r < k ∧ r < size then ⟨args r, (parts r).packTail⟩
      else (transferPack size parts args).procs r
    chan := fun s d t =>
      if 1 ≤ s ∧ s < k ∧ s < size ∧ d = s - 1 ∧ t = 3 then [(args s).msgAbove] else []
    sent := ((if k < size then k else size) - 1).toNat }

/-- The world in which all ranks have made their calls up to line 392 and the
ranks below `k` have returned. -/
def packDown (size : Int) (parts : Int → linearpart α) (args : Int → PackState) (k : Int) :
    Mpi.World PackState (List Int) :=
  { procs := fun r =>
      if 0 ≤ r ∧ r < k ∧ r < size then ⟨packFinal size args r, []⟩
      else if 0 ≤ r ∧ r < size then ⟨args r, (parts r).packTail⟩
      else (transferPack size parts args).procs r
    chan := fun s d t =>
      if 1 ≤ s ∧ s < size ∧ k ≤ s - 1 ∧ d = s - 1 ∧ t = 3 then [(args s).msgAbove]
      else if 0 ≤ s ∧ s = k - 1 ∧ s + 1 < size ∧ d = s + 1 ∧ t = 3 then [(args s).msgBelow]
      else []
    sent := (size - 1 + (if k < size then k else size - 1)).toNat }

/-- The world in which, besides, rank `k` has made its calls up to line 400. -/
def packMid (size : Int) (parts : Int → linearpart α) (args : Int → PackState) (k : Int) :
    Mpi.World PackState (List Int) :=
  { procs := fun r =>
      if r = k then ⟨packAbove size args k, (parts k).packLast⟩
      else (packDown size parts args k).procs r
    chan := fun s d t =>
      if 1 ≤ s ∧ s < size ∧ k + 1 ≤ s - 1 ∧ d = s - 1 ∧ t = 3 then [(args s).msgAbove]
      else if 0 ≤ s ∧ (s = k - 1 ∨ s = k) ∧ s + 1 < size ∧ d = s + 1 ∧ t = 3 then
        [(args s).msgBelow]
      else []
    sent := (size - 1 + (if k < size - 1 then k + 1 else size - 1)).toNat }

end linearpart

/-- Example: the arguments of `transferPack` on rank `r`: two elements to send
upwards and one to send downwards, in arrays of three cells. -/
def examplePack (r : Int) : PackState :=
  ⟨2, [10 * r + 1, 10 * r + 2, 0], 1, [10 * r + 5, 0, 0]⟩

/-! ### A collective call followed by a local computation -/

namespace Mpi

variable {S M : Type}

/-- The world `w` in which the process of rank `r` has the calls `suf r` to
make after those it has to make in `w`. -/
def World.extend (w : World S M) (suf : Int → List (Act S M)) : World S M :=
  { w with procs := fun r => ⟨(w.procs r).st, (w.procs r).prog ++ suf r⟩ }

/-- The world in which `n` messages were sent and received, every rank has the
one local computation `f` left to make on its state `st r`, and the ranks
below `k` have made it. -/
def computeUpto (size : Int) (st : Int → S) (f : S → Option S) (n : Nat) (k : Int) :
    World S M :=
  { procs := fun r =>
      if 0 ≤ r ∧ r < k ∧ r < size then ⟨(f (st r)).getD (st r), []⟩
      else ⟨st r, if 0 ≤ r ∧ r < size then [Act.compute f] else []⟩
    chan := fun _ _ _ => []
    sent := n }

end Mpi

/-- Example: partitions of two columns and one row on each of `size` ranks;
cell `i` of the buffer of rank `r` holds `100*r + i`. -/
def exampleRows (size : Int) : Int → linearpart Int := fun r =>
  { totalx := 2, totaly := size, nx := 2, ny := 1, rank := r, size := size,
    noData := -1, rawData := (List.range 6).map (fun (i : Nat) => 100 * r + (i : Int)) }
/-! ## Row distribution (`init`) -/

namespace linearpart

variable {α : Type}

theorem init_ny_of_not_last (rank size totalx totaly : Int) (nd : α)
    (h : rank ≠ size - 1) :
    (init rank size totalx totaly nd).ny = Int.tdiv totaly size := by
  simp [init, h]

theorem init_ny_of_last (size totalx totaly : Int) (nd : α) :
    (init (size - 1) size totalx totaly nd).ny
      = Int.tdiv totaly size + Int.tmod totaly size := by
  simp [init]

theorem init_wf (rank size totalx totaly : Int) (nd : α)
    (hx : 0 ≤ totalx) (hy : 0 ≤ totaly) (hs : 1 ≤ size) :
    (init rank size totalx totaly nd).WF := by
  have hq : 0 ≤ Int.tdiv totaly size := by
    rw [Int.tdiv_eq_ediv hy (by omega)]
    exact Int.ediv_nonneg hy (by omega)
  have hm : 0 ≤ Int.tmod totaly size := by
    rw [Int.tmod_eq_emod hy (by omega)]
    exact Int.emod_nonneg _ (by omega)
  refine ⟨hx, ?_, ?_⟩
  · simp only [init]
    split <;> omega
  · simp [init]

/-- C1. For `totalx ≥ 0`, `totaly ≥ 0` and `size ≥ 1`, the local row counts
that `init` computes on the ranks `0 .. size-1` add up to `totaly`, and the
local column count is `totalx` on every rank. -/
theorem init_rows_sum_eq_totaly (totalx totaly size : Int) (nd : α)
    (_hx : 0 ≤ totalx) (_hy : 0 ≤ totaly) (hs : 1 ≤ size) :
    Finset.sum (Finset.range size.toNat)
        (fun r => (init (r : Int) size totalx totaly nd).ny) = totaly
      ∧ ∀ r : Int, 0 ≤ r → r < size → (init r size totalx totaly nd).nx = totalx := by
  constructor
  · obtain ⟨n, hn⟩ : ∃ n : Nat, size = (n : Int) + 1 := ⟨(size - 1).toNat, by omega⟩
    subst hn
    have hN : ((n : Int) + 1).toNat = n + 1 := by omega
    rw [hN, Finset.sum_range_succ]
    have hlast : (init (n : Int) ((n : Int) + 1) totalx totaly nd).ny
        = Int.tdiv totaly ((n : Int) + 1) + Int.tmod totaly ((n : Int) + 1) := by
      have := init_ny_of_last ((n : Int) + 1) totalx totaly nd
      simpa using this
    have hrest : ∀ r ∈ Finset.range n,
        (init (r : Int) ((n : Int) + 1) totalx totaly nd).ny
          = Int.tdiv totaly ((n : Int) + 1) := by
      intro r hr
      have hr' : r < n := Finset.mem_range.mp hr
      exact init_ny_of_not_last _ _ _ _ _ (by omega)
    rw [Finset.sum_congr rfl hrest, hlast]
    simp only [Finset.sum_const, Finset.card_range, nsmul_eq_mul]
    have key := Int.tdiv_add_tmod totaly ((n : Int) + 1)
    linarith
  · intro r _ _
    rfl

/-- C1, at the grid of the specification's example: 23 rows on 3 ranks. -/
theorem init_rows_sum_eq_totaly_witness :
    Finset.sum (Finset.range (3 : Int).toNat)
        (fun r => (init (r : Int) 3 10 23 (0 : Int)).ny) = 23
      ∧ ∀ r : Int, 0 ≤ r → r < 3 → (init r 3 10 23 (0 : Int)).nx = 10 :=
  init_rows_sum_eq_totaly 10 23 3 0 (by decide) (by decide) (by decide)

/-! ## Coordinate mapping -/

theorem tdiv_nonneg_of_nonneg {a b : Int} (ha : 0 ≤ a) (hb : 0 ≤ b) :
    0 ≤ Int.tdiv a b := by
  rw [Int.tdiv_eq_ediv ha hb]
  exact Int.ediv_nonneg ha hb

theorem tmod_nonneg_of_nonneg {a b : Int} (ha : 0 ≤ a) (hb : 0 < b) :
    0 ≤ Int.tmod a b ∧ Int.tmod a b < b := by
  rw [Int.tmod_eq_emod ha (le_of_lt hb)]
  exact ⟨Int.emod_nonneg _ (ne_of_gt hb), Int.emod_lt_of_pos _ hb⟩

/-- Membership of a global cell in the band of a rank other than the last. -/
theorem globalToLocal_init_not_last (rank size totalx totaly gx gy : Int) (nd : α)
    (h : rank ≠ size - 1) :
    ((init rank size totalx totaly nd).globalToLocal gx gy).1 = true ↔
      0 ≤ gx ∧ gx < totalx ∧ rank * Int.tdiv totaly size ≤ gy
        ∧ gy < rank * Int.tdiv totaly size + Int.tdiv totaly size := by
  simp only [globalToLocal, isInPartition, init, if_neg h]
  simp only [Bool.and_eq_true, decide_eq_true_eq]
  constructor
  · rintro ⟨⟨⟨h1, h2⟩, h3⟩, h4⟩
    exact ⟨h1, h2, by linarith, by linarith⟩
  · rintro ⟨h1, h2, h3, h4⟩
    exact ⟨⟨⟨h1, h2⟩, by linarith⟩, by linarith⟩

/-- Membership of a global cell in the band of the last rank. -/
theorem globalToLocal_init_last (size totalx totaly gx gy : Int) (nd : α) :
    ((init (size - 1) size totalx totaly nd).globalToLocal gx gy).1 = true ↔
      0 ≤ gx ∧ gx < totalx ∧ (size - 1) * Int.tdiv totaly size ≤ gy ∧ gy < totaly := by
  have key := Int.tdiv_add_tmod totaly size
  simp only [globalToLocal, isInPartition, init, if_true]
  simp only [Bool.and_eq_true, decide_eq_true_eq]
  constructor
  · rintro ⟨⟨⟨h1, h2⟩, h3⟩, h4⟩
    refine ⟨h1, h2, by linarith, ?_⟩
    nlinarith
  · rintro ⟨h1, h2, h3, h4⟩
    refine ⟨⟨⟨h1, h2⟩, by linarith⟩, ?_⟩
    nlinarith

/-- C2. For `size ≥ 1` and a global cell inside the grid, exactly one rank
of `0 .. size-1` has `globalToLocal` return true on the partition that `init`
builds for it; grids with fewer rows than ranks are included. -/
theorem globalToLocal_unique_owner (size totalx totaly gx gy : Int) (nd : α)
    (hs : 1 ≤ size) (hgx : 0 ≤ gx ∧ gx < totalx) (hgy : 0 ≤ gy ∧ gy < totaly) :
    ∃! r : Int, 0 ≤ r ∧ r < size ∧
      ((init r size totalx totaly nd).globalToLocal gx gy).1 = true := by
  have hy : 0 ≤ totaly := by omega
  have hq : 0 ≤ Int.tdiv totaly size := tdiv_nonneg_of_nonneg hy (by omega)
  have hm := tmod_nonneg_of_nonneg hy (show 0 < size by omega)
  have key := Int.tdiv_add_tmod totaly size
  set q := Int.tdiv totaly size with hqdef
  -- the owner: the quotient of the row by the band height, capped at the last rank
  by_cases hlast : (size - 1) * q ≤ gy
  · refine ⟨size - 1, ⟨by omega, by omega, ?_⟩, ?_⟩
    · exact (globalToLocal_init_last size totalx totaly gx gy nd).2
        ⟨hgx.1, hgx.2, hlast, hgy.2⟩
    · rintro r ⟨hr0, hr1, hr⟩
      by_contra hne
      have hne' : r ≠ size - 1 := hne
      have h := (globalToLocal_init_not_last r size totalx totaly gx gy nd hne').1 hr
      have hle : r + 1 ≤ size - 1 := by omega
      have : (r + 1) * q ≤ (size - 1) * q := mul_le_mul_of_nonneg_right hle hq
      nlinarith [h.2.2.1, h.2.2.2]
  · have hlast' : gy < (size - 1) * q := lt_of_not_le hlast
    have hqpos : 0 < q := by
      by_contra hq0
      have : q = 0 := by omega
      rw [this] at hlast'
      simp at hlast'
      omega
    have hr0 : 0 ≤ gy / q := Int.ediv_nonneg hgy.1 hq
    have hr1 : gy / q < size - 1 := by
      apply Int.ediv_lt_of_lt_mul hqpos
      linarith
    have hdm := Int.emod_add_ediv gy q
    have hmod := Int.emod_nonneg gy (ne_of_gt hqpos)
    have hmod2 := Int.emod_lt_of_pos gy hqpos
    refine ⟨gy / q, ⟨hr0, by omega, ?_⟩, ?_⟩
    · refine (globalToLocal_init_not_last (gy / q) size totalx totaly gx gy nd
        (by omega)).2 ⟨hgx.1, hgx.2, ?_, ?_⟩
      · nlinarith
      · nlinarith
    · rintro r ⟨hr0', hr1', hr⟩
      by_cases hne : r = size - 1
      · subst hne
        have h := (globalToLocal_init_last size totalx totaly gx gy nd).1 hr
        exact absurd h.2.2.1 hlast
      · have h := (globalToLocal_init_not_last r size totalx totaly gx gy nd hne).1 hr
        obtain ⟨-, -, h3, h4⟩ := h
        -- both r and gy / q satisfy r*q ≤ gy < (r+1)*q
        rcases lt_trichotomy r (gy / q) with hlt | heq | hgt
        · have hle : r + 1 ≤ gy / q := by omega
          have : (r + 1) * q ≤ (gy / q) * q := mul_le_mul_of_nonneg_right hle hq
          nlinarith
        · exact heq
        · have hle : gy / q + 1 ≤ r := by omega
          have : (gy / q + 1) * q ≤ r * q := mul_le_mul_of_nonneg_right hle hq
          nlinarith

/-- C2, at the specification's example: row 20 of 23 rows on 3 ranks. -/
theorem globalToLocal_unique_owner_witness :
    ∃! r : Int, 0 ≤ r ∧ r < 3 ∧
      ((init r 3 10 23 (0 : Int)).globalToLocal 4 20).1 = true :=
  globalToLocal_unique_owner 3 10 23 4 20 0 (by decide) (by decide) (by decide)

/-- C3. On every rank, `localToGlobal` undoes `globalToLocal` on the
coordinates it outputs, and `globalToLocal` undoes `localToGlobal`. -/
theorem localToGlobal_globalToLocal_inverse (p : linearpart α) :
    (∀ gx gy : Int,
        p.localToGlobal (p.globalToLocal gx gy).2.1 (p.globalToLocal gx gy).2.2
          = (gx, gy))
      ∧ ∀ lx ly : Int,
        (p.globalToLocal (p.localToGlobal lx ly).1 (p.localToGlobal lx ly).2).2
          = (lx, ly) := by
  constructor
  · intro gx gy
    simp only [globalToLocal, localToGlobal]
    split <;> simp
  · intro lx ly
    simp only [globalToLocal, localToGlobal]
    split <;> simp

/-- C4. `hasAccess(x, y)` holds exactly when `0 ≤ x < nx`, `-1 ≤ y ≤ ny`,
not (`rank = 0` and `y = -1`) and not (`rank = size-1` and `y = ny`); so on a
partition with `ny ≥ 0` and a column `0 ≤ x < nx`, row `-1` is refused exactly
on rank 0 and row `ny` exactly on rank `size-1`. -/
theorem hasAccess_iff (p : linearpart α) :
    (∀ x y : Int, p.hasAccess x y = true ↔
        (0 ≤ x ∧ x < p.nx) ∧ (-1 ≤ y ∧ y ≤ p.ny)
          ∧ ¬ (p.rank = 0 ∧ y = -1) ∧ ¬ (p.rank = p.size - 1 ∧ y = p.ny))
      ∧ (0 ≤ p.ny → ∀ x : Int, 0 ≤ x → x < p.nx →
          (p.hasAccess x (-1) = false ↔ p.rank = 0)
            ∧ (p.hasAccess x p.ny = false ↔ p.rank = p.size - 1)) := by
  constructor
  · intro x y
    simp only [hasAccess, Bool.and_eq_true, decide_eq_true_eq, Bool.not_eq_true',
      Bool.and_eq_false_iff, decide_eq_false_iff_not, ge_iff_le]
    tauto
  · intro hny x hx0 hx1
    constructor
    · have hne : ¬ ((-1 : Int) = p.ny) := by omega
      simp [hasAccess, hx0, hx1, hny, hne]
      omega
    · have hne : ¬ (p.ny = -1) := by omega
      have : (-1 : Int) ≤ p.ny := by omega
      simp [hasAccess, hx0, hx1, hne, this]

end linearpart

/-! ## Message passing: interleavings -/

namespace Mpi

variable {S M : Type}

@[simp] theorem put_procs (w : World S M) (r : Int) (p : Proc S M) (k : Int) :
    (w.put r p).procs k = if k = r then p else w.procs k := rfl

@[simp] theorem put_chan (w : World S M) (r : Int) (p : Proc S M) :
    (w.put r p).chan = w.chan := rfl

@[simp] theorem put_sent (w : World S M) (r : Int) (p : Proc S M) :
    (w.put r p).sent = w.sent := rfl

@[simp] theorem push_procs (w : World S M) (s d t : Int) (m : M) :
    (w.push s d t m).procs = w.procs := rfl

@[simp] theorem push_chan (w : World S M) (s d t : Int) (m : M) (s1 d1 t1 : Int) :
    (w.push s d t m).chan s1 d1 t1
      = if s1 = s ∧ d1 = d ∧ t1 = t then w.chan s1 d1 t1 ++ [m] else w.chan s1 d1 t1 := rfl

@[simp] theorem push_sent (w : World S M) (s d t : Int) (m : M) :
    (w.push s d t m).sent = w.sent + 1 := rfl

@[simp] theorem pop_procs (w : World S M) (s d t : Int) :
    (w.pop s d t).procs = w.procs := rfl

@[simp] theorem pop_chan (w : World S M) (s d t : Int) (s1 d1 t1 : Int) :
    (w.pop s d t).chan s1 d1 t1
      = if s1 = s ∧ d1 = d ∧ t1 = t then (w.chan s1 d1 t1).tail else w.chan s1 d1 t1 := rfl

@[simp] theorem pop_sent (w : World S M) (s d t : Int) :
    (w.pop s d t).sent = w.sent := rfl

theorem World.ext_iff3 {w1 w2 : World S M} (hp : ∀ k, w1.procs k = w2.procs k)
    (hc : ∀ s d t, w1.chan s d t = w2.chan s d t) (hs : w1.sent = w2.sent) : w1 = w2 := by
  cases w1; cases w2
  simp only [World.mk.injEq]
  exact ⟨funext hp, funext fun s => funext fun d => funext fun t => hc s d t, hs⟩

theorem localStep_mono {p : Proc S M} {h1 h2 : Int → Int → Option M}
    {x : Proc S M × Effect M} (hx : localStep p h1 = some x)
    (hh : ∀ s t m, h1 s t = some m → h2 s t = some m) : localStep p h2 = some x := by
  unfold localStep at hx ⊢
  cases hprog : p.prog with
  | nil => rw [hprog] at hx; simp at hx
  | cons a rest =>
    rw [hprog] at hx
    cases a with
    | send d t payload => simpa using hx
    | compute f => simpa using hx
    | recv s t store =>
      simp only at hx ⊢
      cases hh1 : h1 s t with
      | none => rw [hh1] at hx; simp at hx
      | some m =>
        rw [hh1] at hx
        rw [hh s t m hh1]
        simpa using hx

theorem localStep_popped {p p1 : Proc S M} {h : Int → Int → Option M} {s t : Int}
    (hx : localStep p h = some (p1, Effect.popped s t)) : ∃ m, h s t = some m := by
  unfold localStep at hx
  cases hprog : p.prog with
  | nil => rw [hprog] at hx; simp at hx
  | cons a rest =>
    rw [hprog] at hx
    cases a with
    | send d t payload => simp at hx
    | compute f =>
      simp only [Option.map_eq_some'] at hx
      obtain ⟨_, _, h2⟩ := hx
      simp at h2
    | recv s1 t1 store =>
      simp only at hx
      cases hh1 : h s1 t1 with
      | none => rw [hh1] at hx; simp at hx
      | some m =>
        rw [hh1] at hx
        simp only [Option.map_eq_some'] at hx
        obtain ⟨_, _, h2⟩ := hx
        simp only [Prod.mk.injEq, Effect.popped.injEq] at h2
        obtain ⟨_, rfl, rfl⟩ := h2
        exact ⟨m, hh1⟩

/-- A call of rank `r1` leaves the process of another rank alone. -/
theorem applyEffect_procs_of_ne (w : World S M) (r1 : Int) (p1 : Proc S M) (e1 : Effect M)
    {r2 : Int} (hne : r2 ≠ r1) : (applyEffect w r1 p1 e1).procs r2 = w.procs r2 := by
  cases e1 <;> simp [applyEffect, hne]

theorem applyEffect_procs_self (w : World S M) (r1 : Int) (p1 : Proc S M) (e1 : Effect M) :
    (applyEffect w r1 p1 e1).procs r1 = p1 := by
  cases e1 <;> simp [applyEffect]

/-- A call of rank `r1` keeps the oldest message of every queue towards
another rank. -/
theorem applyEffect_head_of_ne (w : World S M) (r1 : Int) (p1 : Proc S M) (e1 : Effect M)
    {r2 : Int} (hne : r2 ≠ r1) (s t : Int) (m : M)
    (h : (w.chan s r2 t).head? = some m) :
    ((applyEffect w r1 p1 e1).chan s r2 t).head? = some m := by
  cases e1 with
  | silent => simpa [applyEffect] using h
  | popped s1 t1 =>
    simp only [applyEffect, pop_chan, put_chan]
    rw [if_neg (by tauto)]
    exact h
  | pushed d1 t1 m1 =>
    simp only [applyEffect, push_chan, put_chan]
    split
    · cases hc : w.chan s r2 t with
      | nil => rw [hc] at h; simp at h
      | cons a l => rw [hc] at h; simpa using h
    · exact h

theorem tail_append_singleton_of_head {l : List M} {m a : M} (h : l.head? = some a) :
    (l ++ [m]).tail = l.tail ++ [m] := by
  cases l with
  | nil => simp at h
  | cons b l => simp

/-- Calls of two different ranks commute. -/
theorem applyEffect_comm (w : World S M) {r1 r2 : Int} (hne : r1 ≠ r2)
    (p1 p2 : Proc S M) (e1 e2 : Effect M)
    (h1 : ∀ s t, e1 = Effect.popped s t → ∃ m, (w.chan s r1 t).head? = some m)
    (h2 : ∀ s t, e2 = Effect.popped s t → ∃ m, (w.chan s r2 t).head? = some m) :
    applyEffect (applyEffect w r1 p1 e1) r2 p2 e2
      = applyEffect (applyEffect w r2 p2 e2) r1 p1 e1 := by
  have hne2 : r2 ≠ r1 := fun h => hne h.symm
  apply World.ext_iff3
  · intro k
    cases e1 <;> cases e2 <;> simp only [applyEffect, put_procs, push_procs, pop_procs] <;>
      split_ifs <;> first | rfl | (exfalso; omega)
  · intro s d t
    cases e1 with
    | silent => cases e2 <;> simp [applyEffect]
    | pushed d1 t1 m1 =>
      cases e2 with
      | silent => simp [applyEffect]
      | pushed d2 t2 m2 =>
        simp only [applyEffect, push_chan, put_chan]
        by_cases hs1 : s = r1 <;> by_cases hs2 : s = r2 <;> simp [hs1, hs2, hne, hne2]
      | popped s2 t2 =>
        simp only [applyEffect, push_chan, pop_chan, put_chan]
        by_cases hA : s = r1 ∧ d = d1 ∧ t = t1 <;> by_cases hB : s = s2 ∧ d = r2 ∧ t = t2
        · obtain ⟨m, hm⟩ := h2 s2 t2 rfl
          have hm1 : (w.chan s d t).head? = some m := by
            rw [hB.1, hB.2.1, hB.2.2]; exact hm
          simp only [if_pos hA, if_pos hB]
          exact tail_append_singleton_of_head hm1
        · simp only [if_pos hA, if_neg hB]
        · simp only [if_neg hA, if_pos hB]
        · simp only [if_neg hA, if_neg hB]
    | popped s1 t1 =>
      cases e2 with
      | silent => simp [applyEffect]
      | popped s2 t2 =>
        simp only [applyEffect, pop_chan, put_chan]
        by_cases hd1 : d = r1 <;> by_cases hd2 : d = r2 <;> simp [hd1, hd2, hne, hne2]
      | pushed d2 t2 m2 =>
        simp only [applyEffect, push_chan, pop_chan, put_chan]
        by_cases hA : s = r2 ∧ d = d2 ∧ t = t2 <;> by_cases hB : s = s1 ∧ d = r1 ∧ t = t1
        · obtain ⟨m, hm⟩ := h1 s1 t1 rfl
          have hm1 : (w.chan s d t).head? = some m := by
            rw [hB.1, hB.2.1, hB.2.2]; exact hm
          simp only [if_pos hA, if_pos hB]
          exact (tail_append_singleton_of_head hm1).symm
        · simp only [if_pos hA, if_neg hB]
        · simp only [if_neg hA, if_pos hB]
        · simp only [if_neg hA, if_neg hB]
  · cases e1 <;> cases e2 <;> simp [applyEffect]

/-- The diamond of the interleaving semantics: when two different ranks can
both make a call, either order of the two calls gives the same world. -/
theorem step_diamond {w w1 w2 : World S M} {r1 r2 : Int} (hne : r1 ≠ r2)
    (h1 : step w r1 = some w1) (h2 : step w r2 = some w2) :
    ∃ w3, step w1 r2 = some w3 ∧ step w2 r1 = some w3 := by
  have hne2 : r2 ≠ r1 := fun h => hne h.symm
  simp only [step, Option.map_eq_some'] at h1 h2
  obtain ⟨⟨p1, e1⟩, hl1, rfl⟩ := h1
  obtain ⟨⟨p2, e2⟩, hl2, rfl⟩ := h2
  refine ⟨applyEffect (applyEffect w r1 p1 e1) r2 p2 e2, ?_, ?_⟩
  · simp only [step, Option.map_eq_some']
    refine ⟨(p2, e2), ?_, rfl⟩
    rw [applyEffect_procs_of_ne _ _ _ _ hne2]
    exact localStep_mono hl2 (fun s t m h => applyEffect_head_of_ne w r1 p1 e1 hne2 s t m h)
  · simp only [step, Option.map_eq_some']
    refine ⟨(p1, e1), ?_, ?_⟩
    · rw [applyEffect_procs_of_ne _ _ _ _ hne]
      exact localStep_mono hl1 (fun s t m h => applyEffect_head_of_ne w r2 p2 e2 hne s t m h)
    · symm
      apply applyEffect_comm w hne
      · rintro s t rfl
        exact localStep_popped hl1
      · rintro s t rfl
        exact localStep_popped hl2

theorem exec_cons (r : Int) (rs : List Int) (w : World S M) :
    exec (r :: rs) w = (step w r).bind (exec rs) := rfl

theorem exec_append (l1 l2 : List Int) (w : World S M) :
    exec (l1 ++ l2) w = (exec l1 w).bind (exec l2) := by
  induction l1 generalizing w with
  | nil => simp [exec]
  | cons r rs ih =>
    simp only [List.cons_append, exec_cons]
    cases step w r with
    | none => simp
    | some w1 => simpa using ih w1

theorem halted_of_done {w : World S M} (h : w.Done) : w.Halted := by
  intro r
  simp [step, localStep, h r]

/-- A complete run stays a complete run, one call shorter, after any call that
is possible at its start. -/
theorem exec_after_step {sched : List Int} {w w1 t : World S M} {r : Int}
    (hex : exec sched w = some t) (ht : t.Halted) (hr : step w r = some w1) :
    ∃ sched1, exec sched1 w1 = some t ∧ sched1.length + 1 = sched.length
      ∧ ∀ x ∈ sched1, x ∈ sched := by
  induction sched generalizing w w1 with
  | nil =>
    simp only [exec, Option.some.injEq] at hex
    subst hex
    rw [ht r] at hr
    exact absurd hr (by simp)
  | cons a rest ih =>
    rw [exec_cons] at hex
    cases ha : step w a with
    | none => rw [ha] at hex; simp at hex
    | some wa =>
      rw [ha] at hex
      simp only [Option.some_bind] at hex
      by_cases hra : a = r
      · subst hra
        rw [ha] at hr
        cases hr
        exact ⟨rest, hex, rfl, fun x hx => List.mem_cons_of_mem _ hx⟩
      · obtain ⟨w3, h31, h32⟩ := step_diamond hra ha hr
        obtain ⟨s1, hs1, hlen, hsub⟩ := ih hex h31
        refine ⟨a :: s1, ?_, by simp [hlen], ?_⟩
        · rw [exec_cons, h32]
          simpa using hs1
        · intro x hx
          rcases List.mem_cons.mp hx with rfl | hx
          · exact List.mem_cons_self _ _
          · exact List.mem_cons_of_mem _ (hsub x hx)

theorem firstStep_eq_none {w : World S M} {l : List Int} (h : firstStep w l = none) :
    ∀ r ∈ l, step w r = none := by
  induction l with
  | nil => simp
  | cons a rest ih =>
    intro r hr
    simp only [firstStep] at h
    cases ha : step w a with
    | some wa => rw [ha] at h; simp at h
    | none =>
      rw [ha] at h
      rcases List.mem_cons.mp hr with rfl | hr
      · exact ha
      · exact ih h r hr

theorem firstStep_eq_some {w w1 : World S M} {l : List Int} (h : firstStep w l = some w1) :
    ∃ r, step w r = some w1 := by
  induction l with
  | nil => simp [firstStep] at h
  | cons a rest ih =>
    simp only [firstStep] at h
    cases ha : step w a with
    | some wa =>
      rw [ha] at h
      simp only [Option.some.injEq] at h
      exact ⟨a, by rw [ha, h]⟩
    | none =>
      rw [ha] at h
      exact ih h

theorem run_halted {w : World S M} (h : w.Halted) (l : List Int) (fuel : Nat) :
    run l fuel w = w := by
  cases fuel with
  | zero => rfl
  | succ n =>
    have : firstStep w l = none := by
      induction l with
      | nil => rfl
      | cons a rest ih => simp [firstStep, h a, ih]
    simp [run, this]

/-- The scheduler completes every run that some schedule completes: with fuel
for as many calls as that schedule makes, it ends in the same world. -/
theorem run_of_exec {l : List Int} (n : Nat) :
    ∀ (sched : List Int) (w t : World S M), sched.length = n →
      exec sched w = some t → t.Halted → (∀ x ∈ sched, x ∈ l) →
      ∀ fuel, n ≤ fuel → run l fuel w = t := by
  induction n with
  | zero =>
    intro sched w t hlen hex ht _ fuel _
    have : sched = [] := List.length_eq_zero.mp hlen
    subst this
    simp only [exec, Option.some.injEq] at hex
    subst hex
    exact run_halted ht l fuel
  | succ n ih =>
    intro sched w t hlen hex ht hmem fuel hfuel
    obtain ⟨f, rfl⟩ : ∃ f, fuel = f + 1 := ⟨fuel - 1, by omega⟩
    cases sched with
    | nil => simp at hlen
    | cons a rest =>
      have hstep : ∃ wa, step w a = some wa := by
        rw [exec_cons] at hex
        cases ha : step w a with
        | none => rw [ha] at hex; simp at hex
        | some wa => exact ⟨wa, rfl⟩
      obtain ⟨wa, hwa⟩ := hstep
      cases hfs : firstStep w l with
      | none =>
        have := firstStep_eq_none hfs a (hmem a (List.mem_cons_self _ _))
        rw [this] at hwa
        simp at hwa
      | some w1 =>
        obtain ⟨r, hr⟩ := firstStep_eq_some hfs
        obtain ⟨s1, hs1, hlen1, hsub⟩ := exec_after_step hex ht hr
        simp only [run, hfs]
        apply ih s1 w1 t (by simp at hlen hlen1; omega) hs1 ht
          (fun x hx => hmem x (hsub x hx)) f (by omega)

/-- Every interleaving that runs until no rank can make a call ends in the
world in which a complete schedule ends. -/
theorem halted_unique {w v : World S M} (hreach : Reaches w v) (hv : v.Halted) :
    ∀ (sched : List Int) (t : World S M), exec sched w = some t → t.Halted → v = t := by
  induction hreach using Relation.ReflTransGen.head_induction_on with
  | refl =>
    intro sched t hex _
    cases sched with
    | nil => simpa [exec] using hex
    | cons a rest =>
      rw [exec_cons, hv a] at hex
      simp at hex
  | head hstep _ ih =>
    intro sched t hex ht
    obtain ⟨r, hr⟩ := hstep
    obtain ⟨s1, hs1, _, _⟩ := exec_after_step hex ht hr
    exact ih s1 t hs1 ht

theorem step_of_send {w : World S M} {r : Int} {a : S} {d t : Int} {f : S → M}
    {l : List (Act S M)} (h : w.procs r = ⟨a, Act.send d t f :: l⟩) :
    step w r = some ((w.put r ⟨a, l⟩).push r d t (f a)) := by
  simp [step, localStep, h, applyEffect]

theorem step_of_recv {w : World S M} {r : Int} {a b : S} {s t : Int}
    {g : M → S → Option S} {l : List (Act S M)} {m : M} {n : List M}
    (h : w.procs r = ⟨a, Act.recv s t g :: l⟩) (hc : w.chan s r t = m :: n)
    (hg : g m a = some b) :
    step w r = some ((w.put r ⟨b, l⟩).pop s r t) := by
  simp [step, localStep, h, hc, hg, applyEffect]

theorem step_of_compute {w : World S M} {r : Int} {a b : S}
    {f : S → Option S} {l : List (Act S M)}
    (h : w.procs r = ⟨a, Act.compute f :: l⟩) (hf : f a = some b) :
    step w r = some (w.put r ⟨b, l⟩) := by
  simp [step, localStep, h, hf, applyEffect]

theorem exec_one {w w1 : World S M} {r : Int} (h : step w r = some w1) :
    exec [r] w = some w1 := by
  simp [exec, h]

theorem exec_snoc {l : List Int} {w w1 w2 : World S M} {r : Int}
    (h1 : exec l w = some w1) (h2 : step w1 r = some w2) :
    exec (l ++ [r]) w = some w2 := by
  rw [exec_append, h1]
  simpa using exec_one h2

theorem exec_trans {l1 l2 : List Int} {w w1 w2 : World S M}
    (h1 : exec l1 w = some w1) (h2 : exec l2 w1 = some w2) :
    exec (l1 ++ l2) w = some w2 := by
  rw [exec_append, h1]
  simpa using h2

/-- A collective call in which no rank has a call to make is over at once. -/
theorem start_done {size : Int} {st : Int → S} {prog : Int → List (Act S M)}
    (h : ∀ r, 0 ≤ r → r < size → prog r = []) : (start size st prog).Done := by
  intro r
  simp only [start]
  split_ifs with hr
  · exact h r hr.1 hr.2
  · rfl

theorem mem_ranks {size r : Int} : r ∈ ranks size ↔ 0 ≤ r ∧ r < size := by
  simp only [ranks, List.mem_map, List.mem_range]
  constructor
  · rintro ⟨k, hk, rfl⟩
    constructor
    · exact Int.ofNat_nonneg k
    · have : (k : Int) < (size.toNat : Int) := by exact_mod_cast hk
      have h2 : Int.ofNat k = (k : Int) := rfl
      omega
  · rintro ⟨h0, h1⟩
    refine ⟨r.toNat, by omega, ?_⟩
    have h2 : Int.ofNat r.toNat = (r.toNat : Int) := rfl
    omega

theorem outcome_of_exec {size : Int} {l : List Int} {w t : World S M}
    (hex : exec l w = some t) (hdone : t.Done)
    (hmem : ∀ x ∈ l, 0 ≤ x ∧ x < size) : Outcome size w t := by
  have ht := halted_of_done hdone
  refine ⟨hdone, ⟨l.length, ?_⟩, ?_⟩
  · intro fuel hfuel
    exact run_of_exec l.length l w t rfl hex ht
      (fun x hx => mem_ranks.mpr (hmem x hx)) fuel hfuel
  · intro v hreach hv
    exact halted_unique hreach hv l t hex ht

theorem outcome_of_done {size : Int} {w : World S M} (h : w.Done) : Outcome size w w :=
  outcome_of_exec (l := []) rfl h (by simp)

end Mpi

/-! ## Rows of the raw buffer -/

namespace linearpart

variable {α : Type}

theorem length_writeRow (raw row : List α) (off : Int)
    (h : off.toNat + row.length ≤ raw.length) :
    (writeRow raw off row).length = raw.length := by
  simp only [writeRow, List.length_append, List.length_take, List.length_drop]
  omega

theorem length_readRow (raw : List α) (off n : Int)
    (h : off.toNat + n.toNat ≤ raw.length) :
    (readRow raw off n).length = n.toNat := by
  simp only [readRow, List.length_take, List.length_drop]
  omega

theorem length_readRow_le (raw : List α) (off n : Int) :
    (readRow raw off n).length ≤ n.toNat := by
  simp only [readRow, List.length_take, List.length_drop]
  omega

/-- Reading back the cells just written. -/
theorem readRow_writeRow_same (raw row : List α) (off n : Int)
    (h : off.toNat + row.length ≤ raw.length) (hn : n.toNat = row.length) :
    readRow (writeRow raw off row) off n = row := by
  simp only [readRow, writeRow, hn]
  have h1 : (List.take off.toNat raw).length = off.toNat := by
    simp only [List.length_take]; omega
  rw [List.append_assoc, List.drop_append_of_le_length (by omega)]
  rw [List.drop_of_length_le (by omega), List.nil_append]
  rw [List.take_append_of_le_length (by omega), List.take_of_length_le (by omega)]

/-- Cells before the written ones keep their contents. -/
theorem readRow_writeRow_before (raw row : List α) (off o n : Int)
    (h : o.toNat + n.toNat ≤ off.toNat) (hoff : off.toNat ≤ raw.length) :
    readRow (writeRow raw off row) o n = readRow raw o n := by
  simp only [readRow, writeRow]
  have h1 : (List.take off.toNat raw).length = off.toNat := by
    simp only [List.length_take]; omega
  rw [List.append_assoc, List.drop_append_of_le_length (by omega)]
  rw [List.take_append_of_le_length (by simp only [List.length_drop]; omega)]
  rw [List.drop_take, List.take_take]
  congr 1
  omega

/-- Cells after the written ones keep their contents. -/
theorem readRow_writeRow_after (raw row : List α) (off o n : Int)
    (h : off.toNat + row.length ≤ o.toNat) (hlen : off.toNat + row.length ≤ raw.length) :
    readRow (writeRow raw off row) o n = readRow raw o n := by
  simp only [readRow, writeRow]
  have h1 : (List.take off.toNat raw ++ row).length = off.toNat + row.length := by
    simp only [List.length_append, List.length_take]; omega
  obtain ⟨k, hk⟩ : ∃ k, o.toNat = (off.toNat + row.length) + k := ⟨_, (Nat.add_sub_cancel' h).symm⟩
  rw [hk, ← h1, List.drop_append, List.drop_drop, h1]

end linearpart

/-! ## `share` -/

namespace linearpart

variable {α : Type}

open Mpi

theorem shareProg_of_lt {p : linearpart α} (hs : 1 < p.size) (h : p.rank < p.size - 1) :
    p.shareProg =
      Act.send (p.rank + 1) 0 (fun q => q.lastRow) ::
      Act.recv (p.rank + 1) 0 (fun m q => q.recvInto q.bottomOff q.nx m) ::
      (if p.rank > 0 then
        [Act.send (p.rank - 1) 0 (fun q => q.firstRow),
         Act.recv (p.rank - 1) 0 (fun m q => q.recvInto q.topOff q.nx m)]
       else []) := by
  have : ¬ p.size ≤ 1 := by omega
  simp [shareProg, this, h]

theorem shareProg_of_last {p : linearpart α} (hs : 1 < p.size) (h : p.rank = p.size - 1) :
    p.shareProg =
      [Act.send (p.rank - 1) 0 (fun q => q.firstRow),
       Act.recv (p.rank - 1) 0 (fun m q => q.recvInto q.topOff q.nx m)] := by
  have h1 : ¬ p.size ≤ 1 := by omega
  have h2 : ¬ p.rank < p.size - 1 := by omega
  have h3 : p.rank > 0 := by omega
  simp [shareProg, h1, h2, h3]

theorem share_procs (size : Int) (parts : Int → linearpart α) (r : Int) :
    (share size parts).procs r
      = ⟨parts r, if 0 ≤ r ∧ r < size then (parts r).shareProg else []⟩ := rfl

/-- The first sends, in ascending order of rank. -/
theorem share_exec_sent {size nx : Int} {parts : Int → linearpart α}
    (hc : Collective size nx parts) (hs : 2 ≤ size) (k : Nat) (hk : (k : Int) ≤ size - 1) :
    ∃ sched, exec sched (share size parts) = some (shareSent size parts k)
      ∧ ∀ x ∈ sched, 0 ≤ x ∧ x < size := by
  induction k with
  | zero =>
    refine ⟨[], ?_, by simp⟩
    simp only [exec, Option.some.injEq]
    apply World.ext_iff3
    · intro r
      simp only [shareSent, Nat.cast_zero]
      rw [if_neg (by omega)]
    · intro s d t
      simp only [shareSent, Nat.cast_zero]
      rw [if_neg (by omega)]
      rfl
    · rfl
  | succ k ih =>
    obtain ⟨sched, hex, hmem⟩ := ih (by push_cast at hk ⊢; omega)
    have hk0 : (0 : Int) ≤ k := Int.ofNat_nonneg k
    have hk1 : (k : Int) < size - 1 := by push_cast at hk; omega
    have hrank := hc.rank_eq k hk0 (by omega)
    have hsize := hc.size_eq k hk0 (by omega)
    have hprog := shareProg_of_lt (p := parts k) (by omega) (by omega)
    have hproc : (shareSent size parts k).procs k
        = ⟨parts k, Act.send ((parts k).rank + 1) 0 (fun q => q.lastRow) ::
            (parts k).shareProg.tail⟩ := by
      simp only [shareSent]
      rw [if_neg (by omega), share_procs, if_pos (by omega)]
      rw [hprog]
      rfl
    refine ⟨sched ++ [(k : Int)], exec_snoc hex ((step_of_send hproc).trans ?_), ?_⟩
    · congr 1
      apply World.ext_iff3
      · intro r
        simp only [shareSent, push_procs, put_procs, Nat.cast_succ]
        by_cases hr : r = k
        · subst hr
          rw [if_pos rfl, if_pos (by omega)]
        · rw [if_neg hr]
          by_cases h2 : 0 ≤ r ∧ r < k
          · rw [if_pos h2, if_pos (by omega)]
          · rw [if_neg h2, if_neg (by omega)]
      · intro s d t
        simp only [shareSent, push_chan, put_chan, Nat.cast_succ, hrank]
        by_cases h1 : s = (k : Int) ∧ d = (k : Int) + 1 ∧ t = 0
        · obtain ⟨rfl, rfl, rfl⟩ := h1
          rw [if_pos ⟨rfl, rfl, rfl⟩, if_neg (by omega), if_pos (by omega)]
          rfl
        · rw [if_neg h1]
          by_cases h2 : 0 ≤ s ∧ s < (k : Int) ∧ d = s + 1 ∧ t = 0
          · rw [if_pos h2, if_pos (by omega)]
          · rw [if_neg h2, if_neg (by omega)]
      · simp only [shareSent, push_sent, put_sent, Nat.cast_succ]
        omega
    · intro x hx
      rcases List.mem_append.mp hx with hx | hx
      · exact hmem x hx
      · simp only [List.mem_singleton] at hx
        omega

end linearpart

namespace linearpart

variable {α : Type}

open Mpi

theorem shareProg_tail_of_lt {p : linearpart α} (hs : 1 < p.size) (h : p.rank < p.size - 1) :
    p.shareProg.tail =
      Act.recv (p.rank + 1) 0 (fun m q => q.recvInto q.bottomOff q.nx m) :: p.shareTop := by
  rw [shareProg_of_lt hs h]
  rfl

theorem shareProg_eq_shareTop {p : linearpart α} (hs : 1 < p.size) (h : p.rank = p.size - 1) :
    p.shareProg = p.shareTop := by
  have h3 : p.rank > 0 := by omega
  rw [shareProg_of_last hs h]
  simp [shareTop, h3]

theorem length_firstRow_le (p : linearpart α) : (p.firstRow.length : Int) ≤ p.nx.toNat := by
  exact_mod_cast length_readRow_le _ _ _

theorem length_lastRow {p : linearpart α} (hw : p.WF) (hny : 1 ≤ p.ny) :
    p.lastRow.length = p.nx.toNat := by
  have h1 := hw.nx_nonneg
  have h2 : 0 ≤ (p.ny - 1) * p.nx := mul_nonneg (by omega) h1
  have h3 : (p.ny - 1) * p.nx = p.nx * p.ny - p.nx := by ring
  apply length_readRow
  rw [hw.length_eq]
  simp only [gridOff]
  omega

theorem length_firstRow {p : linearpart α} (hw : p.WF) (hny : 1 ≤ p.ny) :
    p.firstRow.length = p.nx.toNat := by
  have h1 := hw.nx_nonneg
  have h2 : 0 ≤ (p.ny - 1) * p.nx := mul_nonneg (by omega) h1
  have h3 : (p.ny - 1) * p.nx = p.nx * p.ny - p.nx := by ring
  apply length_readRow
  rw [hw.length_eq]
  simp only [gridOff]
  omega

theorem shareBottom_of_lt {size : Int} {parts : Int → linearpart α} {r : Int}
    (h : r < size - 1) :
    shareBottom size parts r = { parts r with
      rawData := writeRow (parts r).rawData (parts r).bottomOff (parts (r + 1)).firstRow } := by
  simp [shareBottom, h]

/-- The receive of the first `MPI_Sendrecv` leaves the first owned row alone. -/
theorem firstRow_shareBottom {size nx : Int} {parts : Int → linearpart α}
    (hc : Collective size nx parts) (hny : ∀ r, 0 ≤ r → r < size → 1 ≤ (parts r).ny)
    {r : Int} (h0 : 0 ≤ r) (h1 : r < size) :
    (shareBottom size parts r).firstRow = (parts r).firstRow := by
  by_cases h : r < size - 1
  · rw [shareBottom_of_lt h]
    have hw := hc.wf r h0 h1
    have hn := hny r h0 h1
    have hx := hw.nx_nonneg
    have h2 : 0 ≤ (parts r).nx * ((parts r).ny - 1) := mul_nonneg hx (by omega)
    have h3 : (parts r).nx * ((parts r).ny - 1) = (parts r).nx * (parts r).ny - (parts r).nx := by
      ring
    simp only [firstRow, gridOff]
    apply readRow_writeRow_before
    · simp only [bottomOff]; omega
    · rw [hw.length_eq]; simp only [bottomOff]; omega
  · simp [shareBottom, h]

theorem shareBottom_nx (size : Int) (parts : Int → linearpart α) (r : Int) :
    (shareBottom size parts r).nx = (parts r).nx := by
  unfold shareBottom
  split <;> rfl

/-- Rank `r` below the last completes its first `MPI_Sendrecv` once the rank
below it has returned. -/
theorem share_step_bottom {size nx : Int} {parts : Int → linearpart α}
    (hc : Collective size nx parts) {r : Int} (h0 : 0 ≤ r) (h1 : r < size - 1) :
    step (shareDone size parts (r + 1)) r = some (shareMid size parts r) := by
  have hrank := hc.rank_eq r h0 (by omega)
  have hsize := hc.size_eq r h0 (by omega)
  have hproc : (shareDone size parts (r + 1)).procs r
      = ⟨parts r, Act.recv (r + 1) 0 (fun m q => q.recvInto q.bottomOff q.nx m) ::
          (parts r).shareTop⟩ := by
    have hs1 : 1 < (parts r).size := by omega
    have hlt : (parts r).rank < (parts r).size - 1 := by omega
    simp only [shareDone]
    rw [shareProg_tail_of_lt hs1 hlt, hrank]
    split_ifs <;> first | rfl | (exfalso; omega)
  have hchan : (shareDone size parts (r + 1)).chan (r + 1) r 0
      = [(parts (r + 1)).firstRow] := by
    simp only [shareDone, true_and, and_true]
    split_ifs <;> first | rfl | (exfalso; omega)
  have hrecv : (parts r).recvInto (parts r).bottomOff (parts r).nx (parts (r + 1)).firstRow
      = some (shareBottom size parts r) := by
    have hl := length_firstRow_le (parts (r + 1))
    have hx1 := hc.nx_eq r h0 (by omega)
    have hx2 := hc.nx_eq (r + 1) (by omega) (by omega)
    have hx := (hc.wf r h0 (by omega)).nx_nonneg
    have hle : ((parts (r + 1)).firstRow.length : Int) ≤ (parts r).nx := by omega
    rw [shareBottom_of_lt h1, recvInto, if_pos hle]
  rw [step_of_recv hproc hchan hrecv]
  congr 1
  apply World.ext_iff3
  · intro k
    simp only [shareMid, pop_procs, put_procs]
  · intro s d t
    simp only [shareMid, shareDone, pop_chan, put_chan]
    split_ifs <;> first | rfl | (exfalso; omega)
  · rfl

/-- Rank `r` above rank 0 completes its second `MPI_Sendrecv`. -/
theorem share_step_top {size nx : Int} {parts : Int → linearpart α}
    (hc : Collective size nx parts) (hny : ∀ r, 0 ≤ r → r < size → 1 ≤ (parts r).ny)
    {r : Int} (h0 : 0 < r) (h1 : r < size) :
    exec [r, r] (shareMid size parts r) = some (shareDone size parts r) := by
  have hrank := hc.rank_eq r (by omega) h1
  have hproc : (shareMid size parts r).procs r
      = ⟨shareBottom size parts r, [Act.send (r - 1) 0 (fun q => q.firstRow),
          Act.recv (r - 1) 0 (fun m q => q.recvInto q.topOff q.nx m)]⟩ := by
    simp only [shareMid, if_true, shareTop, hrank]
    rw [if_pos h0]
  have hstep1 := step_of_send hproc
  have hproc2 : (((shareMid size parts r).put r
      ⟨shareBottom size parts r,
        [Act.recv (r - 1) 0 (fun m q => q.recvInto q.topOff q.nx m)]⟩).push r (r - 1) 0
      (shareBottom size parts r).firstRow).procs r
      = ⟨shareBottom size parts r,
        [Act.recv (r - 1) 0 (fun m q => q.recvInto q.topOff q.nx m)]⟩ := by
    simp
  have hchan2 : (((shareMid size parts r).put r
      ⟨shareBottom size parts r,
        [Act.recv (r - 1) 0 (fun m q => q.recvInto q.topOff q.nx m)]⟩).push r (r - 1) 0
      (shareBottom size parts r).firstRow).chan (r - 1) r 0 = [(parts (r - 1)).lastRow] := by
    simp only [push_chan, put_chan, shareMid, true_and, and_true]
    split_ifs <;> first | rfl | (exfalso; omega)
  have hrecv : (shareBottom size parts r).recvInto (shareBottom size parts r).topOff
      (shareBottom size parts r).nx (parts (r - 1)).lastRow
      = some (shareFinal size parts r) := by
    have hl := length_lastRow (hc.wf (r - 1) (by omega) (by omega)) (hny (r - 1) (by omega) (by omega))
    have hx1 := hc.nx_eq r (by omega) (by omega)
    have hx2 := hc.nx_eq (r - 1) (by omega) (by omega)
    have hx := (hc.wf r (by omega) (by omega)).nx_nonneg
    have hgt : r > 0 := h0
    have hle : ((parts (r - 1)).lastRow.length : Int) ≤ (shareBottom size parts r).nx := by
      rw [shareBottom_nx]; omega
    rw [recvInto, if_pos hle]
    simp only [shareFinal, hgt, if_true]
  have hstep2 := step_of_recv hproc2 hchan2 hrecv
  simp only [exec, hstep1, hstep2, Option.some_bind]
  congr 1
  apply World.ext_iff3
  · intro k
    simp only [shareMid, shareDone, pop_procs, put_procs, push_procs]
    by_cases hk : k = r
    · subst hk
      simp only [if_true]
      split_ifs <;> first | rfl | (exfalso; omega)
    · simp only [if_neg hk]
      split_ifs <;> first | rfl | (exfalso; omega)
  · intro s d t
    have hfr := firstRow_shareBottom hc hny (le_of_lt h0) h1
    simp only [shareMid, shareDone, pop_chan, put_chan, push_chan, hfr]
    by_cases hB : s = r
    · subst hB
      split_ifs <;> first | rfl | (exfalso; omega)
    · split_ifs <;> first | rfl | (exfalso; omega)
  · simp only [shareMid, shareDone, pop_sent, put_sent, push_sent]
    split_ifs <;> omega

theorem shareMid_last {size nx : Int} {parts : Int → linearpart α}
    (hc : Collective size nx parts) (hs : 2 ≤ size) :
    shareDone size parts size = shareMid size parts (size - 1) := by
  have hrank := hc.rank_eq (size - 1) (by omega) (by omega)
  have hsize := hc.size_eq (size - 1) (by omega) (by omega)
  have hprog := shareProg_eq_shareTop (p := parts (size - 1)) (by omega) (by omega)
  apply World.ext_iff3
  · intro k
    simp only [shareMid, sub_add_cancel]
    by_cases hk : k = size - 1
    · subst hk
      simp only [shareDone, share_procs, shareBottom, if_true, hprog]
      split_ifs <;> first | rfl | (exfalso; omega)
    · rw [if_neg hk]
  · intro s d t
    simp only [shareMid, shareDone]
    split_ifs <;> first | rfl | (exfalso; omega)
  · simp only [shareMid, sub_add_cancel]

theorem shareMid_zero {size nx : Int} {parts : Int → linearpart α}
    (hc : Collective size nx parts) (hs : 2 ≤ size) :
    shareMid size parts 0 = shareDone size parts 0 := by
  have hrank := hc.rank_eq 0 (by omega) (by omega)
  have htop : (parts 0).shareTop = [] := by
    simp [shareTop, hrank]
  apply World.ext_iff3
  · intro k
    simp only [shareMid, shareDone, zero_add]
    by_cases hk : k = 0
    · subst hk
      simp only [if_true, htop, shareFinal]
      split_ifs <;> first | rfl | (exfalso; omega)
    · rw [if_neg hk]
      split_ifs <;> first | rfl | (exfalso; omega)
  · intro s d t
    simp only [shareMid, shareDone]
    split_ifs <;> first | rfl | (exfalso; omega)
  · simp only [shareMid, shareDone, zero_add]
    split_ifs <;> omega

/-- Rank `r` returns once the rank below it has returned. -/
theorem share_step_done {size nx : Int} {parts : Int → linearpart α}
    (hc : Collective size nx parts) (hs : 2 ≤ size)
    (hny : ∀ r, 0 ≤ r → r < size → 1 ≤ (parts r).ny) {r : Int} (h0 : 0 ≤ r) (h1 : r < size) :
    ∃ sched, exec sched (shareDone size parts (r + 1)) = some (shareDone size parts r)
      ∧ ∀ x ∈ sched, x = r := by
  have hA : ∃ s1, exec s1 (shareDone size parts (r + 1)) = some (shareMid size parts r)
      ∧ ∀ x ∈ s1, x = r := by
    by_cases hlt : r < size - 1
    · exact ⟨[r], exec_one (share_step_bottom hc h0 hlt), by simp⟩
    · have hr : r = size - 1 := by omega
      subst hr
      refine ⟨[], ?_, by simp⟩
      simp only [exec, sub_add_cancel, shareMid_last hc hs]
  have hB : ∃ s2, exec s2 (shareMid size parts r) = some (shareDone size parts r)
      ∧ ∀ x ∈ s2, x = r := by
    by_cases hgt : 0 < r
    · exact ⟨[r, r], share_step_top hc hny hgt h1, by simp⟩
    · have hr : r = 0 := by omega
      subst hr
      refine ⟨[], ?_, by simp⟩
      simp only [exec, shareMid_zero hc hs]
  obtain ⟨s1, h1e, h1m⟩ := hA
  obtain ⟨s2, h2e, h2m⟩ := hB
  refine ⟨s1 ++ s2, exec_trans h1e h2e, ?_⟩
  intro x hx
  rcases List.mem_append.mp hx with hx | hx
  · exact h1m x hx
  · exact h2m x hx

/-- The ranks return in descending order. -/
theorem share_exec_done {size nx : Int} {parts : Int → linearpart α}
    (hc : Collective size nx parts) (hs : 2 ≤ size)
    (hny : ∀ r, 0 ≤ r → r < size → 1 ≤ (parts r).ny) (j : Nat) (hj : (j : Int) ≤ size) :
    ∃ sched, exec sched (shareDone size parts size) = some (shareDone size parts (size - j))
      ∧ ∀ x ∈ sched, 0 ≤ x ∧ x < size := by
  induction j with
  | zero => exact ⟨[], by simp [exec], by simp⟩
  | succ j ih =>
    obtain ⟨s1, h1e, h1m⟩ := ih (by push_cast at hj; omega)
    have hj1 : (j : Int) + 1 ≤ size := by push_cast at hj; omega
    have hj0 : (0 : Int) ≤ j := Int.ofNat_nonneg j
    obtain ⟨s2, h2e, h2m⟩ := share_step_done hc hs hny (r := size - ((j : Int) + 1))
      (by omega) (by omega)
    have he : size - ((j : Int) + 1) + 1 = size - j := by ring
    rw [he] at h2e
    refine ⟨s1 ++ s2, ?_, ?_⟩
    · have := exec_trans h1e h2e
      simpa using this
    · intro x hx
      rcases List.mem_append.mp hx with hx | hx
      · exact h1m x hx
      · have := h2m x hx
        omega

/-- A complete schedule of `share()`. -/
theorem share_exec {size nx : Int} {parts : Int → linearpart α}
    (hc : Collective size nx parts) (hs : 2 ≤ size)
    (hny : ∀ r, 0 ≤ r → r < size → 1 ≤ (parts r).ny) :
    ∃ sched, exec sched (share size parts) = some (shareDone size parts 0)
      ∧ ∀ x ∈ sched, 0 ≤ x ∧ x < size := by
  obtain ⟨s1, h1e, h1m⟩ := share_exec_sent hc hs (size - 1).toNat (by omega)
  obtain ⟨s2, h2e, h2m⟩ := share_exec_done hc hs hny size.toNat (by omega)
  have e1 : ((size - 1).toNat : Int) = size - 1 := by omega
  have e2 : size - (size.toNat : Int) = 0 := by omega
  rw [e1] at h1e
  rw [e2] at h2e
  have hmid : shareSent size parts (size - 1) = shareDone size parts size := by
    apply World.ext_iff3
    · intro k
      simp only [shareSent, shareDone]
      split_ifs <;> first | rfl | (exfalso; omega)
    · intro s d t
      simp only [shareSent, shareDone]
      split_ifs <;> first | rfl | (exfalso; omega)
    · simp only [shareSent, shareDone]
      split_ifs <;> omega
  rw [hmid] at h1e
  refine ⟨s1 ++ s2, exec_trans h1e h2e, ?_⟩
  intro x hx
  rcases List.mem_append.mp hx with hx | hx
  · exact h1m x hx
  · exact h2m x hx

theorem shareDone_zero_done (size : Int) (parts : Int → linearpart α) :
    (shareDone size parts 0).Done := by
  intro r
  simp only [shareDone, share_procs]
  split_ifs <;> first | rfl | (exfalso; omega)

theorem shareDone_zero_st (size : Int) (parts : Int → linearpart α) {r : Int}
    (h0 : 0 ≤ r) (h1 : r < size) :
    ((shareDone size parts 0).procs r).st = shareFinal size parts r := by
  simp only [shareDone]
  rw [if_pos ⟨h0, h1⟩]

theorem shareBottom_length {size nx : Int} {parts : Int → linearpart α}
    (hc : Collective size nx parts) {r : Int} (h0 : 0 ≤ r) (h1 : r < size) :
    (shareBottom size parts r).rawData.length = (parts r).rawData.length := by
  by_cases h : r < size - 1
  · rw [shareBottom_of_lt h]
    have hw := hc.wf r h0 h1
    have hx := hw.nx_nonneg
    have hP : 0 ≤ (parts r).nx * (parts r).ny := mul_nonneg hx hw.ny_nonneg
    have hl := length_firstRow_le (parts (r + 1))
    have hx1 := hc.nx_eq r h0 h1
    have hx2 := hc.nx_eq (r + 1) (by omega) (by omega)
    apply length_writeRow
    rw [hw.length_eq]
    simp only [bottomOff]
    omega
  · simp [shareBottom, h]

theorem shareBottom_fields (size : Int) (parts : Int → linearpart α) (r : Int) :
    (shareBottom size parts r).nx = (parts r).nx
      ∧ (shareBottom size parts r).ny = (parts r).ny := by
  unfold shareBottom
  split <;> exact ⟨rfl, rfl⟩

/-- After `share()`, the top guard row of a rank above rank 0. -/
theorem topBorder_shareFinal {size nx : Int} {parts : Int → linearpart α}
    (hc : Collective size nx parts) (hny : ∀ r, 0 ≤ r → r < size → 1 ≤ (parts r).ny)
    {r : Int} (h0 : 0 < r) (h1 : r < size) :
    (shareFinal size parts r).topBorder = (parts (r - 1)).lastRow := by
  have hgt : r > 0 := h0
  have hw := hc.wf r (by omega) h1
  have hx := hw.nx_nonneg
  have hP : 0 ≤ (parts r).nx * (parts r).ny := mul_nonneg hx hw.ny_nonneg
  have hl := length_lastRow (hc.wf (r - 1) (by omega) (by omega))
    (hny (r - 1) (by omega) (by omega))
  have hx1 := hc.nx_eq r (by omega) h1
  have hx2 := hc.nx_eq (r - 1) (by omega) (by omega)
  have hlen := shareBottom_length hc (le_of_lt h0) h1
  have hf := (shareBottom_fields size parts r).1
  simp only [shareFinal, hgt, if_true, topBorder, topOff]
  apply readRow_writeRow_same
  · rw [hlen, hw.length_eq]
    simp only [Int.toNat_zero]
    omega
  · rw [hf]; omega

/-- After `share()`, the bottom guard row of a rank below the last. -/
theorem bottomBorder_shareFinal {size nx : Int} {parts : Int → linearpart α}
    (hc : Collective size nx parts) (hny : ∀ r, 0 ≤ r → r < size → 1 ≤ (parts r).ny)
    {r : Int} (h0 : 0 ≤ r) (h1 : r < size - 1) :
    (shareFinal size parts r).bottomBorder = (parts (r + 1)).firstRow := by
  have hw := hc.wf r h0 (by omega)
  have hx := hw.nx_nonneg
  have hn := hny r h0 (by omega)
  have hP : 0 ≤ (parts r).nx * ((parts r).ny - 1) := mul_nonneg hx (by omega)
  have hP2 : (parts r).nx * ((parts r).ny - 1) = (parts r).nx * (parts r).ny - (parts r).nx := by
    ring
  have hl := length_firstRow (hc.wf (r + 1) (by omega) (by omega))
    (hny (r + 1) (by omega) (by omega))
  have hx1 := hc.nx_eq r h0 (by omega)
  have hx2 := hc.nx_eq (r + 1) (by omega) (by omega)
  have hlen := shareBottom_length hc h0 (show r < size by omega)
  have hbot : (shareBottom size parts r).bottomBorder = (parts (r + 1)).firstRow := by
    rw [shareBottom_of_lt h1]
    simp only [bottomBorder, bottomOff]
    apply readRow_writeRow_same
    · rw [hw.length_eq]; omega
    · omega
  by_cases hgt : r > 0
  · have hl2 := length_lastRow (hc.wf (r - 1) (by omega) (by omega))
      (hny (r - 1) (by omega) (by omega))
    have hx3 := hc.nx_eq (r - 1) (by omega) (by omega)
    have hf := shareBottom_fields size parts r
    rw [← hbot]
    simp only [shareFinal, hgt, if_true, bottomBorder, bottomOff, topOff]
    apply readRow_writeRow_after
    · rw [hf.1, hf.2]
      simp only [Int.toNat_zero]
      omega
    · rw [hlen, hw.length_eq]
      simp only [Int.toNat_zero]
      omega
  · simp only [shareFinal, hgt, if_false]
    exact hbot

/-- The owned band is the same before and after `share()`. -/
theorem gridData_shareFinal {size nx : Int} {parts : Int → linearpart α}
    (hc : Collective size nx parts) (hny : ∀ r, 0 ≤ r → r < size → 1 ≤ (parts r).ny)
    {r : Int} (h0 : 0 ≤ r) (h1 : r < size) :
    (shareFinal size parts r).gridData = (parts r).gridData := by
  have hw := hc.wf r h0 h1
  have hx := hw.nx_nonneg
  have hP : 0 ≤ (parts r).nx * (parts r).ny := mul_nonneg hx hw.ny_nonneg
  have hx1 := hc.nx_eq r h0 h1
  have hlen := shareBottom_length hc h0 h1
  have hf := shareBottom_fields size parts r
  have hbot : (shareBottom size parts r).gridData = (parts r).gridData := by
    by_cases h : r < size - 1
    · rw [shareBottom_of_lt h]
      simp only [gridData, gridOff, bottomOff]
      apply readRow_writeRow_before
      · omega
      · rw [hw.length_eq]; omega
    · simp [shareBottom, h]
  by_cases hgt : r > 0
  · have hl2 := length_lastRow (hc.wf (r - 1) (by omega) (by omega))
      (hny (r - 1) (by omega) (by omega))
    have hx3 := hc.nx_eq (r - 1) (by omega) (by omega)
    rw [← hbot]
    simp only [shareFinal, hgt, if_true, gridData, gridOff, topOff]
    apply readRow_writeRow_after
    · rw [hf.1]
      simp only [Int.toNat_zero]
      omega
    · rw [hlen, hw.length_eq]
      simp only [Int.toNat_zero]
      omega
  · simp only [shareFinal, hgt, if_false]
    exact hbot

/-- C5. On `size ≥ 2` ranks that hold partitions of one width with at least
one owned row each, the collective `share()` completes (under the scheduler,
and with the same result under every interleaving of the calls), and
afterwards the top guard row of every rank `r > 0` is the last owned row
(local row `ny-1`) of rank `r-1`, the bottom guard row of every rank
`r < size-1` is the first owned row (local row 0) of rank `r+1`, and the owned
band of every rank is as before. -/
theorem share_borders (size nx : Int) (parts : Int → linearpart α)
    (hs : 2 ≤ size) (hc : Collective size nx parts)
    (hny : ∀ r, 0 ≤ r → r < size → 1 ≤ (parts r).ny) :
    ∃ t, Mpi.Outcome size (share size parts) t
      ∧ (∀ r, 0 < r → r < size →
          (t.procs r).st.topBorder = (parts (r - 1)).gridRow ((parts (r - 1)).ny - 1))
      ∧ (∀ r, 0 ≤ r → r < size - 1 →
          (t.procs r).st.bottomBorder = (parts (r + 1)).gridRow 0)
      ∧ ∀ r, 0 ≤ r → r < size → (t.procs r).st.gridData = (parts r).gridData := by
  obtain ⟨sched, hex, hmem⟩ := share_exec hc hs hny
  refine ⟨shareDone size parts 0,
    outcome_of_exec hex (shareDone_zero_done size parts) hmem, ?_, ?_, ?_⟩
  · intro r h0 h1
    rw [shareDone_zero_st size parts (le_of_lt h0) h1, topBorder_shareFinal hc hny h0 h1]
    rfl
  · intro r h0 h1
    rw [shareDone_zero_st size parts h0 (by omega), bottomBorder_shareFinal hc hny h0 h1]
    simp [firstRow, gridRow]
  · intro r h0 h1
    rw [shareDone_zero_st size parts h0 h1, gridData_shareFinal hc hny h0 h1]

end linearpart

/-! ## Cell accessors -/

namespace linearpart

variable {α : Type}

theorem SameShape.refl (p : linearpart α) : SameShape p p :=
  ⟨rfl, rfl, rfl, rfl, rfl, rfl, rfl, rfl⟩

theorem SameShape.trans {p q s : linearpart α} (h1 : SameShape p q) (h2 : SameShape q s) :
    SameShape p s := by
  obtain ⟨a1, a2, a3, a4, a5, a6, a7, a8⟩ := h1
  obtain ⟨b1, b2, b3, b4, b5, b6, b7, b8⟩ := h2
  exact ⟨b1.trans a1, b2.trans a2, b3.trans a3, b4.trans a4, b5.trans a5, b6.trans a6,
    b7.trans a7, b8.trans a8⟩

theorem SameShape.wf {p q : linearpart α} (h : SameShape p q) (hw : p.WF) : q.WF := by
  obtain ⟨_, _, a3, a4, _, _, _, a8⟩ := h
  exact ⟨by rw [a3]; exact hw.nx_nonneg, by rw [a4]; exact hw.ny_nonneg,
    by rw [a8, a3, a4]; exact hw.length_eq⟩

/-- The offset of cell `(x, y)` lies inside the allocation. -/
theorem cell_offset_bounds {p : linearpart α} (hw : p.WF) {x y : Int}
    (hx : 0 ≤ x ∧ x < p.nx) (hy : -1 ≤ y ∧ y ≤ p.ny) :
    0 ≤ p.gridOff + (x + y * p.nx)
      ∧ (p.gridOff + (x + y * p.nx)).toNat < p.rawData.length := by
  have h1 : 0 ≤ (y + 1) * p.nx := mul_nonneg (by omega) hw.nx_nonneg
  have h2 : 0 ≤ (p.ny - y) * p.nx := mul_nonneg (by omega) hw.nx_nonneg
  have e1 : (y + 1) * p.nx = y * p.nx + p.nx := by ring
  have e2 : (p.ny - y) * p.nx = p.nx * p.ny - y * p.nx := by ring
  rw [hw.length_eq]
  simp only [gridOff]
  omega

/-- Different cells have different offsets. -/
theorem cell_offset_inj {n x y x1 y1 : Int} (hx : 0 ≤ x ∧ x < n) (hx1 : 0 ≤ x1 ∧ x1 < n)
    (h : x + y * n = x1 + y1 * n) : x = x1 ∧ y = y1 := by
  have hy : y = y1 := by
    rcases lt_trichotomy y y1 with hlt | heq | hgt
    · exfalso
      have h3 : (y1 - y) * n = x - x1 := by linear_combination -h
      have h4 : 1 * n ≤ (y1 - y) * n := mul_le_mul_of_nonneg_right (by omega) (by omega)
      omega
    · exact heq
    · exfalso
      have h3 : (y - y1) * n = x1 - x := by linear_combination h
      have h4 : 1 * n ≤ (y - y1) * n := mul_le_mul_of_nonneg_right (by omega) (by omega)
      omega
  subst hy
  exact ⟨by omega, rfl⟩

theorem readCell_of_lt (raw : List α) {off : Int} (h0 : 0 ≤ off) (h1 : off.toNat < raw.length) :
    readCell raw off = .ok (raw.get ⟨off.toNat, h1⟩) := by
  simp [readCell, h0, List.getElem?_eq_getElem h1]

/-- On a well-formed partition `getData` returns a value at every cell of the
owned band and of the two guard rows. -/
theorem getData_ok {p : linearpart α} (hw : p.WF) {x y : Int}
    (hx : 0 ≤ x ∧ x < p.nx) (hy : -1 ≤ y ∧ y ≤ p.ny) :
    ∃ v, p.getData x y = .ok v := by
  obtain ⟨h0, h1⟩ := cell_offset_bounds hw hx hy
  refine ⟨p.rawData.get ⟨_, h1⟩, ?_⟩
  rw [getData, if_pos ⟨hx.1, hx.2, hy.1, hy.2⟩]
  exact readCell_of_lt _ h0 h1

theorem readCell_set (raw : List α) {off off1 : Int} (v : α) (h0 : 0 ≤ off)
    (h1 : off.toNat < raw.length) (h2 : 0 ≤ off1) :
    readCell (raw.set off.toNat v) off1
      = if off1 = off then .ok v else readCell raw off1 := by
  simp only [readCell, if_pos h2, List.getElem?_set]
  by_cases h : off1 = off
  · subst h
    simp [h1]
  · have : ¬ off.toNat = off1.toNat := by omega
    simp [h, this]

/-- A successful `setData` stores the value and changes no other cell. -/
theorem setData_spec {p : linearpart α} (hw : p.WF) {x y : Int} (v : α)
    (hx : 0 ≤ x ∧ x < p.nx) (hy : 0 ≤ y ∧ y < p.ny) :
    ∃ q, p.setData x y v = .ok q ∧ SameShape p q
      ∧ ∀ x1 y1, 0 ≤ x1 ∧ x1 < p.nx → -1 ≤ y1 ∧ y1 ≤ p.ny →
          q.getData x1 y1 = if x1 = x ∧ y1 = y then .ok v else p.getData x1 y1 := by
  obtain ⟨h0, h1⟩ := cell_offset_bounds hw hx (show -1 ≤ y ∧ y ≤ p.ny by omega)
  have hin : p.isInPartition x y = true := by
    simp [isInPartition, hx.1, hx.2, hy.1, hy.2]
  refine ⟨{ p with rawData := p.rawData.set (p.gridOff + (x + y * p.nx)).toNat v }, ?_, ?_, ?_⟩
  · simp [setData, hin, writeCell, h0, h1, Except.map]
  · exact ⟨rfl, rfl, rfl, rfl, rfl, rfl, rfl, by simp⟩
  · intro x1 y1 hx1 hy1
    obtain ⟨h2, _⟩ := cell_offset_bounds hw hx1 hy1
    simp only [getData, gridOff] at h0 h1 h2 ⊢
    rw [if_pos ⟨hx1.1, hx1.2, hy1.1, hy1.2⟩, readCell_set _ _ h0 h1 h2]
    by_cases hc : x1 = x ∧ y1 = y
    · obtain ⟨rfl, rfl⟩ := hc
      simp
    · have : ¬ (p.nx + (x1 + y1 * p.nx) = p.nx + (x + y * p.nx)) := by
        intro he
        exact hc (cell_offset_inj hx1 hx (by linarith))
      rw [if_neg this, if_neg hc, if_pos ⟨hx1.1, hx1.2, hy1.1, hy1.2⟩]

/-- A successful `addToData` adds to the cell and changes no other cell. -/
theorem addToData_spec [Add α] {p : linearpart α} (hw : p.WF) {x y : Int} (v old : α)
    (hx : 0 ≤ x ∧ x < p.nx) (hy : 0 ≤ y ∧ y < p.ny) (hold : p.getData x y = .ok old) :
    ∃ q, p.addToData x y v = .ok q ∧ SameShape p q
      ∧ ∀ x1 y1, 0 ≤ x1 ∧ x1 < p.nx → -1 ≤ y1 ∧ y1 ≤ p.ny →
          q.getData x1 y1 = if x1 = x ∧ y1 = y then .ok (old + v) else p.getData x1 y1 := by
  obtain ⟨q, hq, hs, hg⟩ := setData_spec hw (old + v) hx hy
  refine ⟨q, ?_, hs, hg⟩
  have hin : p.isInPartition x y = true := by
    simp [isInPartition, hx.1, hx.2, hy.1, hy.2]
  have hold1 : readCell p.rawData (p.gridOff + (x + y * p.nx)) = .ok old := by
    have : x ≥ 0 ∧ x < p.nx ∧ y ≥ -1 ∧ y ≤ p.ny := ⟨hx.1, hx.2, by omega, by omega⟩
    simpa [getData, this] using hold
  simp only [setData, hin, if_true] at hq
  simp only [addToData, hin, if_true, hold1]
  exact hq

theorem getData_eq_cell {p : linearpart α} (hw : p.WF) {x y : Int}
    (hx : 0 ≤ x ∧ x < p.nx) (hy : -1 ≤ y ∧ y ≤ p.ny) :
    p.getData x y = .ok (p.cell x y) := by
  obtain ⟨v, hv⟩ := getData_ok hw hx hy
  simp [cell, hv]

theorem cell_of_getData {p : linearpart α} {x y : Int} {v : α} (h : p.getData x y = .ok v) :
    p.cell x y = v := by
  simp [cell, h]

theorem isNodata_eq [DecidableEq α] {p : linearpart α} (hw : p.WF) {x y : Int}
    (hx : 0 ≤ x ∧ x < p.nx) (hy : -1 ≤ y ∧ y ≤ p.ny) :
    p.isNodata x y = .ok (decide (p.cell x y = p.noData)) := by
  simp [isNodata, getData_eq_cell hw hx hy, Except.map]

/-- The guard cell `topBorder[i]` is the cell `(i, -1)`. -/
theorem readCell_top {p : linearpart α} (hw : p.WF) {i : Int} (hi : 0 ≤ i ∧ i < p.nx) :
    readCell p.rawData (p.topOff + i) = .ok (p.cell i (-1)) := by
  have h := getData_eq_cell hw hi (show (-1 : Int) ≤ -1 ∧ -1 ≤ p.ny by
    have := hw.ny_nonneg; omega)
  have hc : i ≥ 0 ∧ i < p.nx ∧ (-1 : Int) ≥ -1 ∧ -1 ≤ p.ny := by
    have := hw.ny_nonneg; omega
  rw [getData, if_pos hc] at h
  rw [← h]
  congr 1
  simp only [topOff, gridOff]
  ring

/-- The guard cell `bottomBorder[i]` is the cell `(i, ny)`. -/
theorem readCell_bottom {p : linearpart α} (hw : p.WF) {i : Int} (hi : 0 ≤ i ∧ i < p.nx) :
    readCell p.rawData (p.bottomOff + i) = .ok (p.cell i p.ny) := by
  have hc : i ≥ 0 ∧ i < p.nx ∧ p.ny ≥ -1 ∧ p.ny ≤ p.ny := by
    have := hw.ny_nonneg; omega
  have h := getData_eq_cell hw hi (show (-1 : Int) ≤ p.ny ∧ p.ny ≤ p.ny from ⟨hc.2.2.1, le_refl _⟩)
  rw [getData, if_pos hc] at h
  rw [← h]
  congr 1
  simp only [bottomOff, gridOff]
  ring

theorem setData_cell {p : linearpart α} (hw : p.WF) {x y : Int} (v : α)
    (hx : 0 ≤ x ∧ x < p.nx) (hy : 0 ≤ y ∧ y < p.ny) :
    ∃ q, p.setData x y v = .ok q ∧ SameShape p q
      ∧ ∀ x1 y1, 0 ≤ x1 ∧ x1 < p.nx → -1 ≤ y1 ∧ y1 ≤ p.ny →
          q.cell x1 y1 = if x1 = x ∧ y1 = y then v else p.cell x1 y1 := by
  obtain ⟨q, hq, hs, hg⟩ := setData_spec hw v hx hy
  refine ⟨q, hq, hs, ?_⟩
  intro x1 y1 hx1 hy1
  have h := hg x1 y1 hx1 hy1
  by_cases hc : x1 = x ∧ y1 = y
  · rw [if_pos hc] at h ⊢
    exact cell_of_getData h
  · rw [if_neg hc] at h ⊢
    rw [getData_eq_cell hw hx1 hy1] at h
    exact cell_of_getData h

theorem addToData_cell [Add α] {p : linearpart α} (hw : p.WF) {x y : Int} (v : α)
    (hx : 0 ≤ x ∧ x < p.nx) (hy : 0 ≤ y ∧ y < p.ny) :
    ∃ q, p.addToData x y v = .ok q ∧ SameShape p q
      ∧ ∀ x1 y1, 0 ≤ x1 ∧ x1 < p.nx → -1 ≤ y1 ∧ y1 ≤ p.ny →
          q.cell x1 y1 = if x1 = x ∧ y1 = y then p.cell x y + v else p.cell x1 y1 := by
  obtain ⟨q, hq, hs, hg⟩ := addToData_spec hw v (p.cell x y) hx hy
    (getData_eq_cell hw hx (by omega))
  refine ⟨q, hq, hs, ?_⟩
  intro x1 y1 hx1 hy1
  have h := hg x1 y1 hx1 hy1
  by_cases hc : x1 = x ∧ y1 = y
  · rw [if_pos hc] at h ⊢
    exact cell_of_getData h
  · rw [if_neg hc] at h ⊢
    rw [getData_eq_cell hw hx1 hy1] at h
    exact cell_of_getData h

/-- One accumulation of the loop of `addBorders`: the guard cell `(i, g)` into
the owned cell `(i, y)`. -/
theorem accumulate_cell [DecidableEq α] [Add α] {p : linearpart α} (hw : p.WF) {i y g : Int}
    (hi : 0 ≤ i ∧ i < p.nx) (hy : 0 ≤ y ∧ y < p.ny) (hg : -1 ≤ g ∧ g ≤ p.ny) :
    ∃ q,
      (if (decide (p.cell i g = p.noData) || decide (p.cell i y = p.noData)) = true
        then p.setData i y p.noData else p.addToData i y (p.cell i g)) = .ok q
      ∧ SameShape p q
      ∧ ∀ x1 y1, 0 ≤ x1 ∧ x1 < p.nx → -1 ≤ y1 ∧ y1 ≤ p.ny →
          q.cell x1 y1 = if x1 = i ∧ y1 = y
            then accumulate p.noData (p.cell i g) (p.cell i y) else p.cell x1 y1 := by
  by_cases hc : p.cell i g = p.noData ∨ p.cell i y = p.noData
  · obtain ⟨q, hq, hs, hcell⟩ := setData_cell hw p.noData hi hy
    refine ⟨q, ?_, hs, ?_⟩
    · have : (decide (p.cell i g = p.noData) || decide (p.cell i y = p.noData)) = true := by
        simpa using hc
      rw [if_pos this]
      exact hq
    · intro x1 y1 hx1 hy1
      rw [hcell x1 y1 hx1 hy1]
      simp only [accumulate, if_pos hc]
  · obtain ⟨q, hq, hs, hcell⟩ := addToData_cell hw (p.cell i g) hi hy
    refine ⟨q, ?_, hs, ?_⟩
    · have : ¬ (decide (p.cell i g = p.noData) || decide (p.cell i y = p.noData)) = true := by
        simpa using hc
      rw [if_neg this]
      exact hq
    · intro x1 y1 hx1 hy1
      rw [hcell x1 y1 hx1 hy1]
      simp only [accumulate, if_neg hc]

end linearpart

/-! ## The loop of `addBorders` -/

namespace linearpart

variable {α : Type}

theorem ok_bind {ε β γ : Type} (a : β) (f : β → Except ε γ) :
    ((Except.ok a : Except ε β) >>= f) = f a := rfl

/-- The first half of an iteration: the top guard cell into row 0. -/
theorem addBordersCol_top [DecidableEq α] [Add α] {p : linearpart α} (hw : p.WF)
    (hny : 1 ≤ p.ny) {i : Int} (hi : 0 ≤ i ∧ i < p.nx) (k : linearpart α → Except Fault (linearpart α)) :
    (do
      let a ← p.isNodata i (-1)
      let c ← if a then pure true else p.isNodata i 0
      let p1 ← if c then p.setData i 0 p.noData
        else do
          let t ← readCell p.rawData (p.topOff + i)
          p.addToData i 0 t
      k p1)
    = (if (decide (p.cell i (-1) = p.noData) || decide (p.cell i 0 = p.noData)) = true
        then p.setData i 0 p.noData else p.addToData i 0 (p.cell i (-1))) >>= k := by
  rw [isNodata_eq hw hi (by omega), isNodata_eq hw hi (by omega), readCell_top hw hi]
  simp only [ok_bind]
  by_cases h1 : p.cell i (-1) = p.noData
  · simp [h1, ok_bind]
  · by_cases h2 : p.cell i 0 = p.noData
    · simp [h1, h2, ok_bind]
    · simp [h1, h2, ok_bind]

/-- The second half of an iteration: the bottom guard cell into row `ny-1`. -/
theorem addBordersCol_bottom [DecidableEq α] [Add α] {p : linearpart α} (hw : p.WF)
    (hny : 1 ≤ p.ny) {i : Int} (hi : 0 ≤ i ∧ i < p.nx) :
    (do
      let a1 ← p.isNodata i p.ny
      let c1 ← if a1 then pure true else p.isNodata i (p.ny - 1)
      if c1 then p.setData i (p.ny - 1) p.noData
      else do
        let b ← readCell p.rawData (p.bottomOff + i)
        p.addToData i (p.ny - 1) b)
    = (if (decide (p.cell i p.ny = p.noData) || decide (p.cell i (p.ny - 1) = p.noData)) = true
        then p.setData i (p.ny - 1) p.noData else p.addToData i (p.ny - 1) (p.cell i p.ny)) := by
  rw [isNodata_eq hw hi (by omega), isNodata_eq hw hi (by omega), readCell_bottom hw hi]
  simp only [ok_bind]
  by_cases h1 : p.cell i p.ny = p.noData
  · simp [h1, ok_bind]
  · by_cases h2 : p.cell i (p.ny - 1) = p.noData
    · simp [h1, h2, ok_bind]
    · simp [h1, h2, ok_bind]

/-- One iteration of the loop of `addBorders` completes, changes column `i`
as `addBordersCell` says and no other column. -/
theorem addBordersCol_spec [DecidableEq α] [Add α] {p : linearpart α} (hw : p.WF)
    (hny : 1 ≤ p.ny) {i : Int} (hi : 0 ≤ i ∧ i < p.nx) :
    ∃ q, p.addBordersCol i = .ok q ∧ SameShape p q
      ∧ ∀ x1 y1, 0 ≤ x1 ∧ x1 < p.nx → -1 ≤ y1 ∧ y1 ≤ p.ny →
          q.cell x1 y1 = if x1 = i then p.addBordersCell i y1 else p.cell x1 y1 := by
  obtain ⟨q1, hq1, hs1, hc1⟩ := accumulate_cell hw hi (show 0 ≤ (0 : Int) ∧ 0 < p.ny by omega)
    (show -1 ≤ (-1 : Int) ∧ -1 ≤ p.ny by omega)
  have hw1 := hs1.wf hw
  have hs1c := hs1
  obtain ⟨_, _, e3, e4, _, _, e7, _⟩ := hs1c
  have hi1 : 0 ≤ i ∧ i < q1.nx := by rw [e3]; exact hi
  have hny1 : 1 ≤ q1.ny := by rw [e4]; exact hny
  obtain ⟨q, hq, hs, hc⟩ := accumulate_cell hw1 hi1
    (show 0 ≤ q1.ny - 1 ∧ q1.ny - 1 < q1.ny by omega)
    (show -1 ≤ q1.ny ∧ q1.ny ≤ q1.ny by omega)
  refine ⟨q, ?_, SameShape.trans hs1 hs, ?_⟩
  · unfold addBordersCol
    rw [addBordersCol_top hw hny hi, hq1, ok_bind, addBordersCol_bottom hw1 hny1 hi1]
    exact hq
  · intro x1 y1 hx1 hy1
    rw [hc x1 y1 (by rw [e3]; exact hx1) (by rw [e4]; exact hy1)]
    rw [hc1 i q1.ny hi (by rw [e4]; omega), hc1 i (q1.ny - 1) hi (by rw [e4]; omega),
      hc1 x1 y1 hx1 hy1, e4, e7]
    simp only [addBordersCell]
    by_cases hx : x1 = i
    · subst hx
      by_cases hy : y1 = p.ny - 1
      · have h1 : ¬ (p.ny = 0) := by omega
        by_cases h2 : p.ny = 1
        · simp [hy, h1, h2]
        · have h3 : ¬ (p.ny - 1 = 0) := by omega
          simp [hy, h1, h2, h3]
      · by_cases h0 : y1 = 0
        · subst h0
          have h5 : ¬ ((0 : Int) = p.ny - 1) := hy
          simp [h5]
        · simp [hy, h0]
    · simp [hx]

theorem foldlM_range_succ {β : Type} (f : β → Nat → Except Fault β) (b : β) (k : Nat) :
    (List.range (k + 1)).foldlM f b = (List.range k).foldlM f b >>= fun q => f q k := by
  rw [List.range_succ, List.foldlM_append]
  congr 1
  funext q
  simp [List.foldlM]

/-- The loop of `addBorders` after `k` columns. -/
theorem addBordersLoop_columns [DecidableEq α] [Add α] {p : linearpart α} (hw : p.WF)
    (hny : 1 ≤ p.ny) (k : Nat) (hk : (k : Int) ≤ p.nx) :
    ∃ q, (List.range k).foldlM (fun q (i : Nat) => q.addBordersCol (i : Int)) p = .ok q
      ∧ SameShape p q
      ∧ ∀ x1 y1, 0 ≤ x1 ∧ x1 < p.nx → -1 ≤ y1 ∧ y1 ≤ p.ny →
          q.cell x1 y1 = if x1 < k then p.addBordersCell x1 y1 else p.cell x1 y1 := by
  induction k with
  | zero =>
    refine ⟨p, rfl, SameShape.refl p, ?_⟩
    intro x1 y1 hx1 _
    rw [if_neg (by simp only [Nat.cast_zero]; omega)]
  | succ k ih =>
    obtain ⟨q0, hq0, hs0, hc0⟩ := ih (by push_cast at hk; omega)
    have hw0 := hs0.wf hw
    have hs0c := hs0
    obtain ⟨_, _, e3, e4, _, _, e7, _⟩ := hs0c
    have hk0 : (0 : Int) ≤ k := Int.ofNat_nonneg k
    have hik : 0 ≤ (k : Int) ∧ (k : Int) < p.nx := by push_cast at hk; omega
    obtain ⟨q, hq, hs, hc⟩ := addBordersCol_spec hw0 (by rw [e4]; exact hny)
      (i := (k : Int)) (by rw [e3]; exact hik)
    refine ⟨q, ?_, SameShape.trans hs0 hs, ?_⟩
    · rw [foldlM_range_succ, hq0, ok_bind]
      exact hq
    · intro x1 y1 hx1 hy1
      rw [hc x1 y1 (by rw [e3]; exact hx1) (by rw [e4]; exact hy1)]
      by_cases hx : x1 = (k : Int)
      · subst hx
        rw [if_pos rfl, if_pos (by push_cast; omega)]
        simp only [addBordersCell, e4, e7]
        rw [hc0 _ _ hik (by omega), hc0 _ _ hik (by omega), hc0 _ _ hik (by omega),
          hc0 _ _ hik (by omega), hc0 _ _ hik hy1]
        simp
      · rw [if_neg hx, hc0 x1 y1 hx1 hy1]
        by_cases hlt : x1 < (k : Int)
        · rw [if_pos hlt, if_pos (by push_cast; omega)]
        · rw [if_neg hlt, if_neg (by push_cast; omega)]

/-- The loop of `addBorders` completes on a partition with at least one owned
row, and leaves in every cell the value that `addBordersCell` gives. -/
theorem addBordersLoop_spec [DecidableEq α] [Add α] {p : linearpart α} (hw : p.WF)
    (hny : 1 ≤ p.ny) :
    ∃ q, p.addBordersLoop = .ok q ∧ SameShape p q
      ∧ ∀ x y, 0 ≤ x ∧ x < p.nx → -1 ≤ y ∧ y ≤ p.ny →
          q.getData x y = .ok (p.addBordersCell x y) := by
  have hx := hw.nx_nonneg
  obtain ⟨q, hq, hs, hc⟩ := addBordersLoop_columns hw hny p.nx.toNat (by omega)
  refine ⟨q, by unfold addBordersLoop; exact hq, hs, ?_⟩
  intro x y hx1 hy1
  have hwq := hs.wf hw
  obtain ⟨_, _, e3, e4, _, _, _, _⟩ := hs
  rw [getData_eq_cell hwq (by rw [e3]; exact hx1) (by rw [e4]; exact hy1), hc x y hx1 hy1,
    if_pos (by omega)]

end linearpart

/-! ## `ringTerm` -/

namespace linearpart

variable {α : Type}

open Mpi

theorem ringToken_step (flags : Int → Int) {k : Int} (hk : 1 ≤ k) :
    ringToken flags k.toNat
      = if flags k = 0 then 0 else ringToken flags (k - 1).toNat := by
  have h1 : k.toNat = (k - 1).toNat + 1 := by omega
  have h2 : (((k - 1).toNat : Nat) : Int) + 1 = k := by omega
  rw [h1]
  simp only [ringToken, h2]

/-- The token is nonzero exactly when every flag up to that rank is. -/
theorem ringToken_ne_zero (flags : Int → Int) (k : Nat) :
    ringToken flags k ≠ 0 ↔ ∀ j : Int, 0 ≤ j → j ≤ k → flags j ≠ 0 := by
  induction k with
  | zero =>
    simp only [ringToken, Nat.cast_zero]
    constructor
    · intro h j h0 h1
      have : j = 0 := by omega
      rw [this]; exact h
    · intro h
      exact h 0 (le_refl _) (le_refl _)
  | succ k ih =>
    simp only [ringToken]
    constructor
    · intro h j h0 h1
      by_cases hf : flags ((k : Int) + 1) = 0
      · rw [if_pos hf] at h
        exact absurd rfl h
      · rw [if_neg hf] at h
        by_cases hj : j = (k : Int) + 1
        · rw [hj]; exact hf
        · exact (ih.mp h) j h0 (by push_cast at h1; omega)
    · intro h
      have hf : flags ((k : Int) + 1) ≠ 0 := h _ (by omega) (by push_cast; omega)
      rw [if_neg hf]
      exact ih.mpr (fun j h0 h1 => h j h0 (by push_cast; omega))

theorem ringTerm_procs (size : Int) (parts : Int → linearpart α) (flags : Int → Int) (r : Int) :
    (ringTerm size parts flags).procs r
      = ⟨flags r, if 0 ≤ r ∧ r < size then (parts r).ringTermProg (flags r) else []⟩ := rfl

theorem ringTermProg_zero {p : linearpart α} (x : Int) (hs : 1 < p.size) (h : p.rank = 0) :
    p.ringTermProg x =
      Act.send 1 1 (fun b => b) :: Act.recv (p.size - 1) 1 (fun m _ => some m) :: p.ringTail := by
  have : p.size > 1 := hs
  simp [ringTermProg, ringTail, this, h]

theorem ringTermProg_pos {p : linearpart α} (x : Int) (hs : 1 < p.size) (h : p.rank ≠ 0) :
    p.ringTermProg x =
      Act.recv (p.rank - 1) 1 (fun m _ => some m) ::
      Act.compute (fun b => some (if x = 0 then 0 else b)) ::
      Act.send (Int.tmod (p.rank + 1) p.size) 1 (fun b => b) :: p.ringTail := by
  have : p.size > 1 := hs
  simp [ringTermProg, ringTail, this, h]

theorem tmod_of_lt {a n : Int} (h0 : 0 ≤ a) (h1 : a < n) : Int.tmod a n = a := by
  rw [Int.tmod_eq_emod h0 (by omega)]
  exact Int.emod_eq_of_lt h0 h1

theorem tmod_self_eq (n : Int) : Int.tmod n n = 0 := by
  simp

theorem ringTail_zero {p : linearpart α} (h : p.rank = 0) :
    p.ringTail = [Act.send 1 1 (fun b => b)] := by
  simp [ringTail, h]

theorem ringTail_mid {p : linearpart α} (h0 : p.rank ≠ 0) (h1 : p.rank ≠ p.size - 1) :
    p.ringTail = [Act.recv (p.rank - 1) 1 (fun m _ => some m),
      Act.send (Int.tmod (p.rank + 1) p.size) 1 (fun b => b)] := by
  simp [ringTail, h0, h1]

theorem ringTail_last {p : linearpart α} (h0 : p.rank ≠ 0) (h1 : p.rank = p.size - 1) :
    p.ringTail = [Act.recv (p.rank - 1) 1 (fun m _ => some m)] := by
  have h2 : ¬ (p.rank ≠ p.size - 1) := fun h => h h1
  unfold ringTail
  rw [if_neg h0, if_neg h2]

/-- Rank 0 starts the token. -/
theorem ring_step_start {size : Int} {parts : Int → linearpart α} (flags : Int → Int)
    (hr : Ranked size parts) (hs : 2 ≤ size) :
    step (ringTerm size parts flags) 0 = some (ringFirst size parts flags 1) := by
  have hrank := hr.rank_eq 0 (by omega) (by omega)
  have hsize := hr.size_eq 0 (by omega) (by omega)
  have hproc : (ringTerm size parts flags).procs 0
      = ⟨flags 0, Act.send 1 1 (fun b => b) ::
          Act.recv (size - 1) 1 (fun m _ => some m) :: (parts 0).ringTail⟩ := by
    rw [ringTerm_procs, if_pos (by omega), ringTermProg_zero _ (by omega) hrank, hsize]
  rw [step_of_send hproc]
  congr 1
  have ht : Int.tmod 1 size = 1 := tmod_of_lt (by omega) (by omega)
  apply World.ext_iff3
  · intro k
    simp only [ringFirst, push_procs, put_procs]
    split_ifs <;> first | rfl | (exfalso; omega)
  · intro s d t
    simp only [ringFirst, push_chan, put_chan, ht, sub_self, Int.toNat_zero, ringToken]
    split_ifs <;> first | rfl | (exfalso; omega)
  · rfl

/-- Rank `k` above rank 0 takes the token, folds its flag in and sends it on. -/
theorem ring_step_first {size : Int} {parts : Int → linearpart α} (flags : Int → Int)
    (hr : Ranked size parts) {k : Int} (h0 : 1 ≤ k) (h1 : k < size) :
    exec [k, k, k] (ringFirst size parts flags k) = some (ringFirst size parts flags (k + 1)) := by
  have hrank := hr.rank_eq k (by omega) h1
  have hsize := hr.size_eq k (by omega) h1
  have hk0 : ¬ k = 0 := by omega
  have hproc : (ringFirst size parts flags k).procs k
      = ⟨flags k, Act.recv (k - 1) 1 (fun m _ => some m) ::
          Act.compute (fun b => some (if flags k = 0 then 0 else b)) ::
          Act.send (Int.tmod (k + 1) size) 1 (fun b => b) :: (parts k).ringTail⟩ := by
    have hp1 : 1 < (parts k).size := by omega
    have hp2 : (parts k).rank ≠ 0 := by omega
    simp only [ringFirst, ringTerm_procs]
    rw [if_neg hk0, if_neg (by omega), if_pos (by omega), ringTermProg_pos _ hp1 hp2,
      hrank, hsize]
  have ht : Int.tmod k size = k := tmod_of_lt (by omega) h1
  have hchan : (ringFirst size parts flags k).chan (k - 1) k 1
      = [ringToken flags (k - 1).toNat] := by
    simp only [ringFirst, ht, and_self, if_true]
  have hstep1 := step_of_recv (b := ringToken flags (k - 1).toNat) hproc hchan rfl
  have hstep2 := step_of_compute
    (w := ((ringFirst size parts flags k).put k
      ⟨ringToken flags (k - 1).toNat,
        Act.compute (fun b => some (if flags k = 0 then 0 else b)) ::
        Act.send (Int.tmod (k + 1) size) 1 (fun b => b) :: (parts k).ringTail⟩).pop (k - 1) k 1)
    (r := k) (a := ringToken flags (k - 1).toNat) (b := ringToken flags k.toNat)
    (f := fun b => some (if flags k = 0 then 0 else b))
    (l := Act.send (Int.tmod (k + 1) size) 1 (fun b => b) :: (parts k).ringTail)
    (by simp) (by rw [ringToken_step flags h0])
  have hstep3 := step_of_send
    (w := (((ringFirst size parts flags k).put k
      ⟨ringToken flags (k - 1).toNat,
        Act.compute (fun b => some (if flags k = 0 then 0 else b)) ::
        Act.send (Int.tmod (k + 1) size) 1 (fun b => b) :: (parts k).ringTail⟩).pop (k - 1) k 1).put k
      ⟨ringToken flags k.toNat,
        Act.send (Int.tmod (k + 1) size) 1 (fun b => b) :: (parts k).ringTail⟩)
    (r := k) (a := ringToken flags k.toNat) (d := Int.tmod (k + 1) size) (t := 1)
    (f := fun b => b) (l := (parts k).ringTail) (by simp)
  simp only [exec, hstep1, hstep2, hstep3, Option.some_bind]
  congr 1
  apply World.ext_iff3
  · intro r
    simp only [ringFirst, push_procs, put_procs, pop_procs]
    by_cases hrk : r = k
    · subst hrk
      simp only [if_true]
      split_ifs <;> first | rfl | (exfalso; omega)
    · simp only [if_neg hrk]
      split_ifs <;> first | rfl | (exfalso; omega)
  · intro s d t
    simp only [ringFirst, push_chan, put_chan, pop_chan, ht, add_sub_cancel_right]
    split_ifs <;> first | rfl | (exfalso; omega)
  · simp only [ringFirst, push_sent, put_sent, pop_sent]
    omega

/-- Rank 0 takes the token back and sends the decision. -/
theorem ring_step_turn {size : Int} {parts : Int → linearpart α} (flags : Int → Int)
    (hr : Ranked size parts) (hs : 2 ≤ size) :
    exec [0, 0] (ringFirst size parts flags size) = some (ringSecond size parts flags 1) := by
  have hrank := hr.rank_eq 0 (by omega) (by omega)
  have hproc : (ringFirst size parts flags size).procs 0
      = ⟨flags 0, [Act.recv (size - 1) 1 (fun m _ => some m), Act.send 1 1 (fun b => b)]⟩ := by
    simp only [ringFirst, if_true, ringTail_zero hrank]
  have hchan : (ringFirst size parts flags size).chan (size - 1) 0 1
      = [ringToken flags (size - 1).toNat] := by
    simp only [ringFirst, tmod_self_eq, and_self, if_true]
  have hstep1 := step_of_recv (b := ringToken flags (size - 1).toNat) hproc hchan rfl
  have hstep2 := step_of_send
    (w := ((ringFirst size parts flags size).put 0
      ⟨ringToken flags (size - 1).toNat, [Act.send 1 1 (fun b => b)]⟩).pop (size - 1) 0 1)
    (r := 0) (a := ringToken flags (size - 1).toNat) (d := 1) (t := 1)
    (f := fun b => b) (l := []) (by simp)
  simp only [exec, hstep1, hstep2, Option.some_bind]
  congr 1
  apply World.ext_iff3
  · intro r
    simp only [ringFirst, ringSecond, push_procs, put_procs, pop_procs]
    by_cases hr0 : r = 0
    · subst hr0
      simp only [if_true]
      split_ifs <;> first | rfl | (exfalso; omega)
    · simp only [if_neg hr0]
      split_ifs <;> first | rfl | (exfalso; omega)
  · intro s d t
    simp only [ringFirst, ringSecond, push_chan, put_chan, pop_chan, tmod_self_eq, sub_self]
    split_ifs <;> first | rfl | (exfalso; omega)
  · simp only [ringFirst, ringSecond, push_sent, put_sent, pop_sent]
    split_ifs <;> omega

/-- Rank `k` above rank 0 takes the decision and, unless it is the last rank,
sends it on. -/
theorem ring_step_second {size : Int} {parts : Int → linearpart α} (flags : Int → Int)
    (hr : Ranked size parts) {k : Int} (h0 : 1 ≤ k) (h1 : k < size) :
    ∃ sched, exec sched (ringSecond size parts flags k)
        = some (ringSecond size parts flags (k + 1))
      ∧ ∀ x ∈ sched, x = k := by
  have hrank := hr.rank_eq k (by omega) h1
  have hsize := hr.size_eq k (by omega) h1
  have hchan : (ringSecond size parts flags k).chan (k - 1) k 1
      = [ringToken flags (size - 1).toNat] := by
    simp only [ringSecond, true_and, and_true]
    rw [if_pos h1]
  by_cases hlast : k = size - 1
  · have hproc : (ringSecond size parts flags k).procs k
        = ⟨ringToken flags k.toNat, [Act.recv (k - 1) 1 (fun m _ => some m)]⟩ := by
      have hp0 : (parts k).rank ≠ 0 := by omega
      have hp1 : (parts k).rank = (parts k).size - 1 := by omega
      simp only [ringSecond]
      rw [if_neg (by omega), if_pos (by omega), ringTail_last hp0 hp1, hrank]
    have hstep1 := step_of_recv (b := ringToken flags (size - 1).toNat) hproc hchan rfl
    refine ⟨[k], ?_, by simp⟩
    simp only [exec, hstep1, Option.some_bind]
    congr 1
    apply World.ext_iff3
    · intro r
      simp only [ringSecond, put_procs, pop_procs, ringTerm_procs]
      by_cases hrk : r = k
      · subst hrk
        simp only [if_true]
        split_ifs <;> first | rfl | (exfalso; omega)
      · simp only [if_neg hrk]
        split_ifs <;> first | rfl | (exfalso; omega)
    · intro s d t
      simp only [ringSecond, put_chan, pop_chan, add_sub_cancel_right]
      split_ifs <;> first | rfl | (exfalso; omega)
    · simp only [ringSecond, put_sent, pop_sent]
      split_ifs <;> omega
  · have ht : Int.tmod (k + 1) size = k + 1 := tmod_of_lt (by omega) (by omega)
    have hproc : (ringSecond size parts flags k).procs k
        = ⟨ringToken flags k.toNat, [Act.recv (k - 1) 1 (fun m _ => some m),
            Act.send (k + 1) 1 (fun b => b)]⟩ := by
      have hp0 : (parts k).rank ≠ 0 := by omega
      have hp1 : (parts k).rank ≠ (parts k).size - 1 := by omega
      simp only [ringSecond]
      rw [if_neg (by omega), if_pos (by omega), ringTail_mid hp0 hp1, hrank, hsize, ht]
    have hstep1 := step_of_recv (b := ringToken flags (size - 1).toNat) hproc hchan rfl
    have hstep2 := step_of_send
      (w := ((ringSecond size parts flags k).put k
        ⟨ringToken flags (size - 1).toNat, [Act.send (k + 1) 1 (fun b => b)]⟩).pop (k - 1) k 1)
      (r := k) (a := ringToken flags (size - 1).toNat) (d := k + 1) (t := 1)
      (f := fun b => b) (l := []) (by simp)
    refine ⟨[k, k], ?_, by simp⟩
    simp only [exec, hstep1, hstep2, Option.some_bind]
    congr 1
    apply World.ext_iff3
    · intro r
      simp only [ringSecond, push_procs, put_procs, pop_procs]
      by_cases hrk : r = k
      · subst hrk
        simp only [if_true]
        split_ifs <;> first | rfl | (exfalso; omega)
      · simp only [if_neg hrk]
        split_ifs <;> first | rfl | (exfalso; omega)
    · intro s d t
      simp only [ringSecond, push_chan, put_chan, pop_chan, add_sub_cancel_right]
      split_ifs <;> first | rfl | (exfalso; omega)
    · simp only [ringSecond, push_sent, put_sent, pop_sent]
      split_ifs <;> omega

/-- The token goes up the ranks. -/
theorem ring_exec_first {size : Int} {parts : Int → linearpart α} (flags : Int → Int)
    (hr : Ranked size parts) (j : Nat) (hj : 1 + (j : Int) ≤ size) :
    ∃ sched, exec sched (ringFirst size parts flags 1)
        = some (ringFirst size parts flags (1 + j))
      ∧ ∀ x ∈ sched, 0 ≤ x ∧ x < size := by
  induction j with
  | zero => exact ⟨[], by simp [exec], by simp⟩
  | succ j ih =>
    obtain ⟨s1, h1e, h1m⟩ := ih (by push_cast at hj; omega)
    have hj0 : (0 : Int) ≤ j := Int.ofNat_nonneg j
    have h2e := ring_step_first flags hr (k := 1 + (j : Int)) (by omega)
      (by push_cast at hj; omega)
    have he : 1 + (j : Int) + 1 = 1 + ((j + 1 : Nat) : Int) := by push_cast; ring
    rw [he] at h2e
    refine ⟨s1 ++ [1 + (j : Int), 1 + (j : Int), 1 + (j : Int)], exec_trans h1e h2e, ?_⟩
    intro x hx
    rcases List.mem_append.mp hx with hx | hx
    · exact h1m x hx
    · simp only [List.mem_cons, List.mem_singleton, List.not_mem_nil, or_false, or_self] at hx
      push_cast at hj
      omega

/-- The decision goes down the ranks. -/
theorem ring_exec_second {size : Int} {parts : Int → linearpart α} (flags : Int → Int)
    (hr : Ranked size parts) (j : Nat) (hj : 1 + (j : Int) ≤ size) :
    ∃ sched, exec sched (ringSecond size parts flags 1)
        = some (ringSecond size parts flags (1 + j))
      ∧ ∀ x ∈ sched, 0 ≤ x ∧ x < size := by
  induction j with
  | zero => exact ⟨[], by simp [exec], by simp⟩
  | succ j ih =>
    obtain ⟨s1, h1e, h1m⟩ := ih (by push_cast at hj; omega)
    have hj0 : (0 : Int) ≤ j := Int.ofNat_nonneg j
    obtain ⟨s2, h2e, h2m⟩ := ring_step_second flags hr (k := 1 + (j : Int)) (by omega)
      (by push_cast at hj; omega)
    have he : 1 + (j : Int) + 1 = 1 + ((j + 1 : Nat) : Int) := by push_cast; ring
    rw [he] at h2e
    refine ⟨s1 ++ s2, exec_trans h1e h2e, ?_⟩
    intro x hx
    rcases List.mem_append.mp hx with hx | hx
    · exact h1m x hx
    · have := h2m x hx
      push_cast at hj
      omega

/-- A complete schedule of `ringTerm` on two ranks or more. -/
theorem ring_exec {size : Int} {parts : Int → linearpart α} (flags : Int → Int)
    (hr : Ranked size parts) (hs : 2 ≤ size) :
    ∃ sched, exec sched (ringTerm size parts flags)
        = some (ringSecond size parts flags size)
      ∧ ∀ x ∈ sched, 0 ≤ x ∧ x < size := by
  have h0 := exec_one (ring_step_start flags hr hs)
  obtain ⟨s1, h1e, h1m⟩ := ring_exec_first flags hr (size - 1).toNat (by omega)
  have h2 := ring_step_turn flags hr hs
  obtain ⟨s3, h3e, h3m⟩ := ring_exec_second flags hr (size - 1).toNat (by omega)
  have e1 : 1 + (((size - 1).toNat : Nat) : Int) = size := by omega
  rw [e1] at h1e h3e
  refine ⟨[0] ++ s1 ++ [0, 0] ++ s3,
    exec_trans (exec_trans (exec_trans h0 h1e) h2) h3e, ?_⟩
  intro x hx
  simp only [List.mem_append, List.mem_cons, List.mem_singleton, List.not_mem_nil,
    or_false, or_self] at hx
  rcases hx with ((hx | hx) | hx) | hx
  · omega
  · exact h1m x hx
  · omega
  · exact h3m x hx

theorem ringSecond_done (size : Int) (parts : Int → linearpart α) (flags : Int → Int) :
    (ringSecond size parts flags size).Done := by
  intro r
  simp only [ringSecond, ringTerm_procs]
  split_ifs <;> first | rfl | (exfalso; omega)

theorem ringTermProg_single {p : linearpart α} (x : Int) (h : p.size ≤ 1) :
    p.ringTermProg x = [] := by
  have : ¬ p.size > 1 := by omega
  simp [ringTermProg, this]

/-- C8. On `size ≥ 1` ranks with flags `flags 0 .. flags (size-1)`, one
collective round of `ringTerm` completes (under the scheduler, and with the
same result under every interleaving of the calls) and returns one value `v`
on every rank; `v` is nonzero exactly when every flag is nonzero. -/
theorem ringTerm_agreement (size : Int) (parts : Int → linearpart α) (flags : Int → Int)
    (hs : 1 ≤ size) (hr : Ranked size parts) :
    ∃ t v, Mpi.Outcome size (ringTerm size parts flags) t
      ∧ (∀ r, 0 ≤ r → r < size → (t.procs r).st = v)
      ∧ (v ≠ 0 ↔ ∀ r, 0 ≤ r → r < size → flags r ≠ 0) := by
  have hv : ringToken flags (size - 1).toNat ≠ 0 ↔ ∀ r, 0 ≤ r → r < size → flags r ≠ 0 := by
    rw [ringToken_ne_zero]
    constructor
    · intro h r h0 h1
      exact h r h0 (by omega)
    · intro h r h0 h1
      exact h r h0 (by omega)
  by_cases h2 : 2 ≤ size
  · obtain ⟨sched, hex, hmem⟩ := ring_exec flags hr h2
    refine ⟨ringSecond size parts flags size, ringToken flags (size - 1).toNat,
      outcome_of_exec hex (ringSecond_done size parts flags) hmem, ?_, hv⟩
    intro r h0 h1
    simp only [ringSecond]
    rw [if_pos ⟨h0, h1⟩]
  · have h1 : size = 1 := by omega
    subst h1
    refine ⟨ringTerm 1 parts flags, ringToken flags ((1 : Int) - 1).toNat,
      outcome_of_done (start_done ?_), ?_, hv⟩
    · intro r h0 h1
      exact ringTermProg_single _ (le_of_eq (hr.size_eq r h0 h1))
    · intro r h0 h1
      have : r = 0 := by omega
      subst this
      rfl

end linearpart

/-! ## Examples -/

theorem exampleParts_collective (size : Int) :
    linearpart.Collective size 2 (exampleParts size) :=
  ⟨fun _ _ _ => rfl, fun _ _ _ => rfl, fun _ _ _ => rfl,
    fun _ _ _ => ⟨by simp [exampleParts], by simp [exampleParts], by simp [exampleParts]⟩⟩

theorem exampleParts_ranked (size : Int) : linearpart.Ranked size (exampleParts size) :=
  ⟨fun _ _ _ => rfl, fun _ _ _ => rfl⟩

namespace linearpart

variable {α : Type}

/-- C5, on the two ranks of `exampleParts 2`. -/
theorem share_borders_witness :
    ∃ t, Mpi.Outcome 2 (share 2 (exampleParts 2)) t
      ∧ (∀ r, 0 < r → r < 2 →
          (t.procs r).st.topBorder
            = (exampleParts 2 (r - 1)).gridRow ((exampleParts 2 (r - 1)).ny - 1))
      ∧ (∀ r, 0 ≤ r → r < 2 - 1 →
          (t.procs r).st.bottomBorder = (exampleParts 2 (r + 1)).gridRow 0)
      ∧ ∀ r, 0 ≤ r → r < 2 → (t.procs r).st.gridData = (exampleParts 2 r).gridData :=
  share_borders 2 2 (exampleParts 2) (by decide) (exampleParts_collective 2)
    (fun _ _ _ => by simp [exampleParts])

/-- C6, at its failing input: after two collective calls of `passBorders()` on
the two ranks of `exampleParts 2`, both processes have returned twice, and the
top guard row of rank 0 holds what the uninitialised `tempBorder` held,
`[7, 7]`, not its contents `[0, 1]` from before the first call. -/
theorem passBorders_twice_loses_top_of_rank_zero :
    (examplePassOnce.procs 0).prog.length = 0 ∧ (examplePassOnce.procs 1).prog.length = 0
      ∧ (examplePassTwice.procs 0).prog.length = 0 ∧ (examplePassTwice.procs 1).prog.length = 0
      ∧ (exampleParts 2 0).topBorder = [0, 1]
      ∧ (examplePassTwice.procs 0).st.part.topBorder = [7, 7] := by
  decide

/-- C4, on rank 0 of the two ranks of `exampleParts 2`. -/
theorem hasAccess_iff_witness :
    ((exampleParts 2 0).hasAccess 1 (-1) = false ↔ (exampleParts 2 0).rank = 0)
      ∧ ((exampleParts 2 0).hasAccess 1 (exampleParts 2 0).ny = false
          ↔ (exampleParts 2 0).rank = (exampleParts 2 0).size - 1) :=
  (hasAccess_iff (exampleParts 2 0)).2 (by decide) 1 (by decide) (by decide)

/-- On a partition with at least two owned rows, the loop of `addBorders()`
completes, and for every column `i` of `0 .. nx-1`, with `t` and `b` the top
and bottom guard cells of the column and `v` and `u` the cells of rows 0 and
`ny-1` before the loop: cell `(i, 0)` holds
`noData` if `t` or `v` is `noData` and `v + t` otherwise, and cell `(i, ny-1)`
holds `noData` if `b` or `u` is `noData` and `u + b` otherwise. -/
theorem addBordersLoop_rows [DecidableEq α] [Add α] (p : linearpart α)
    (hw : p.WF) (hny : 2 ≤ p.ny) :
    ∃ q, p.addBordersLoop = .ok q
      ∧ ∀ i t v b u, 0 ≤ i → i < p.nx →
          p.getData i (-1) = .ok t → p.getData i 0 = .ok v →
          p.getData i p.ny = .ok b → p.getData i (p.ny - 1) = .ok u →
          q.getData i 0 = .ok (if t = p.noData ∨ v = p.noData then p.noData else v + t)
            ∧ q.getData i (p.ny - 1)
                = .ok (if b = p.noData ∨ u = p.noData then p.noData else u + b) := by
  obtain ⟨q, hq, _, hc⟩ := addBordersLoop_spec hw (show 1 ≤ p.ny by omega)
  refine ⟨q, hq, ?_⟩
  intro i t v b u h0 h1 ht hv hb hu
  have e1 : ¬ ((0 : Int) = p.ny - 1) := by omega
  have e2 : ¬ (p.ny = 1) := by omega
  constructor
  · rw [hc i 0 ⟨h0, h1⟩ (by omega)]
    simp only [addBordersCell, if_neg e1, if_true, accumulate, cell_of_getData ht,
      cell_of_getData hv]
  · rw [hc i (p.ny - 1) ⟨h0, h1⟩ (by omega)]
    simp only [addBordersCell, if_true, if_neg e2, accumulate, cell_of_getData hb,
      cell_of_getData hu]

/-- C8, on the four ranks of `exampleParts 4`, rank 2 alone not finished. -/
theorem ringTerm_agreement_witness :
    ∃ t v, Mpi.Outcome 4 (ringTerm 4 (exampleParts 4) (fun r => if r = 2 then 0 else 1)) t
      ∧ (∀ r, 0 ≤ r → r < 4 → (t.procs r).st = v)
      ∧ (v ≠ 0 ↔ ∀ r, 0 ≤ r → r < 4 → (fun r : Int => if r = 2 then (0 : Int) else 1) r ≠ 0) :=
  ringTerm_agreement 4 (exampleParts 4) (fun r => if r = 2 then 0 else 1) (by decide)
    (exampleParts_ranked 4)

theorem shareProg_single {p : linearpart α} (h : p.size ≤ 1) : p.shareProg = [] := by
  simp [shareProg, h]

theorem passBordersProg_single {p : linearpart α} (h : p.size ≤ 1) : p.passBordersProg = [] := by
  simp [passBordersProg, h]

/-- C9. On a single rank (`size == 1`), `share()` and `passBorders()` return
without a call to the transport: the collective call is over in the world in
which it starts, with no message sent and the partition as it was; and
`ringTerm(x)` returns `x` in the same way. -/
theorem single_rank_noop (parts : Int → linearpart α) (junk : Int → List α)
    (flags : Int → Int) (h : (parts 0).size = 1) :
    (Mpi.Outcome 1 (share 1 parts) (share 1 parts)
        ∧ (share 1 parts).sent = 0 ∧ ((share 1 parts).procs 0).st = parts 0)
      ∧ (Mpi.Outcome 1 (passBorders 1 parts junk) (passBorders 1 parts junk)
        ∧ (passBorders 1 parts junk).sent = 0
        ∧ ((passBorders 1 parts junk).procs 0).st.part = parts 0)
      ∧ (Mpi.Outcome 1 (ringTerm 1 parts flags) (ringTerm 1 parts flags)
        ∧ (ringTerm 1 parts flags).sent = 0
        ∧ ((ringTerm 1 parts flags).procs 0).st = flags 0) := by
  have h0 : ∀ r : Int, 0 ≤ r → r < 1 → r = 0 := fun r a b => by omega
  refine ⟨⟨Mpi.outcome_of_done (Mpi.start_done ?_), rfl, rfl⟩,
    ⟨Mpi.outcome_of_done (Mpi.start_done ?_), rfl, rfl⟩,
    ⟨Mpi.outcome_of_done (Mpi.start_done ?_), rfl, rfl⟩⟩
  · intro r a b
    rw [h0 r a b]
    exact shareProg_single (le_of_eq h)
  · intro r a b
    rw [h0 r a b]
    exact passBordersProg_single (le_of_eq h)
  · intro r a b
    rw [h0 r a b]
    exact ringTermProg_single _ (le_of_eq h)

/-- C9, on the single rank of `exampleParts 1`, for the flag 5. -/
theorem single_rank_noop_witness :
    (Mpi.Outcome 1 (share 1 (exampleParts 1)) (share 1 (exampleParts 1))
        ∧ (share 1 (exampleParts 1)).sent = 0
        ∧ ((share 1 (exampleParts 1)).procs 0).st = exampleParts 1 0)
      ∧ (Mpi.Outcome 1 (passBorders 1 (exampleParts 1) (fun _ => [7, 7]))
          (passBorders 1 (exampleParts 1) (fun _ => [7, 7]))
        ∧ (passBorders 1 (exampleParts 1) (fun _ => [7, 7])).sent = 0
        ∧ ((passBorders 1 (exampleParts 1) (fun _ => [7, 7])).procs 0).st.part
            = exampleParts 1 0)
      ∧ (Mpi.Outcome 1 (ringTerm 1 (exampleParts 1) (fun _ => 5))
          (ringTerm 1 (exampleParts 1) (fun _ => 5))
        ∧ (ringTerm 1 (exampleParts 1) (fun _ => 5)).sent = 0
        ∧ ((ringTerm 1 (exampleParts 1) (fun _ => 5)).procs 0).st
            = (fun _ : Int => (5 : Int)) 0) :=
  single_rank_noop (exampleParts 1) (fun _ => [7, 7]) (fun _ => 5) rfl

end linearpart

namespace linearpart

variable {α : Type}

open Mpi

/-- Right after `init` every cell of the band and of the guard rows holds
`noData`. -/
theorem init_getData (rank size totalx totaly : Int) (nd : α)
    (hx : 0 ≤ totalx) (hy : 0 ≤ totaly) (hs : 1 ≤ size) {x y : Int}
    (h1 : 0 ≤ x ∧ x < (init rank size totalx totaly nd).nx)
    (h2 : -1 ≤ y ∧ y ≤ (init rank size totalx totaly nd).ny) :
    (init rank size totalx totaly nd).getData x y = .ok nd := by
  have hw := init_wf rank size totalx totaly nd hx hy hs
  obtain ⟨v, hv⟩ := getData_ok hw h1 h2
  rw [hv]
  have hc : x ≥ 0 ∧ x < (init rank size totalx totaly nd).nx ∧ y ≥ -1
      ∧ y ≤ (init rank size totalx totaly nd).ny := ⟨h1.1, h1.2, h2.1, h2.2⟩
  rw [getData, if_pos hc] at hv
  simp only [readCell] at hv
  split at hv
  · split at hv
    · rename_i w hget
      have hmem : w ∈ (init rank size totalx totaly nd).rawData := List.getElem?_mem hget
      have : w = nd := by
        simp only [init] at hmem
        exact (List.mem_replicate.mp hmem).2
      rw [this] at hv
      cases hv
      rfl
    · cases hv
  · cases hv

/-- C10, counterexample. On the single rank of `exampleSingle` (the state after
`init` and `setData(0, 0, 5)`, with `ny = 1` and both guard cells `noData`),
`addBorders()` returns with the owned cell overwritten by `noData`: the owned
band is `[-1]` after the call and `[5]` before it. -/
theorem addBorders_single_rank_changes_band :
    exampleSingle.size = 1 ∧ 1 ≤ exampleSingle.ny
      ∧ (((init 0 1 1 1 (-1 : Int)).setData 0 0 5).toOption.map fun q => q.rawData)
          = some exampleSingle.rawData
      ∧ (exampleAddSingle.procs 0).prog.length = 0
      ∧ exampleSingle.gridData = [5]
      ∧ (exampleAddSingle.procs 0).st.part.gridData = [-1] := by
  decide

/-- On a single rank `addBorders()` is its loop: the call completes without a
message in the world in which rank 0 holds the partition the loop returns. -/
theorem addBorders_single_world [DecidableEq α] [Add α] (parts : Int → linearpart α)
    (junk : Int → List α) (hsize : (parts 0).size = 1) {q : linearpart α}
    (hq : (parts 0).addBordersLoop = .ok q) :
    ∃ t, Mpi.Outcome 1 (addBorders 1 parts junk) t ∧ t.sent = 0
      ∧ (t.procs 0).st.part = q := by
  have hproc : (addBorders 1 parts junk).procs 0
      = ⟨⟨parts 0, junk 0⟩, [Act.compute (fun s => s.addLoop)]⟩ := by
    simp [addBorders, start, addBordersProg, passBordersProg_single (le_of_eq hsize)]
  have hloop : (⟨parts 0, junk 0⟩ : PassState α).addLoop = some ⟨q, junk 0⟩ := by
    simp [PassState.addLoop, hq]
  have hstep := step_of_compute hproc hloop
  have hdone : ((addBorders 1 parts junk).put 0 ⟨⟨q, junk 0⟩, []⟩).Done := by
    intro r
    simp only [put_procs, addBorders, start]
    split_ifs <;> first | rfl | (exfalso; omega)
  refine ⟨(addBorders 1 parts junk).put 0 ⟨⟨q, junk 0⟩, []⟩,
    outcome_of_exec (exec_one hstep) hdone (by simp), rfl, ?_⟩
  simp only [put_procs, if_true]

/-- C10, amended. On a single rank (`size == 1`) holding a partition with at
least one owned row, `addBorders()` completes without a message; it leaves both
guard rows and every owned row other than rows 0 and `ny-1` as they were, and
it leaves a column as it was in all its rows when the cells of the column in
rows 0 and `ny-1` both hold `noData`. -/
theorem addBorders_single_rank [DecidableEq α] [Add α] (parts : Int → linearpart α)
    (junk : Int → List α) (hsize : (parts 0).size = 1) (hw : (parts 0).WF)
    (hny : 1 ≤ (parts 0).ny) :
    ∃ t, Mpi.Outcome 1 (addBorders 1 parts junk) t ∧ t.sent = 0
      ∧ (∀ x y, 0 ≤ x → x < (parts 0).nx → -1 ≤ y → y ≤ (parts 0).ny →
          y ≠ 0 → y ≠ (parts 0).ny - 1 →
          (t.procs 0).st.part.getData x y = (parts 0).getData x y)
      ∧ ∀ x, 0 ≤ x → x < (parts 0).nx →
          (parts 0).getData x 0 = .ok (parts 0).noData →
          (parts 0).getData x ((parts 0).ny - 1) = .ok (parts 0).noData →
          ∀ y, -1 ≤ y → y ≤ (parts 0).ny →
            (t.procs 0).st.part.getData x y = (parts 0).getData x y := by
  obtain ⟨q, hq, _, hc⟩ := addBordersLoop_spec hw hny
  obtain ⟨t, ho, hs, ht⟩ := addBorders_single_world parts junk hsize hq
  refine ⟨t, ho, hs, ?_, ?_⟩
  · intro x y hx0 hx1 hy0 hy1 hne0 hne1
    rw [ht, hc x y ⟨hx0, hx1⟩ ⟨hy0, hy1⟩, getData_eq_cell hw ⟨hx0, hx1⟩ ⟨hy0, hy1⟩]
    simp only [addBordersCell, if_neg hne1, if_neg hne0]
  · intro x hx0 hx1 h0 h1 y hy0 hy1
    rw [ht, hc x y ⟨hx0, hx1⟩ ⟨hy0, hy1⟩, getData_eq_cell hw ⟨hx0, hx1⟩ ⟨hy0, hy1⟩]
    have c0 := cell_of_getData h0
    have c1 := cell_of_getData h1
    simp only [addBordersCell, accumulate, c0, c1, or_true, if_true, ite_self]
    by_cases e1 : y = (parts 0).ny - 1
    · rw [if_pos e1, e1, c1]
    · rw [if_neg e1]
      by_cases e0 : y = 0
      · rw [if_pos e0, e0, c0]
      · rw [if_neg e0]

/-- C10, amended, on the single rank right after `init(2, 3, ..)`. -/
theorem addBorders_single_rank_witness :
    ∃ t, Mpi.Outcome 1 (addBorders 1 (fun r => init r 1 2 3 (-1 : Int)) (fun _ => [0, 0])) t
      ∧ t.sent = 0
      ∧ (∀ x y, 0 ≤ x → x < (init 0 1 2 3 (-1 : Int)).nx → -1 ≤ y →
          y ≤ (init 0 1 2 3 (-1 : Int)).ny → y ≠ 0 → y ≠ (init 0 1 2 3 (-1 : Int)).ny - 1 →
          (t.procs 0).st.part.getData x y = (init 0 1 2 3 (-1 : Int)).getData x y)
      ∧ ∀ x, 0 ≤ x → x < (init 0 1 2 3 (-1 : Int)).nx →
          (init 0 1 2 3 (-1 : Int)).getData x 0 = .ok (init 0 1 2 3 (-1 : Int)).noData →
          (init 0 1 2 3 (-1 : Int)).getData x ((init 0 1 2 3 (-1 : Int)).ny - 1)
            = .ok (init 0 1 2 3 (-1 : Int)).noData →
          ∀ y, -1 ≤ y → y ≤ (init 0 1 2 3 (-1 : Int)).ny →
            (t.procs 0).st.part.getData x y = (init 0 1 2 3 (-1 : Int)).getData x y :=
  addBorders_single_rank (fun r => init r 1 2 3 (-1 : Int)) (fun _ => [0, 0]) rfl
    (init_wf 0 1 2 3 (-1) (by decide) (by decide) (by decide)) (by decide)

/-- Right after `init` on a single rank, `addBorders()` leaves `noData` in
every cell. -/
theorem addBorders_after_init [DecidableEq α] [Add α] (totalx totaly : Int) (nd : α)
    (junk : Int → List α) (hx : 0 ≤ totalx) (hy : 1 ≤ totaly) :
    ∃ t, Mpi.Outcome 1 (addBorders 1 (fun r => init r 1 totalx totaly nd) junk) t
      ∧ t.sent = 0
      ∧ ∀ x y, 0 ≤ x → x < totalx → -1 ≤ y → y ≤ totaly →
          (t.procs 0).st.part.getData x y = .ok nd := by
  have hw := init_wf 0 1 totalx totaly nd hx (by omega) (le_refl 1)
  have hny : (init (0 : Int) 1 totalx totaly nd).ny = totaly := by
    simp [init]
  have hnx : (init (0 : Int) 1 totalx totaly nd).nx = totalx := rfl
  have hnd : (init (0 : Int) 1 totalx totaly nd).noData = nd := rfl
  have hg : ∀ x y, 0 ≤ x → x < totalx → -1 ≤ y → y ≤ totaly →
      (init (0 : Int) 1 totalx totaly nd).cell x y = nd := by
    intro x y a b c d
    exact cell_of_getData (init_getData 0 1 totalx totaly nd hx (by omega) (le_refl 1)
      (by rw [hnx]; exact ⟨a, b⟩) (by rw [hny]; exact ⟨c, d⟩))
  obtain ⟨q, hq, _, hc⟩ := addBordersLoop_spec hw (by rw [hny]; exact hy)
  obtain ⟨t, ho, hs, ht⟩ := addBorders_single_world
    (fun r => init r 1 totalx totaly nd) junk rfl hq
  refine ⟨t, ho, hs, ?_⟩
  intro x y a b c d
  rw [ht, hc x y (by rw [hnx]; exact ⟨a, b⟩) (by rw [hny]; exact ⟨c, d⟩)]
  simp only [addBordersCell, accumulate, hny, hnd, hg x (-1) a b (by omega) (by omega),
    hg x 0 a b (by omega) (by omega), hg x totaly a b (by omega) (by omega),
    hg x (totaly - 1) a b (by omega) (by omega), hg x y a b c d, or_self, if_true, ite_self]

end linearpart

/-! ## Cell accessors: assertions and frames -/

namespace linearpart

variable {α : Type}

theorem getData_assertion_iff (p : linearpart α) (x y : Int) :
    p.getData x y = .error .assertion ↔ ¬ (0 ≤ x ∧ x < p.nx ∧ -1 ≤ y ∧ y ≤ p.ny) := by
  constructor
  · intro h hc
    have hc1 : x ≥ 0 ∧ x < p.nx ∧ y ≥ -1 ∧ y ≤ p.ny := hc
    rw [getData, if_pos hc1] at h
    simp only [readCell] at h
    split at h
    · split at h <;> cases h
    · cases h
  · intro h
    have hc1 : ¬ (x ≥ 0 ∧ x < p.nx ∧ y ≥ -1 ∧ y ≤ p.ny) := h
    rw [getData, if_neg hc1]

/-- C11, counterexample. On rank 0 of the two ranks of `exampleParts 2`,
`hasAccess(0, -1)` is false and `getData(0, -1)` returns the cell 0 of the top
guard row; on the last rank `hasAccess(0, ny)` is false and `getData(0, ny)`
returns the cell 106 of the bottom guard row. -/
theorem getData_reads_guard_rows_without_access :
    (exampleParts 2 0).rank = 0 ∧ (exampleParts 2 0).hasAccess 0 (-1) = false
      ∧ ((exampleParts 2 0).getData 0 (-1)).toOption = some 0
      ∧ (exampleParts 2 1).rank = (exampleParts 2 1).size - 1
      ∧ (exampleParts 2 1).hasAccess 0 (exampleParts 2 1).ny = false
      ∧ ((exampleParts 2 1).getData 0 (exampleParts 2 1).ny).toOption = some 106 := by
  decide

/-- C11, amended. `getData(x, y)` fails its assertion exactly when
`0 ≤ x < nx` and `-1 ≤ y ≤ ny` do not both hold; where they hold, also when
`hasAccess(x, y)` is false (row `-1` on rank 0, row `ny` on the last rank), it
returns the cell at offset `nx + x + y*nx`, which lies inside the buffer. -/
theorem getData_traps_iff_out_of_range (p : linearpart α) (hw : p.WF) (x y : Int) :
    (p.getData x y = .error .assertion ↔ ¬ (0 ≤ x ∧ x < p.nx ∧ -1 ≤ y ∧ y ≤ p.ny))
      ∧ ((0 ≤ x ∧ x < p.nx ∧ -1 ≤ y ∧ y ≤ p.ny) →
          ∃ v, p.getData x y = .ok v
            ∧ p.rawData[(p.gridOff + (x + y * p.nx)).toNat]? = some v
            ∧ 0 ≤ p.gridOff + (x + y * p.nx)
            ∧ (p.gridOff + (x + y * p.nx)).toNat < p.rawData.length) := by
  refine ⟨getData_assertion_iff p x y, ?_⟩
  rintro ⟨h1, h2, h3, h4⟩
  obtain ⟨b0, b1⟩ := cell_offset_bounds hw ⟨h1, h2⟩ ⟨h3, h4⟩
  refine ⟨p.rawData.get ⟨_, b1⟩, ?_, ?_, b0, b1⟩
  · have hc1 : x ≥ 0 ∧ x < p.nx ∧ y ≥ -1 ∧ y ≤ p.ny := ⟨h1, h2, h3, h4⟩
    rw [getData, if_pos hc1]
    exact readCell_of_lt _ b0 b1
  · simp [List.getElem?_eq_getElem b1]

/-- C11, amended, on rank 0 of `exampleParts 2` at the cell `(0, -1)`. -/
theorem getData_traps_iff_out_of_range_witness :
    ((exampleParts 2 0).getData 0 (-1) = .error .assertion
        ↔ ¬ (0 ≤ (0 : Int) ∧ 0 < (exampleParts 2 0).nx ∧ -1 ≤ (-1 : Int)
            ∧ -1 ≤ (exampleParts 2 0).ny))
      ∧ ((0 ≤ (0 : Int) ∧ 0 < (exampleParts 2 0).nx ∧ -1 ≤ (-1 : Int)
            ∧ -1 ≤ (exampleParts 2 0).ny) →
          ∃ v, (exampleParts 2 0).getData 0 (-1) = .ok v
            ∧ (exampleParts 2 0).rawData[((exampleParts 2 0).gridOff
                + (0 + -1 * (exampleParts 2 0).nx)).toNat]? = some v
            ∧ 0 ≤ (exampleParts 2 0).gridOff + (0 + -1 * (exampleParts 2 0).nx)
            ∧ ((exampleParts 2 0).gridOff + (0 + -1 * (exampleParts 2 0).nx)).toNat
                < (exampleParts 2 0).rawData.length) :=
  getData_traps_iff_out_of_range (exampleParts 2 0)
    ((exampleParts_collective 2).wf 0 (by decide) (by decide)) 0 (-1)

theorem isInPartition_iff (p : linearpart α) (x y : Int) :
    p.isInPartition x y = true ↔ (0 ≤ x ∧ x < p.nx) ∧ (0 ≤ y ∧ y < p.ny) := by
  simp only [isInPartition, Bool.and_eq_true, decide_eq_true_eq, ge_iff_le]
  tauto

/-- C12. On a partition with its buffer allocated, `setData(x, y, v)` and
`addToData(x, y, v)` fail their assertion exactly when `isInPartition(x, y)`
is false; when it is true they return, the cell `(x, y)` then holds `v`
(respectively its old value plus `v`), and every other cell of the band and of
the two guard rows holds what it held. -/
theorem setData_addToData_frame [Add α] (p : linearpart α) (hw : p.WF) (x y : Int) (v : α) :
    (p.setData x y v = .error .assertion ↔ p.isInPartition x y = false)
      ∧ (p.addToData x y v = .error .assertion ↔ p.isInPartition x y = false)
      ∧ (p.isInPartition x y = true →
          ∃ q1 q2 old, p.getData x y = .ok old
            ∧ p.setData x y v = .ok q1 ∧ p.addToData x y v = .ok q2
            ∧ q1.getData x y = .ok v ∧ q2.getData x y = .ok (old + v)
            ∧ ∀ x1 y1, 0 ≤ x1 → x1 < p.nx → -1 ≤ y1 → y1 ≤ p.ny → ¬ (x1 = x ∧ y1 = y) →
                q1.getData x1 y1 = p.getData x1 y1 ∧ q2.getData x1 y1 = p.getData x1 y1) := by
  have hyes : p.isInPartition x y = true →
      ∃ q1 q2 old, p.getData x y = .ok old
        ∧ p.setData x y v = .ok q1 ∧ p.addToData x y v = .ok q2
        ∧ q1.getData x y = .ok v ∧ q2.getData x y = .ok (old + v)
        ∧ ∀ x1 y1, 0 ≤ x1 → x1 < p.nx → -1 ≤ y1 → y1 ≤ p.ny → ¬ (x1 = x ∧ y1 = y) →
            q1.getData x1 y1 = p.getData x1 y1 ∧ q2.getData x1 y1 = p.getData x1 y1 := by
    intro hin
    obtain ⟨hx, hy⟩ := (isInPartition_iff p x y).1 hin
    have hy1 : -1 ≤ y ∧ y ≤ p.ny := by omega
    obtain ⟨q1, hq1, _, hg1⟩ := setData_spec hw v hx hy
    obtain ⟨q2, hq2, _, hg2⟩ := addToData_spec hw v (p.cell x y) hx hy
      (getData_eq_cell hw hx hy1)
    refine ⟨q1, q2, p.cell x y, getData_eq_cell hw hx hy1, hq1, hq2, ?_, ?_, ?_⟩
    · rw [hg1 x y hx hy1, if_pos ⟨rfl, rfl⟩]
    · rw [hg2 x y hx hy1, if_pos ⟨rfl, rfl⟩]
    · intro x1 y1 a b c d hne
      rw [hg1 x1 y1 ⟨a, b⟩ ⟨c, d⟩, hg2 x1 y1 ⟨a, b⟩ ⟨c, d⟩, if_neg hne, if_neg hne]
      exact ⟨rfl, rfl⟩
  refine ⟨?_, ?_, hyes⟩
  · constructor
    · intro h
      by_contra hin
      have hin1 : p.isInPartition x y = true := by simpa using hin
      obtain ⟨q1, _, _, _, hq1, _⟩ := hyes hin1
      rw [hq1] at h
      cases h
    · intro h
      simp [setData, h]
  · constructor
    · intro h
      by_contra hin
      have hin1 : p.isInPartition x y = true := by simpa using hin
      obtain ⟨_, q2, _, _, _, hq2, _⟩ := hyes hin1
      rw [hq2] at h
      cases h
    · intro h
      simp [addToData, h]

/-- C12, on rank 0 of `exampleParts 2`, at the cell `(1, 1)` with the value 9. -/
theorem setData_addToData_frame_witness :
    ((exampleParts 2 0).setData 1 1 9 = .error .assertion
        ↔ (exampleParts 2 0).isInPartition 1 1 = false)
      ∧ ((exampleParts 2 0).addToData 1 1 9 = .error .assertion
        ↔ (exampleParts 2 0).isInPartition 1 1 = false)
      ∧ ((exampleParts 2 0).isInPartition 1 1 = true →
          ∃ q1 q2 old, (exampleParts 2 0).getData 1 1 = .ok old
            ∧ (exampleParts 2 0).setData 1 1 9 = .ok q1
            ∧ (exampleParts 2 0).addToData 1 1 9 = .ok q2
            ∧ q1.getData 1 1 = .ok 9 ∧ q2.getData 1 1 = .ok (old + 9)
            ∧ ∀ x1 y1, 0 ≤ x1 → x1 < (exampleParts 2 0).nx → -1 ≤ y1 →
                y1 ≤ (exampleParts 2 0).ny → ¬ (x1 = 1 ∧ y1 = 1) →
                q1.getData x1 y1 = (exampleParts 2 0).getData x1 y1
                  ∧ q2.getData x1 y1 = (exampleParts 2 0).getData x1 y1) :=
  setData_addToData_frame (exampleParts 2 0)
    ((exampleParts_collective 2).wf 0 (by decide) (by decide)) 1 1 9

end linearpart

/-! ## Buffer layout -/

namespace linearpart

variable {α : Type}

/-- C13. Right after `init(totalx, totaly, dx, dy, type, nd)` with
`totalx ≥ 0`, `totaly ≥ 0` on a rank of a communicator of `size ≥ 1`
processes, the buffer has `nx*ny + 2*nx` cells and `getData(x, y)` returns `nd`
for every `0 ≤ x < nx` and every `-1 ≤ y ≤ ny`. -/
theorem init_buffer_filled (rank size totalx totaly : Int) (nd : α)
    (hx : 0 ≤ totalx) (hy : 0 ≤ totaly) (hs : 1 ≤ size) :
    ((init rank size totalx totaly nd).rawData.length : Int)
        = (init rank size totalx totaly nd).nx * (init rank size totalx totaly nd).ny
          + 2 * (init rank size totalx totaly nd).nx
      ∧ ∀ x y, 0 ≤ x → x < (init rank size totalx totaly nd).nx →
          -1 ≤ y → y ≤ (init rank size totalx totaly nd).ny →
          (init rank size totalx totaly nd).getData x y = .ok nd := by
  have hw := init_wf rank size totalx totaly nd hx hy hs
  constructor
  · have h1 := hw.nx_nonneg
    have h2 : 0 ≤ (init rank size totalx totaly nd).nx * (init rank size totalx totaly nd).ny :=
      mul_nonneg hw.nx_nonneg hw.ny_nonneg
    rw [hw.length_eq]
    omega
  · intro x y a b c d
    exact init_getData rank size totalx totaly nd hx hy hs ⟨a, b⟩ ⟨c, d⟩

/-- C13, on the last of 3 ranks for a grid of 10 columns and 23 rows. -/
theorem init_buffer_filled_witness :
    ((init 2 3 10 23 (-1 : Int)).rawData.length : Int)
        = (init 2 3 10 23 (-1 : Int)).nx * (init 2 3 10 23 (-1 : Int)).ny
          + 2 * (init 2 3 10 23 (-1 : Int)).nx
      ∧ ∀ x y, 0 ≤ x → x < (init 2 3 10 23 (-1 : Int)).nx →
          -1 ≤ y → y ≤ (init 2 3 10 23 (-1 : Int)).ny →
          (init 2 3 10 23 (-1 : Int)).getData x y = .ok (-1) :=
  init_buffer_filled 2 3 10 23 (-1) (by decide) (by decide) (by decide)

/-- C17. For `nx ≥ 1`, every `ny` (`ny ≥ 0` in particular) and every `(x, y)` that
passes the assertion of
`getData`, the offset `nx + x + y*nx` at which `getData` reads `rawData` lies
in `[0, nx*ny + 2*nx)`; row `-1` is read at `topBorder + x` (offset `x`) and
row `ny` at `bottomBorder + x` (offset `nx + nx*ny + x`); and two cells with
the same offset are the same cell. -/
theorem getData_offset_in_buffer (p : linearpart α) (hnx : 1 ≤ p.nx) :
    (∀ x y, 0 ≤ x → x < p.nx → -1 ≤ y → y ≤ p.ny →
        p.getData x y = readCell p.rawData (p.gridOff + (x + y * p.nx))
          ∧ 0 ≤ p.gridOff + (x + y * p.nx)
          ∧ p.gridOff + (x + y * p.nx) < p.nx * p.ny + 2 * p.nx)
      ∧ (∀ x, p.gridOff + (x + -1 * p.nx) = p.topOff + x ∧ p.topOff + x = x
          ∧ p.gridOff + (x + p.ny * p.nx) = p.bottomOff + x
          ∧ p.bottomOff + x = p.nx + p.nx * p.ny + x)
      ∧ ∀ x y x1 y1, 0 ≤ x → x < p.nx → 0 ≤ x1 → x1 < p.nx →
          p.gridOff + (x + y * p.nx) = p.gridOff + (x1 + y1 * p.nx) → x = x1 ∧ y = y1 := by
  refine ⟨?_, ?_, ?_⟩
  · intro x y a b c d
    have hc1 : x ≥ 0 ∧ x < p.nx ∧ y ≥ -1 ∧ y ≤ p.ny := ⟨a, b, c, d⟩
    have h1 : 0 ≤ (y + 1) * p.nx := mul_nonneg (by omega) (by omega)
    have h2 : 0 ≤ (p.ny - y) * p.nx := mul_nonneg (by omega) (by omega)
    have e1 : (y + 1) * p.nx = y * p.nx + p.nx := by ring
    have e2 : (p.ny - y) * p.nx = p.nx * p.ny - y * p.nx := by ring
    refine ⟨by rw [getData, if_pos hc1], ?_, ?_⟩
    · simp only [gridOff]; omega
    · simp only [gridOff]; omega
  · intro x
    refine ⟨?_, ?_, ?_, ?_⟩ <;> simp only [gridOff, topOff, bottomOff] <;> ring
  · intro x y x1 y1 a b c d h
    exact cell_offset_inj ⟨a, b⟩ ⟨c, d⟩ (by linarith)

/-- C17, on the partition of rank 0 of `exampleParts 2`. -/
theorem getData_offset_in_buffer_witness :
    (∀ x y, 0 ≤ x → x < (exampleParts 2 0).nx → -1 ≤ y → y ≤ (exampleParts 2 0).ny →
        (exampleParts 2 0).getData x y
            = readCell (exampleParts 2 0).rawData
                ((exampleParts 2 0).gridOff + (x + y * (exampleParts 2 0).nx))
          ∧ 0 ≤ (exampleParts 2 0).gridOff + (x + y * (exampleParts 2 0).nx)
          ∧ (exampleParts 2 0).gridOff + (x + y * (exampleParts 2 0).nx)
              < (exampleParts 2 0).nx * (exampleParts 2 0).ny + 2 * (exampleParts 2 0).nx)
      ∧ (∀ x, (exampleParts 2 0).gridOff + (x + -1 * (exampleParts 2 0).nx)
              = (exampleParts 2 0).topOff + x
          ∧ (exampleParts 2 0).topOff + x = x
          ∧ (exampleParts 2 0).gridOff + (x + (exampleParts 2 0).ny * (exampleParts 2 0).nx)
              = (exampleParts 2 0).bottomOff + x
          ∧ (exampleParts 2 0).bottomOff + x
              = (exampleParts 2 0).nx + (exampleParts 2 0).nx * (exampleParts 2 0).ny + x)
      ∧ ∀ x y x1 y1, 0 ≤ x → x < (exampleParts 2 0).nx → 0 ≤ x1 → x1 < (exampleParts 2 0).nx →
          (exampleParts 2 0).gridOff + (x + y * (exampleParts 2 0).nx)
            = (exampleParts 2 0).gridOff + (x1 + y1 * (exampleParts 2 0).nx) →
          x = x1 ∧ y = y1 :=
  getData_offset_in_buffer (exampleParts 2 0) (by decide)

/-! ## Spacing cache -/

theorem savedxdycRow_eq_localToGlobal (p : linearpart α) (i : Int) :
    p.savedxdycRow i = (p.localToGlobal 0 i).2 := by
  simp only [savedxdycRow, localToGlobal]

/-- C19. On the partition that `init` builds for a rank `0 ≤ rank < size` of a
grid with `totaly ≥ 0` rows, for every local row `0 ≤ i < ny`: the global row
that `savedxdyc` computes for the cache slot `i` is the `gy` that
`localToGlobal(0, i)` returns, it lies in `[0, totaly)`, and the slot `i` of
`dxc` and of `dyc` is what the metadata object answers for that row. -/
theorem savedxdyc_rows_agree {β : Type} (rank size totalx totaly : Int) (nd : α)
    (getdxc getdyc : Int → β)
    (hy : 0 ≤ totaly) (hs : 1 ≤ size) (hr : 0 ≤ rank ∧ rank < size) (i : Int)
    (hi : 0 ≤ i ∧ i < (init rank size totalx totaly nd).ny) :
    (init rank size totalx totaly nd).savedxdycRow i
        = ((init rank size totalx totaly nd).localToGlobal 0 i).2
      ∧ 0 ≤ (init rank size totalx totaly nd).savedxdycRow i
      ∧ (init rank size totalx totaly nd).savedxdycRow i < totaly
      ∧ ((init rank size totalx totaly nd).savedxdyc getdxc getdyc).1[i.toNat]?
          = some (getdxc ((init rank size totalx totaly nd).localToGlobal 0 i).2)
      ∧ ((init rank size totalx totaly nd).savedxdyc getdxc getdyc).2[i.toNat]?
          = some (getdyc ((init rank size totalx totaly nd).localToGlobal 0 i).2) := by
  have hq : 0 ≤ Int.tdiv totaly size := tdiv_nonneg_of_nonneg hy (by omega)
  have hm := tmod_nonneg_of_nonneg hy (show 0 < size by omega)
  have key := Int.tdiv_add_tmod totaly size
  have heq := savedxdycRow_eq_localToGlobal (init rank size totalx totaly nd) i
  have hcast : ((i.toNat : Nat) : Int) = i := by omega
  have hlt : i.toNat < ((init rank size totalx totaly nd).ny).toNat := by omega
  refine ⟨heq, ?_, ?_, ?_, ?_⟩
  · by_cases hl : rank = size - 1
    · simp only [savedxdycRow, init, if_pos hl]
      have : 0 ≤ rank * Int.tdiv totaly size := mul_nonneg hr.1 hq
      have e : rank * (Int.tdiv totaly size + Int.tmod totaly size - Int.tmod totaly size)
          = rank * Int.tdiv totaly size := by ring
      omega
    · simp only [savedxdycRow, init, if_neg hl]
      have : 0 ≤ rank * Int.tdiv totaly size := mul_nonneg hr.1 hq
      omega
  · by_cases hl : rank = size - 1
    · have hny : (init rank size totalx totaly nd).ny
          = Int.tdiv totaly size + Int.tmod totaly size := by simp [init, hl]
      simp only [savedxdycRow, init, if_pos hl]
      have e : rank * (Int.tdiv totaly size + Int.tmod totaly size - Int.tmod totaly size)
          = size * Int.tdiv totaly size - Int.tdiv totaly size := by rw [hl]; ring
      rw [hny] at hi
      omega
    · have hny : (init rank size totalx totaly nd).ny = Int.tdiv totaly size := by
        simp [init, hl]
      simp only [savedxdycRow, init, if_neg hl]
      rw [hny] at hi
      have h1 : (rank + 1) * Int.tdiv totaly size ≤ (size - 1) * Int.tdiv totaly size :=
        mul_le_mul_of_nonneg_right (by omega) hq
      have e1 : (rank + 1) * Int.tdiv totaly size
          = rank * Int.tdiv totaly size + Int.tdiv totaly size := by ring
      have e2 : (size - 1) * Int.tdiv totaly size
          = size * Int.tdiv totaly size - Int.tdiv totaly size := by ring
      omega
  · simp only [savedxdyc, List.getElem?_map, List.getElem?_range hlt, Option.map_some',
      hcast, heq]
  · simp only [savedxdyc, List.getElem?_map, List.getElem?_range hlt, Option.map_some',
      hcast, heq]

/-- C19, on the last of 3 ranks for 23 rows, at the local row 8. -/
theorem savedxdyc_rows_agree_witness :
    (init 2 3 10 23 (-1 : Int)).savedxdycRow 8
        = ((init 2 3 10 23 (-1 : Int)).localToGlobal 0 8).2
      ∧ 0 ≤ (init 2 3 10 23 (-1 : Int)).savedxdycRow 8
      ∧ (init 2 3 10 23 (-1 : Int)).savedxdycRow 8 < 23
      ∧ ((init 2 3 10 23 (-1 : Int)).savedxdyc (fun g => 2 * g) (fun g => 3 * g)).1[(8 : Int).toNat]?
          = some ((fun g : Int => 2 * g) ((init 2 3 10 23 (-1 : Int)).localToGlobal 0 8).2)
      ∧ ((init 2 3 10 23 (-1 : Int)).savedxdyc (fun g => 2 * g) (fun g => 3 * g)).2[(8 : Int).toNat]?
          = some ((fun g : Int => 3 * g) ((init 2 3 10 23 (-1 : Int)).localToGlobal 0 8).2) :=
  savedxdyc_rows_agree 2 3 10 23 (-1) (fun g => 2 * g) (fun g => 3 * g)
    (by decide) (by decide) (by decide) 8 (by decide)

end linearpart

/-! ## `addBorders` with one owned row, and the message count of `ringTerm` -/

namespace linearpart

variable {α : Type}

open Mpi

/-- On a partition with `ny == 1`, the loop of `addBorders()` completes, and
for every column `i`, with `t` and `b` the top and bottom guard cells and `v`
the cell `(i, 0)` before the loop: the cell `(i, 0)` holds `noData` if `t`,
`b` or `v` is `noData` or if `v + t` equals `noData`, and `v + t + b`
otherwise. -/
theorem addBordersLoop_single_row [DecidableEq α] [Add α] (p : linearpart α)
    (hw : p.WF) (hny : p.ny = 1) :
    ∃ q, p.addBordersLoop = .ok q
      ∧ ∀ i t v b, 0 ≤ i → i < p.nx →
          p.getData i (-1) = .ok t → p.getData i 0 = .ok v → p.getData i p.ny = .ok b →
          q.getData i 0
            = .ok (if t = p.noData ∨ b = p.noData ∨ v = p.noData ∨ v + t = p.noData
                then p.noData else v + t + b) := by
  obtain ⟨q, hq, _, hc⟩ := addBordersLoop_spec hw (show 1 ≤ p.ny by omega)
  refine ⟨q, hq, ?_⟩
  intro i t v b h0 h1 ht hv hb
  have e1 : (0 : Int) = p.ny - 1 := by omega
  rw [hc i 0 ⟨h0, h1⟩ (by omega)]
  simp only [addBordersCell, if_pos e1, if_pos hny, accumulate, cell_of_getData ht,
    cell_of_getData hv, cell_of_getData hb]
  by_cases c1 : t = p.noData
  · simp [c1]
  · by_cases c2 : v = p.noData
    · simp [c2]
    · by_cases c3 : b = p.noData
      · simp [c3]
      · by_cases c4 : v + t = p.noData
        · simp [c1, c2, c3, c4]
        · simp [c1, c2, c3, c4]

/-- C15, counterexample. One round of `ringTerm` on two ranks completes with
3 messages sent, more than `2*(size-1) = 2`. -/
theorem ringTerm_two_ranks_three_messages :
    (exampleRing.procs 0).prog.length = 0 ∧ (exampleRing.procs 1).prog.length = 0
      ∧ exampleRing.sent = 3 ∧ ¬ ((exampleRing.sent : Int) ≤ 2 * (2 - 1)) := by
  decide

/-- C15, amended. On `size ≥ 2` ranks one collective round of `ringTerm`
completes with exactly `2*size - 1` messages sent: `size` in the first phase
(the last rank sends the token back to rank 0) and `size - 1` in the second. -/
theorem ringTerm_message_count (size : Int) (parts : Int → linearpart α) (flags : Int → Int)
    (hs : 2 ≤ size) (hr : Ranked size parts) :
    ∃ t, Mpi.Outcome size (ringTerm size parts flags) t ∧ (t.sent : Int) = 2 * size - 1 := by
  obtain ⟨sched, hex, hmem⟩ := ring_exec flags hr hs
  refine ⟨ringSecond size parts flags size,
    outcome_of_exec hex (ringSecond_done size parts flags) hmem, ?_⟩
  simp only [ringSecond, if_true]
  omega

/-- C15, amended, on the four ranks of `exampleParts 4`. -/
theorem ringTerm_message_count_witness :
    ∃ t, Mpi.Outcome 4 (ringTerm 4 (exampleParts 4) (fun _ => 1)) t
      ∧ (t.sent : Int) = 2 * 4 - 1 :=
  ringTerm_message_count 4 (exampleParts 4) (fun _ => 1) (by decide) (exampleParts_ranked 4)

end linearpart

/-! ## `clearBorders` -/

namespace Mpi

variable {S M : Type}

/-- Ranks that start with one local computation each make it in ascending
order. -/
theorem local_exec (size : Int) (st : Int → S) (g : Int → S → S) (k : Nat)
    (hk : (k : Int) ≤ size) :
    ∃ sched, exec sched
        (start size st (fun r => [Act.compute (fun s => some (g r s))]) : World S M)
        = some (localUpto size st g k)
      ∧ ∀ x ∈ sched, 0 ≤ x ∧ x < size := by
  induction k with
  | zero =>
    refine ⟨[], ?_, by simp⟩
    simp only [exec, Option.some.injEq]
    apply World.ext_iff3
    · intro r
      simp only [start, localUpto, Nat.cast_zero]
      split_ifs <;> first | rfl | (exfalso; omega)
    · intro s d t
      rfl
    · rfl
  | succ k ih =>
    obtain ⟨sched, hex, hmem⟩ := ih (by push_cast at hk; omega)
    have hk0 : (0 : Int) ≤ k := Int.ofNat_nonneg k
    have hk1 : (k : Int) < size := by push_cast at hk; omega
    have hproc : (localUpto size st g k : World S M).procs k
        = ⟨st k, [Act.compute (fun s => some (g k s))]⟩ := by
      simp only [localUpto]
      split_ifs <;> first | rfl | (exfalso; omega)
    refine ⟨sched ++ [(k : Int)], exec_snoc hex ((step_of_compute hproc rfl).trans ?_), ?_⟩
    · congr 1
      apply World.ext_iff3
      · intro r
        simp only [localUpto, put_procs, Nat.cast_succ]
        by_cases hr : r = k
        · subst hr
          simp only [if_true]
          split_ifs <;> first | rfl | (exfalso; omega)
        · simp only [if_neg hr]
          split_ifs <;> first | rfl | (exfalso; omega)
      · intro s d t
        rfl
      · rfl
    · intro x hx
      rcases List.mem_append.mp hx with hx | hx
      · exact hmem x hx
      · simp only [List.mem_singleton] at hx
        omega

theorem localUpto_done (size : Int) (st : Int → S) (g : Int → S → S) :
    (localUpto size st g size : World S M).Done := by
  intro r
  simp only [localUpto]
  split_ifs <;> first | rfl | (exfalso; omega)

/-- A collective call that is one local computation on every rank completes
without a message, each rank holding the result of its computation. -/
theorem local_outcome (size : Int) (st : Int → S) (g : Int → S → S) (hs : 0 ≤ size) :
    ∃ t : World S M,
      Outcome size (start size st (fun r => [Act.compute (fun s => some (g r s))])) t
        ∧ t.sent = 0 ∧ ∀ r, 0 ≤ r → r < size → (t.procs r).st = g r (st r) := by
  obtain ⟨sched, hex, hmem⟩ := local_exec (M := M) size st g size.toNat (by omega)
  have e : ((size.toNat : Nat) : Int) = size := by omega
  rw [e] at hex
  refine ⟨localUpto size st g size, outcome_of_exec hex (localUpto_done size st g) hmem,
    rfl, ?_⟩
  intro r h0 h1
  simp only [localUpto]
  rw [if_pos ⟨h0, h1, h1⟩]

end Mpi

namespace linearpart

variable {α : Type}

theorem readCell_of_getElem {raw : List α} {off : Int} {v : α} (h0 : 0 ≤ off)
    (h : raw[off.toNat]? = some v) : readCell raw off = .ok v := by
  simp [readCell, h0, h]

/-- The loop of `clearBorders` after `k` columns. -/
theorem clearBorders_columns [Zero α] {p : linearpart α} (hw : p.WF) (k : Nat)
    (hk : (k : Int) ≤ p.nx) :
    SameShape p ((List.range k).foldl
        (fun q (i : Nat) =>
          let raw1 := q.rawData.set (q.topOff + (i : Int)).toNat 0
          { q with rawData := raw1.set (q.bottomOff + (i : Int)).toNat 0 }) p)
      ∧ ∀ j : Nat, ((List.range k).foldl
        (fun q (i : Nat) =>
          let raw1 := q.rawData.set (q.topOff + (i : Int)).toNat 0
          { q with rawData := raw1.set (q.bottomOff + (i : Int)).toNat 0 }) p).rawData[j]?
          = if j < k ∨ ((p.nx + p.nx * p.ny).toNat ≤ j ∧ j < (p.nx + p.nx * p.ny).toNat + k)
            then some 0 else p.rawData[j]? := by
  induction k with
  | zero =>
    refine ⟨SameShape.refl p, ?_⟩
    intro j
    have hc : ¬ (j < 0 ∨ ((p.nx + p.nx * p.ny).toNat ≤ j
        ∧ j < (p.nx + p.nx * p.ny).toNat + 0)) := by omega
    simp only [List.range_zero, List.foldl_nil]
    rw [if_neg hc]
  | succ k ih =>
    obtain ⟨hs, hj⟩ := ih (by push_cast at hk; omega)
    rw [List.range_succ, List.foldl_append]
    simp only [List.foldl_cons, List.foldl_nil]
    generalize (List.range k).foldl
        (fun q (i : Nat) =>
          let raw1 := q.rawData.set (q.topOff + (i : Int)).toNat 0
          { q with rawData := raw1.set (q.bottomOff + (i : Int)).toNat 0 }) p = q at hs hj
    obtain ⟨a1, a2, a3, a4, a5, a6, a7, a8⟩ := hs
    have hx := hw.nx_nonneg
    have hP : 0 ≤ p.nx * p.ny := mul_nonneg hw.nx_nonneg hw.ny_nonneg
    have hlen := hw.length_eq
    have e1 : (q.topOff + (k : Int)).toNat = k := by simp only [topOff]; omega
    have e2 : (q.bottomOff + (k : Int)).toNat = (p.nx + p.nx * p.ny).toNat + k := by
      simp only [bottomOff, a3, a4]; omega
    refine ⟨⟨a1, a2, a3, a4, a5, a6, a7, by simp [a8]⟩, ?_⟩
    intro j
    simp only [e1, e2, List.getElem?_set, List.length_set, hj, a8]
    push_cast at hk
    split_ifs <;> first | rfl | (exfalso; omega)

/-- What `clearBorders()` leaves in the cells. -/
theorem clearBorders_cells [Zero α] {p : linearpart α} (hw : p.WF) :
    SameShape p p.clearBorders
      ∧ (∀ x, 0 ≤ x → x < p.nx →
          p.clearBorders.getData x (-1) = .ok 0 ∧ p.clearBorders.getData x p.ny = .ok 0)
      ∧ ∀ x y, 0 ≤ x → x < p.nx → 0 ≤ y → y < p.ny →
          p.clearBorders.getData x y = p.getData x y := by
  have hx := hw.nx_nonneg
  have hny := hw.ny_nonneg
  obtain ⟨hs, hj⟩ := clearBorders_columns hw p.nx.toNat (by omega)
  have hs1 : SameShape p p.clearBorders := hs
  have hj1 : ∀ j : Nat, p.clearBorders.rawData[j]?
      = if j < p.nx.toNat ∨ ((p.nx + p.nx * p.ny).toNat ≤ j
            ∧ j < (p.nx + p.nx * p.ny).toNat + p.nx.toNat)
        then some 0 else p.rawData[j]? := hj
  obtain ⟨_, _, a3, a4, _, _, _, _⟩ := hs
  have a3c : p.clearBorders.nx = p.nx := a3
  have a4c : p.clearBorders.ny = p.ny := a4
  have hP : 0 ≤ p.nx * p.ny := mul_nonneg hx hny
  refine ⟨hs1, ?_, ?_⟩
  · intro x h0 h1
    constructor
    · have hc : x ≥ 0 ∧ x < p.clearBorders.nx ∧ (-1 : Int) ≥ -1 ∧ -1 ≤ p.clearBorders.ny := by
        rw [a3c, a4c]; omega
      rw [getData, if_pos hc]
      have e : p.clearBorders.gridOff + (x + -1 * p.clearBorders.nx) = x := by
        simp only [gridOff, a3c]; ring
      rw [e]
      apply readCell_of_getElem h0
      rw [hj1, if_pos (by omega)]
    · have hc : x ≥ 0 ∧ x < p.clearBorders.nx ∧ p.ny ≥ -1 ∧ p.ny ≤ p.clearBorders.ny := by
        rw [a3c, a4c]; omega
      rw [getData, if_pos hc]
      have e : p.clearBorders.gridOff + (x + p.ny * p.clearBorders.nx)
          = p.nx + p.nx * p.ny + x := by
        simp only [gridOff, a3c]; ring
      rw [e]
      apply readCell_of_getElem (by omega)
      rw [hj1, if_pos (by omega)]
  · intro x y h0 h1 h2 h3
    have hc : x ≥ 0 ∧ x < p.clearBorders.nx ∧ y ≥ -1 ∧ y ≤ p.clearBorders.ny := by
      rw [a3c, a4c]; omega
    have hc1 : x ≥ 0 ∧ x < p.nx ∧ y ≥ -1 ∧ y ≤ p.ny := by omega
    rw [getData, if_pos hc, getData, if_pos hc1]
    have b1 : 0 ≤ y * p.nx := mul_nonneg h2 hx
    have b2 : 0 ≤ (p.ny - 1 - y) * p.nx := mul_nonneg (by omega) hx
    have e2 : (p.ny - 1 - y) * p.nx = p.nx * p.ny - p.nx - y * p.nx := by ring
    have hcond : ¬ ((p.nx + (x + y * p.nx)).toNat < p.nx.toNat
        ∨ ((p.nx + p.nx * p.ny).toNat ≤ (p.nx + (x + y * p.nx)).toNat
          ∧ (p.nx + (x + y * p.nx)).toNat < (p.nx + p.nx * p.ny).toNat + p.nx.toNat)) := by
      omega
    simp only [gridOff, a3c, readCell]
    rw [hj1, if_neg hcond]

/-- C14. On `size ≥ 0` ranks that hold partitions with their buffers allocated,
the collective call of `clearBorders()` completes with no message sent
(under the scheduler, and under every interleaving); afterwards, on every
rank, every cell of `topBorder` and of `bottomBorder` is 0 and every owned cell
`(x, y)` with `0 ≤ x < nx`, `0 ≤ y < ny` holds what it held. -/
theorem clearBorders_zeroes_guard_rows [Zero α] (size : Int) (parts : Int → linearpart α)
    (hs : 0 ≤ size) (hw : ∀ r, 0 ≤ r → r < size → (parts r).WF) :
    ∃ t, Mpi.Outcome size (clearBordersAll size parts) t ∧ t.sent = 0
      ∧ ∀ r, 0 ≤ r → r < size →
          (∀ x, 0 ≤ x → x < (parts r).nx →
            (t.procs r).st.getData x (-1) = .ok 0
              ∧ (t.procs r).st.getData x (parts r).ny = .ok 0)
          ∧ ∀ x y, 0 ≤ x → x < (parts r).nx → 0 ≤ y → y < (parts r).ny →
              (t.procs r).st.getData x y = (parts r).getData x y := by
  obtain ⟨t, ho, hsent, hst⟩ := Mpi.local_outcome (M := List α) size parts
    (fun _ q => q.clearBorders) hs
  refine ⟨t, ho, hsent, ?_⟩
  intro r h0 h1
  rw [hst r h0 h1]
  exact (clearBorders_cells (hw r h0 h1)).2

/-- C14, on the two ranks of `exampleParts 2`. -/
theorem clearBorders_zeroes_guard_rows_witness :
    ∃ t, Mpi.Outcome 2 (clearBordersAll 2 (exampleParts 2)) t ∧ t.sent = 0
      ∧ ∀ r, 0 ≤ r → r < 2 →
          (∀ x, 0 ≤ x → x < (exampleParts 2 r).nx →
            (t.procs r).st.getData x (-1) = .ok 0
              ∧ (t.procs r).st.getData x (exampleParts 2 r).ny = .ok 0)
          ∧ ∀ x y, 0 ≤ x → x < (exampleParts 2 r).nx → 0 ≤ y → y < (exampleParts 2 r).ny →
              (t.procs r).st.getData x y = (exampleParts 2 r).getData x y :=
  clearBorders_zeroes_guard_rows 2 (exampleParts 2) (by decide)
    (fun r h0 h1 => (exampleParts_collective 2).wf r h0 h1)

end linearpart

/-! ## `passBorders` -/

namespace linearpart

variable {α : Type}

open Mpi

theorem passBorders_procs (size : Int) (parts : Int → linearpart α) (junk : Int → List α)
    (r : Int) :
    (passBorders size parts junk).procs r
      = ⟨⟨parts r, junk r⟩, if 0 ≤ r ∧ r < size then (parts r).passBordersProg else []⟩ := rfl

theorem passBordersProg_of_lt {p : linearpart α} (hs : 1 < p.size) (h : p.rank < p.size - 1) :
    p.passBordersProg
      = Act.send (p.rank + 1) 0 (fun s => s.part.bottomBorder) :: p.passMidProg := by
  have h1 : ¬ p.size ≤ 1 := by omega
  simp [passBordersProg, passMidProg, h1, h]

theorem passBordersProg_of_last {p : linearpart α} (hs : 1 < p.size) (h : p.rank = p.size - 1) :
    p.passBordersProg = p.passMidProg := by
  have h1 : ¬ p.size ≤ 1 := by omega
  have h2 : ¬ p.rank < p.size - 1 := by omega
  simp [passBordersProg, passMidProg, h1, h2]

theorem passMidProg_of_pos {p : linearpart α} (h : 0 < p.rank) :
    p.passMidProg
      = Act.recv (p.rank - 1) 0 (fun m s => s.recvTemp m) ::
        Act.send (p.rank - 1) 0 (fun s => s.part.topBorder) :: p.passTail := by
  have h1 : p.rank > 0 := h
  simp [passMidProg, passTail, h1]

theorem passMidProg_of_zero {p : linearpart α} (h : p.rank = 0) :
    p.passMidProg = p.passTail := by
  simp [passMidProg, passTail, h]

theorem passTail_of_lt {p : linearpart α} (h : p.rank < p.size - 1) :
    p.passTail = [Act.recv (p.rank + 1) 0 (fun m s => s.recvBottom m),
      Act.compute (fun s => some s.moveTemp)] := by
  simp [passTail, h]

theorem passTail_of_last {p : linearpart α} (h : p.rank = p.size - 1) :
    p.passTail = [Act.compute (fun s => some s.moveTemp)] := by
  have h2 : ¬ p.rank < p.size - 1 := by omega
  simp [passTail, h2]

theorem length_bottomBorder_le (p : linearpart α) :
    (p.bottomBorder.length : Int) ≤ p.nx.toNat := by
  exact_mod_cast length_readRow_le _ _ _

theorem length_topBorder_le (p : linearpart α) :
    (p.topBorder.length : Int) ≤ p.nx.toNat := by
  exact_mod_cast length_readRow_le _ _ _

theorem length_bottomBorder {p : linearpart α} (hw : p.WF) :
    p.bottomBorder.length = p.nx.toNat := by
  have h1 := hw.nx_nonneg
  have h2 : 0 ≤ p.nx * p.ny := mul_nonneg h1 hw.ny_nonneg
  apply length_readRow
  rw [hw.length_eq]
  simp only [bottomOff]
  omega

theorem length_topBorder {p : linearpart α} (hw : p.WF) :
    p.topBorder.length = p.nx.toNat := by
  have h1 := hw.nx_nonneg
  have h2 : 0 ≤ p.nx * p.ny := mul_nonneg h1 hw.ny_nonneg
  apply length_readRow
  rw [hw.length_eq]
  simp only [topOff]
  omega

/-- Rank `k` below the last makes its send of line 228. -/
theorem pass_step_send {size nx : Int} {parts : Int → linearpart α} (junk : Int → List α)
    (hc : Collective size nx parts) {k : Int} (h0 : 0 ≤ k) (h1 : k < size - 1) :
    step (passUp size parts junk k) k = some (passMid size parts junk k) := by
  have hrank := hc.rank_eq k h0 (by omega)
  have hsize := hc.size_eq k h0 (by omega)
  have hproc : (passUp size parts junk k).procs k
      = ⟨⟨parts k, junk k⟩, Act.send (k + 1) 0 (fun s => s.part.bottomBorder) ::
          (parts k).passMidProg⟩ := by
    have hs1 : 1 < (parts k).size := by omega
    have hlt : (parts k).rank < (parts k).size - 1 := by omega
    simp only [passUp, passBorders_procs]
    rw [passBordersProg_of_lt hs1 hlt, hrank]
    split_ifs <;> first | rfl | (exfalso; omega)
  rw [step_of_send hproc]
  congr 1
  apply World.ext_iff3
  · intro r
    simp only [passMid, push_procs, put_procs]
  · intro s d t
    simp only [passMid, passUp, push_chan, put_chan]
    by_cases hs : s = k
    · subst hs
      split_ifs <;> first | rfl | (exfalso; omega)
    · split_ifs <;> first | rfl | (exfalso; omega)
  · simp only [passMid, passUp, push_sent, put_sent]
    split_ifs <;> omega

theorem passMid_last {size nx : Int} {parts : Int → linearpart α} (junk : Int → List α)
    (hc : Collective size nx parts) (hs : 2 ≤ size) :
    passUp size parts junk (size - 1) = passMid size parts junk (size - 1) := by
  have hrank := hc.rank_eq (size - 1) (by omega) (by omega)
  have hsize := hc.size_eq (size - 1) (by omega) (by omega)
  have hprog := passBordersProg_of_last (p := parts (size - 1)) (by omega) (by omega)
  apply World.ext_iff3
  · intro r
    simp only [passMid]
    by_cases hr : r = size - 1
    · subst hr
      simp only [passUp, passBorders_procs, if_true, hprog]
      split_ifs <;> first | rfl | (exfalso; omega)
    · rw [if_neg hr]
  · intro s d t
    simp only [passMid, passUp]
    split_ifs <;> first | rfl | (exfalso; omega)
  · simp only [passMid, passUp]
    split_ifs <;> omega

/-- Rank `k` above rank 0 takes the row of the rank above and sends its top
guard row. -/
theorem pass_step_exchange {size nx : Int} {parts : Int → linearpart α} (junk : Int → List α)
    (hc : Collective size nx parts) {k : Int} (h0 : 0 < k) (h1 : k < size) :
    exec [k, k] (passMid size parts junk k) = some (passUp size parts junk (k + 1)) := by
  have hrank := hc.rank_eq k (by omega) h1
  have hproc : (passMid size parts junk k).procs k
      = ⟨⟨parts k, junk k⟩, Act.recv (k - 1) 0 (fun m s => s.recvTemp m) ::
          Act.send (k - 1) 0 (fun s => s.part.topBorder) :: (parts k).passTail⟩ := by
    have hp : 0 < (parts k).rank := by omega
    simp only [passMid, if_true]
    rw [passMidProg_of_pos hp, hrank]
  have hchan : (passMid size parts junk k).chan (k - 1) k 0 = [(parts (k - 1)).bottomBorder] := by
    simp only [passMid, true_and, and_true, true_or, or_true]
    split_ifs <;> first | rfl | (exfalso; omega)
  have hrecv : (⟨parts k, junk k⟩ : PassState α).recvTemp (parts (k - 1)).bottomBorder
      = some ⟨parts k, passTemp parts junk k⟩ := by
    have hl := length_bottomBorder_le (parts (k - 1))
    have hx1 := hc.nx_eq k (by omega) h1
    have hx2 := hc.nx_eq (k - 1) (by omega) (by omega)
    have hx := (hc.wf k (by omega) h1).nx_nonneg
    have hle : (((parts (k - 1)).bottomBorder.length : Nat) : Int) ≤ (parts k).nx := by omega
    have hgt : k > 0 := h0
    simp only [PassState.recvTemp, if_pos hle, passTemp, if_pos hgt]
  have hstep1 := step_of_recv hproc hchan hrecv
  have hstep2 := step_of_send
    (w := ((passMid size parts junk k).put k
      ⟨⟨parts k, passTemp parts junk k⟩,
        Act.send (k - 1) 0 (fun s => s.part.topBorder) :: (parts k).passTail⟩).pop (k - 1) k 0)
    (r := k) (a := ⟨parts k, passTemp parts junk k⟩) (d := k - 1) (t := 0)
    (f := fun s => s.part.topBorder) (l := (parts k).passTail) (by simp)
  simp only [exec, hstep1, hstep2, Option.some_bind]
  congr 1
  apply World.ext_iff3
  · intro r
    simp only [passMid, passUp, push_procs, put_procs, pop_procs]
    by_cases hr : r = k
    · subst hr
      simp only [if_true]
      split_ifs <;> first | rfl | (exfalso; omega)
    · simp only [if_neg hr]
      split_ifs <;> first | rfl | (exfalso; omega)
  · intro s d t
    simp only [passMid, passUp, push_chan, put_chan, pop_chan, add_sub_cancel_right]
    by_cases hs : s = k
    · subst hs
      split_ifs <;> first | rfl | (exfalso; omega)
    · split_ifs <;> first | rfl | (exfalso; omega)
  · simp only [passMid, passUp, push_sent, put_sent, pop_sent]
    split_ifs <;> omega

theorem passMid_zero {size nx : Int} {parts : Int → linearpart α} (junk : Int → List α)
    (hc : Collective size nx parts) (hs : 2 ≤ size) :
    passMid size parts junk 0 = passUp size parts junk (0 + 1) := by
  have hrank := hc.rank_eq 0 (by omega) (by omega)
  have hprog := passMidProg_of_zero (p := parts 0) hrank
  have htemp : passTemp parts junk 0 = junk 0 := by simp [passTemp]
  apply World.ext_iff3
  · intro r
    simp only [passMid, passUp]
    by_cases hr : r = 0
    · subst hr
      simp only [if_true, hprog, htemp]
      split_ifs <;> first | rfl | (exfalso; omega)
    · rw [if_neg hr]
      split_ifs <;> first | rfl | (exfalso; omega)
  · intro s d t
    simp only [passMid, passUp, zero_add]
    split_ifs <;> first | rfl | (exfalso; omega)
  · simp only [passMid, passUp, zero_add]
    split_ifs <;> omega

/-- Rank `k` makes its calls up to line 236 once the rank above has. -/
theorem pass_step_up {size nx : Int} {parts : Int → linearpart α} (junk : Int → List α)
    (hc : Collective size nx parts) (hs : 2 ≤ size) {k : Int} (h0 : 0 ≤ k) (h1 : k < size) :
    ∃ sched, exec sched (passUp size parts junk k) = some (passUp size parts junk (k + 1))
      ∧ ∀ x ∈ sched, x = k := by
  have hA : ∃ s1, exec s1 (passUp size parts junk k) = some (passMid size parts junk k)
      ∧ ∀ x ∈ s1, x = k := by
    by_cases hlt : k < size - 1
    · exact ⟨[k], exec_one (pass_step_send junk hc h0 hlt), by simp⟩
    · have hk : k = size - 1 := by omega
      subst hk
      refine ⟨[], ?_, by simp⟩
      simp only [exec, passMid_last junk hc hs]
  have hB : ∃ s2, exec s2 (passMid size parts junk k) = some (passUp size parts junk (k + 1))
      ∧ ∀ x ∈ s2, x = k := by
    by_cases hgt : 0 < k
    · exact ⟨[k, k], pass_step_exchange junk hc hgt h1, by simp⟩
    · have hk : k = 0 := by omega
      subst hk
      refine ⟨[], ?_, by simp⟩
      simp only [exec, passMid_zero junk hc hs]
  obtain ⟨s1, h1e, h1m⟩ := hA
  obtain ⟨s2, h2e, h2m⟩ := hB
  refine ⟨s1 ++ s2, exec_trans h1e h2e, ?_⟩
  intro x hx
  rcases List.mem_append.mp hx with hx | hx
  · exact h1m x hx
  · exact h2m x hx

theorem pass_exec_up {size nx : Int} {parts : Int → linearpart α} (junk : Int → List α)
    (hc : Collective size nx parts) (hs : 2 ≤ size) (j : Nat) (hj : (j : Int) ≤ size) :
    ∃ sched, exec sched (passUp size parts junk 0) = some (passUp size parts junk j)
      ∧ ∀ x ∈ sched, 0 ≤ x ∧ x < size := by
  induction j with
  | zero => exact ⟨[], by simp [exec], by simp⟩
  | succ j ih =>
    obtain ⟨s1, h1e, h1m⟩ := ih (by push_cast at hj; omega)
    have hj0 : (0 : Int) ≤ j := Int.ofNat_nonneg j
    have hj1 : (j : Int) < size := by push_cast at hj; omega
    obtain ⟨s2, h2e, h2m⟩ := pass_step_up junk hc hs hj0 hj1
    have he : (j : Int) + 1 = ((j + 1 : Nat) : Int) := by push_cast; ring
    rw [he] at h2e
    refine ⟨s1 ++ s2, exec_trans h1e h2e, ?_⟩
    intro x hx
    rcases List.mem_append.mp hx with hx | hx
    · exact h1m x hx
    · have := h2m x hx
      omega

theorem passBottom_of_lt {size : Int} {parts : Int → linearpart α} {r : Int}
    (h : r < size - 1) :
    passBottom size parts r = { parts r with
      rawData := writeRow (parts r).rawData (parts r).bottomOff (parts (r + 1)).topBorder } := by
  simp [passBottom, h]

theorem passBottom_of_last {size : Int} {parts : Int → linearpart α} {r : Int}
    (h : ¬ r < size - 1) : passBottom size parts r = parts r := by
  simp [passBottom, h]

/-- Rank `k` takes the row of the rank below, moves `tempBorder` into place
and returns. -/
theorem pass_step_down {size nx : Int} {parts : Int → linearpart α} (junk : Int → List α)
    (hc : Collective size nx parts) {k : Int} (h0 : 0 ≤ k) (h1 : k < size) :
    ∃ sched, exec sched (passDown size parts junk k) = some (passDown size parts junk (k + 1))
      ∧ ∀ x ∈ sched, x = k := by
  have hrank := hc.rank_eq k h0 h1
  have hsize := hc.size_eq k h0 h1
  by_cases hlt : k < size - 1
  · have hproc : (passDown size parts junk k).procs k
        = ⟨⟨parts k, passTemp parts junk k⟩,
            [Act.recv (k + 1) 0 (fun m s => s.recvBottom m),
             Act.compute (fun s => some s.moveTemp)]⟩ := by
      have hp : (parts k).rank < (parts k).size - 1 := by omega
      simp only [passDown]
      rw [passTail_of_lt hp, hrank]
      split_ifs <;> first | rfl | (exfalso; omega)
    have hchan : (passDown size parts junk k).chan (k + 1) k 0 = [(parts (k + 1)).topBorder] := by
      simp only [passDown, true_and, and_true, add_sub_cancel_right, le_refl]
      split_ifs <;> first | rfl | (exfalso; omega)
    have hrecv : (⟨parts k, passTemp parts junk k⟩ : PassState α).recvBottom
        (parts (k + 1)).topBorder = some ⟨passBottom size parts k, passTemp parts junk k⟩ := by
      have hl := length_topBorder_le (parts (k + 1))
      have hx1 := hc.nx_eq k h0 h1
      have hx2 := hc.nx_eq (k + 1) (by omega) (by omega)
      have hx := (hc.wf k h0 h1).nx_nonneg
      have hle : (((parts (k + 1)).topBorder.length : Nat) : Int) ≤ (parts k).nx := by omega
      simp only [PassState.recvBottom, recvInto, if_pos hle, Option.map_some',
        passBottom_of_lt hlt]
    have hstep1 := step_of_recv hproc hchan hrecv
    have hstep2 := step_of_compute
      (w := ((passDown size parts junk k).put k
        ⟨⟨passBottom size parts k, passTemp parts junk k⟩,
          [Act.compute (fun s => some s.moveTemp)]⟩).pop (k + 1) k 0)
      (r := k) (a := ⟨passBottom size parts k, passTemp parts junk k⟩)
      (b := passFinal size parts junk k) (f := fun s => some s.moveTemp) (l := [])
      (by simp) rfl
    refine ⟨[k, k], ?_, by simp⟩
    simp only [exec, hstep1, hstep2, Option.some_bind]
    congr 1
    apply World.ext_iff3
    · intro r
      simp only [passDown, put_procs, pop_procs]
      by_cases hr : r = k
      · subst hr
        simp only [if_true]
        split_ifs <;> first | rfl | (exfalso; omega)
      · simp only [if_neg hr]
        split_ifs <;> first | rfl | (exfalso; omega)
    · intro s d t
      simp only [passDown, put_chan, pop_chan]
      split_ifs <;> first | rfl | (exfalso; omega)
    · rfl
  · have hproc : (passDown size parts junk k).procs k
        = ⟨⟨parts k, passTemp parts junk k⟩, [Act.compute (fun s => some s.moveTemp)]⟩ := by
      have hp : (parts k).rank = (parts k).size - 1 := by omega
      simp only [passDown]
      rw [passTail_of_last hp]
      split_ifs <;> first | rfl | (exfalso; omega)
    have hfin : (⟨parts k, passTemp parts junk k⟩ : PassState α).moveTemp
        = passFinal size parts junk k := by
      simp only [passFinal, passBottom_of_last hlt]
    have hstep1 := step_of_compute (b := passFinal size parts junk k) hproc
      (by rw [hfin])
    refine ⟨[k], ?_, by simp⟩
    simp only [exec, hstep1, Option.some_bind]
    congr 1
    apply World.ext_iff3
    · intro r
      simp only [passDown, put_procs]
      by_cases hr : r = k
      · subst hr
        simp only [if_true]
        split_ifs <;> first | rfl | (exfalso; omega)
      · simp only [if_neg hr]
        split_ifs <;> first | rfl | (exfalso; omega)
    · intro s d t
      simp only [passDown, put_chan]
      split_ifs <;> first | rfl | (exfalso; omega)
    · rfl

theorem pass_exec_down {size nx : Int} {parts : Int → linearpart α} (junk : Int → List α)
    (hc : Collective size nx parts) (j : Nat) (hj : (j : Int) ≤ size) :
    ∃ sched, exec sched (passDown size parts junk 0) = some (passDown size parts junk j)
      ∧ ∀ x ∈ sched, 0 ≤ x ∧ x < size := by
  induction j with
  | zero => exact ⟨[], by simp [exec], by simp⟩
  | succ j ih =>
    obtain ⟨s1, h1e, h1m⟩ := ih (by push_cast at hj; omega)
    have hj0 : (0 : Int) ≤ j := Int.ofNat_nonneg j
    have hj1 : (j : Int) < size := by push_cast at hj; omega
    obtain ⟨s2, h2e, h2m⟩ := pass_step_down junk hc hj0 hj1
    have he : (j : Int) + 1 = ((j + 1 : Nat) : Int) := by push_cast; ring
    rw [he] at h2e
    refine ⟨s1 ++ s2, exec_trans h1e h2e, ?_⟩
    intro x hx
    rcases List.mem_append.mp hx with hx | hx
    · exact h1m x hx
    · have := h2m x hx
      omega

/-- A complete schedule of `passBorders()` on two ranks or more. -/
theorem pass_exec {size nx : Int} {parts : Int → linearpart α} (junk : Int → List α)
    (hc : Collective size nx parts) (hs : 2 ≤ size) :
    ∃ sched, exec sched (passBorders size parts junk) = some (passDown size parts junk size)
      ∧ ∀ x ∈ sched, 0 ≤ x ∧ x < size := by
  obtain ⟨s1, h1e, h1m⟩ := pass_exec_up junk hc hs size.toNat (by omega)
  obtain ⟨s2, h2e, h2m⟩ := pass_exec_down junk hc size.toNat (by omega)
  have e1 : ((size.toNat : Nat) : Int) = size := by omega
  rw [e1] at h1e h2e
  have hstart : passBorders size parts junk = passUp size parts junk 0 := by
    apply World.ext_iff3
    · intro r
      simp only [passUp]
      split_ifs <;> first | rfl | (exfalso; omega)
    · intro s d t
      simp only [passUp, passBorders, start]
      split_ifs <;> first | rfl | (exfalso; omega)
    · simp only [passUp, passBorders, start]
      split_ifs <;> omega
  have hmid : passUp size parts junk size = passDown size parts junk 0 := by
    apply World.ext_iff3
    · intro r
      simp only [passUp, passDown]
      split_ifs <;> first | rfl | (exfalso; omega)
    · intro s d t
      simp only [passUp, passDown]
      split_ifs <;> first | rfl | (exfalso; omega)
    · simp only [passUp, passDown]
      split_ifs <;> omega
  rw [← hstart, hmid] at h1e
  refine ⟨s1 ++ s2, exec_trans h1e h2e, ?_⟩
  intro x hx
  rcases List.mem_append.mp hx with hx | hx
  · exact h1m x hx
  · exact h2m x hx

theorem passDown_done (size : Int) (parts : Int → linearpart α) (junk : Int → List α) :
    (passDown size parts junk size).Done := by
  intro r
  simp only [passDown, passBorders_procs]
  split_ifs <;> first | rfl | (exfalso; omega)

theorem passDown_st (size : Int) (parts : Int → linearpart α) (junk : Int → List α) {r : Int}
    (h0 : 0 ≤ r) (h1 : r < size) :
    ((passDown size parts junk size).procs r).st = passFinal size parts junk r := by
  simp only [passDown]
  rw [if_pos ⟨h0, h1, h1⟩]

theorem readRow_writeRow_zero (raw row : List α) (n : Int) (hn : n.toNat = row.length) :
    readRow (writeRow raw 0 row) 0 n = row := by
  simp only [readRow, writeRow, hn, Int.toNat_zero, List.take_zero, List.nil_append,
    List.drop_zero, zero_add]
  rw [List.take_append_of_le_length (le_refl _), List.take_of_length_le (le_refl _)]

theorem length_passBottom {size nx : Int} {parts : Int → linearpart α}
    (hc : Collective size nx parts) {r : Int} (h0 : 0 ≤ r) (h1 : r < size) :
    (passBottom size parts r).rawData.length = (nx * (parts r).ny + 2 * nx).toNat := by
  have hw := hc.wf r h0 h1
  have hx := hc.nx_eq r h0 h1
  have hlen := hw.length_eq
  rw [hx] at hlen
  by_cases hlt : r < size - 1
  · rw [passBottom_of_lt hlt]
    have hw2 := hc.wf (r + 1) (by omega) (by omega)
    have hx2 := hc.nx_eq (r + 1) (by omega) (by omega)
    have hl := length_topBorder hw2
    rw [hx2] at hl
    have hn := hw.nx_nonneg
    rw [hx] at hn
    have h2 : 0 ≤ nx * (parts r).ny := mul_nonneg hn hw.ny_nonneg
    show (writeRow _ _ _).length = _
    rw [length_writeRow _ _ _ (by simp only [bottomOff, hx, hl, hlen]; omega), hlen]
  · rw [passBottom_of_last hlt, hlen]

theorem passBottom_nx {size nx : Int} {parts : Int → linearpart α}
    (hc : Collective size nx parts) {r : Int} (h0 : 0 ≤ r) (h1 : r < size) :
    (passBottom size parts r).nx = nx ∧ (passBottom size parts r).ny = (parts r).ny := by
  have hx := hc.nx_eq r h0 h1
  by_cases hlt : r < size - 1
  · rw [passBottom_of_lt hlt]; exact ⟨hx, rfl⟩
  · rw [passBottom_of_last hlt]; exact ⟨hx, rfl⟩

/-- The top guard row with which a rank above 0 returns. -/
theorem topBorder_passFinal {size nx : Int} {parts : Int → linearpart α} (junk : Int → List α)
    (hc : Collective size nx parts) {r : Int} (h0 : 0 < r) (h1 : r < size) :
    (passFinal size parts junk r).part.topBorder = (parts (r - 1)).bottomBorder := by
  have hw := hc.wf r (by omega) h1
  have hn := hw.nx_nonneg
  have hx := hc.nx_eq r (by omega) h1
  rw [hx] at hn
  have h2 : 0 ≤ nx * (parts r).ny := mul_nonneg hn hw.ny_nonneg
  have hw1 := hc.wf (r - 1) (by omega) (by omega)
  have hx1 := hc.nx_eq (r - 1) (by omega) (by omega)
  have hl := length_bottomBorder hw1
  rw [hx1] at hl
  have hpb := passBottom_nx hc (le_of_lt h0) h1
  have hlen := length_passBottom hc (le_of_lt h0) h1
  have htemp : readRow (passTemp parts junk r) 0 nx = (parts (r - 1)).bottomBorder := by
    simp only [passTemp, if_pos h0]
    exact readRow_writeRow_zero _ _ _ hl.symm
  simp only [passFinal, PassState.moveTemp, topBorder, topOff, hpb.1, htemp]
  exact readRow_writeRow_same _ _ _ _
    (by simp only [Int.toNat_zero, hl, hlen]; omega) hl.symm

theorem length_passTemp_row (nx : Int) (parts : Int → linearpart α) (junk : Int → List α)
    (r : Int) : (readRow (passTemp parts junk r) 0 nx).length ≤ nx.toNat :=
  length_readRow_le _ _ _

/-- The bottom guard row with which a rank below the last returns. -/
theorem bottomBorder_passFinal {size nx : Int} {parts : Int → linearpart α}
    (junk : Int → List α) (hc : Collective size nx parts) {r : Int}
    (h0 : 0 ≤ r) (h1 : r < size - 1) :
    (passFinal size parts junk r).part.bottomBorder = (parts (r + 1)).topBorder := by
  have hw := hc.wf r h0 (by omega)
  have hn := hw.nx_nonneg
  have hx := hc.nx_eq r h0 (by omega)
  rw [hx] at hn
  have h2 : 0 ≤ nx * (parts r).ny := mul_nonneg hn hw.ny_nonneg
  have hw2 := hc.wf (r + 1) (by omega) (by omega)
  have hx2 := hc.nx_eq (r + 1) (by omega) (by omega)
  have hl := length_topBorder hw2
  rw [hx2] at hl
  have hpb := passBottom_nx hc h0 (show r < size by omega)
  have hlen := length_passBottom hc h0 (show r < size by omega)
  have hrow := length_passTemp_row nx parts junk r
  have hraw := hw.length_eq
  rw [hx] at hraw
  simp only [passFinal, PassState.moveTemp, bottomBorder, bottomOff, topOff, hpb.1, hpb.2]
  rw [readRow_writeRow_after _ _ _ _ _ (by simp only [Int.toNat_zero]; omega)
    (by simp only [Int.toNat_zero, hlen]; omega)]
  rw [passBottom_of_lt h1]
  show readRow (writeRow _ (parts r).bottomOff _) _ _ = _
  simp only [bottomOff, hx]
  exact readRow_writeRow_same _ _ _ _ (by rw [hl, hraw]; omega) hl.symm

/-- The owned band with which a rank returns. -/
theorem gridData_passFinal {size nx : Int} {parts : Int → linearpart α}
    (junk : Int → List α) (hc : Collective size nx parts) {r : Int}
    (h0 : 0 ≤ r) (h1 : r < size) :
    (passFinal size parts junk r).part.gridData = (parts r).gridData := by
  have hw := hc.wf r h0 h1
  have hn := hw.nx_nonneg
  have hx := hc.nx_eq r h0 h1
  rw [hx] at hn
  have h2 : 0 ≤ nx * (parts r).ny := mul_nonneg hn hw.ny_nonneg
  have hpb := passBottom_nx hc h0 h1
  have hlen := length_passBottom hc h0 h1
  have hrow := length_passTemp_row nx parts junk r
  have hraw := hw.length_eq
  rw [hx] at hraw
  simp only [passFinal, PassState.moveTemp, gridData, gridOff, topOff, hpb.1, hpb.2, hx]
  rw [readRow_writeRow_after _ _ _ _ _ (by simp only [Int.toNat_zero]; omega)
    (by simp only [Int.toNat_zero, hlen]; omega)]
  by_cases hlt : r < size - 1
  · rw [passBottom_of_lt hlt]
    show readRow (writeRow _ (parts r).bottomOff _) _ _ = _
    simp only [bottomOff, hx]
    exact readRow_writeRow_before _ _ _ _ _ (by omega) (by rw [hraw]; omega)
  · rw [passBottom_of_last hlt]

/-- C16. On two ranks or more, whose partitions have the same width, the
collective `passBorders()` completes (under the scheduler, and with the same
result under every interleaving of the calls), whatever the fresh `tempBorder`
buffers hold; afterwards the top guard row of every rank `r > 0` is the
bottom guard row that rank `r-1` had before the call, the bottom guard row of
every rank `r < size-1` is the top guard row that rank `r+1` had before the
call, and the owned band of every rank is as before. -/
theorem passBorders_swaps_guard_rows (size nx : Int) (parts : Int → linearpart α)
    (junk : Int → List α) (hs : 2 ≤ size) (hc : Collective size nx parts) :
    ∃ t, Mpi.Outcome size (passBorders size parts junk) t
      ∧ (∀ r, 0 < r → r < size →
          (t.procs r).st.part.topBorder = (parts (r - 1)).bottomBorder)
      ∧ (∀ r, 0 ≤ r → r < size - 1 →
          (t.procs r).st.part.bottomBorder = (parts (r + 1)).topBorder)
      ∧ ∀ r, 0 ≤ r → r < size →
          (t.procs r).st.part.gridData = (parts r).gridData := by
  obtain ⟨sched, hex, hmem⟩ := pass_exec junk hc hs
  refine ⟨passDown size parts junk size,
    outcome_of_exec hex (passDown_done size parts junk) hmem, ?_, ?_, ?_⟩
  · intro r h0 h1
    rw [passDown_st size parts junk (le_of_lt h0) h1, topBorder_passFinal junk hc h0 h1]
  · intro r h0 h1
    rw [passDown_st size parts junk h0 (by omega), bottomBorder_passFinal junk hc h0 h1]
  · intro r h0 h1
    rw [passDown_st size parts junk h0 h1, gridData_passFinal junk hc h0 h1]

theorem passBorders_swaps_guard_rows_witness :
    ∃ t, Mpi.Outcome 2 (passBorders 2 (exampleParts 2) (fun _ => [7, 7])) t
      ∧ (∀ r, 0 < r → r < 2 →
          (t.procs r).st.part.topBorder = (exampleParts 2 (r - 1)).bottomBorder)
      ∧ (∀ r, 0 ≤ r → r < 2 - 1 →
          (t.procs r).st.part.bottomBorder = (exampleParts 2 (r + 1)).topBorder)
      ∧ ∀ r, 0 ≤ r → r < 2 →
          (t.procs r).st.part.gridData = (exampleParts 2 r).gridData :=
  passBorders_swaps_guard_rows 2 2 (exampleParts 2) (fun _ => [7, 7]) (by decide)
    (exampleParts_collective 2)

end linearpart

/-! ## `transferPack` -/

namespace linearpart

open Mpi

variable {α : Type}

theorem transferPack_procs (size : Int) (parts : Int → linearpart α) (args : Int → PackState)
    (r : Int) :
    (transferPack size parts args).procs r
      = ⟨args r, if 0 ≤ r ∧ r < size then (parts r).transferPackProg else []⟩ := rfl

theorem transferPackProg_single {p : linearpart α} (h : p.size = 1) :
    p.transferPackProg = [] := by
  simp [transferPackProg, h]

theorem transferPackProg_of_pos {p : linearpart α} (hs : 1 < p.size) (h : 0 < p.rank) :
    p.transferPackProg = Act.send (p.rank - 1) 3 (fun s => s.msgAbove) :: p.packTail := by
  have h1 : ¬ p.size = 1 := by omega
  simp only [transferPackProg, packTail, packLast, if_neg h1, gt_iff_lt, if_pos h]
  split_ifs <;> rfl

theorem transferPackProg_of_zero {p : linearpart α} (hs : 1 < p.size) (h : p.rank = 0) :
    p.transferPackProg = p.packTail := by
  have h1 : ¬ p.size = 1 := by omega
  have h2 : ¬ p.rank > 0 := by omega
  simp only [transferPackProg, packTail, packLast, if_neg h1, if_neg h2]
  split_ifs <;> rfl

theorem packTail_of_lt {p : linearpart α} (h : p.rank < p.size - 1) :
    p.packTail = Act.recv (p.rank + 1) 3 (fun m s => s.recvAbove m)
      :: Act.send (p.rank + 1) 3 (fun s => s.msgBelow) :: p.packLast := by
  simp only [packTail, if_pos h]
  rfl

theorem packTail_of_last {p : linearpart α} (h : ¬ p.rank < p.size - 1) :
    p.packTail = p.packLast := by
  simp only [packTail, if_neg h, List.nil_append]

theorem packLast_of_pos {p : linearpart α} (h : 0 < p.rank) :
    p.packLast = [Act.recv (p.rank - 1) 3 (fun m s => s.recvBelow m)] := by
  simp only [packLast, gt_iff_lt, if_pos h]

theorem packLast_of_zero {p : linearpart α} (h : p.rank = 0) : p.packLast = [] := by
  have h2 : ¬ p.rank > 0 := by omega
  simp only [packLast, if_neg h2]

/-- A rank above 0 makes its send of line 390; rank 0 has none to make. -/
theorem pack_step_up {size : Int} {parts : Int → linearpart α} (args : Int → PackState)
    (hr : Ranked size parts) (hs : 2 ≤ size) {k : Int} (h0 : 0 ≤ k) (h1 : k < size) :
    ∃ sched, exec sched (packUp size parts args k) = some (packUp size parts args (k + 1))
      ∧ ∀ x ∈ sched, x = k := by
  have hrank := hr.rank_eq k h0 h1
  have hsize := hr.size_eq k h0 h1
  by_cases hk : 0 < k
  · have hproc : (packUp size parts args k).procs k
        = ⟨args k, Act.send (k - 1) 3 (fun s => s.msgAbove) :: (parts k).packTail⟩ := by
      have hcond : ¬ (0 ≤ k ∧ k < k ∧ k < size) := by omega
      simp only [packUp, if_neg hcond, transferPack_procs, if_pos (And.intro h0 h1)]
      rw [transferPackProg_of_pos (by omega) (by omega), hrank]
    have hstep := step_of_send hproc
    refine ⟨[k], ?_, by simp⟩
    simp only [exec, hstep, Option.some_bind]
    congr 1
    apply World.ext_iff3
    · intro r
      simp only [packUp, push_procs, put_procs, transferPack_procs]
      by_cases hrk : r = k
      · subst hrk
        simp only [if_true]
        split_ifs <;> first | rfl | (exfalso; omega)
      · simp only [if_neg hrk]
        split_ifs <;> first | rfl | (exfalso; omega)
    · intro s d t
      simp only [packUp, push_chan, put_chan]
      by_cases hsk : s = k
      · subst hsk
        split_ifs <;> first | rfl | (exfalso; omega)
      · split_ifs <;> first | rfl | (exfalso; omega)
    · simp only [packUp, push_sent, put_sent]
      split_ifs <;> omega
  · have hk0 : k = 0 := by omega
    subst hk0
    refine ⟨[], ?_, by simp⟩
    simp only [exec]
    congr 1
    apply World.ext_iff3
    · intro r
      simp only [packUp, transferPack_procs]
      by_cases hr0 : r = 0
      · subst hr0
        rw [transferPackProg_of_zero (by omega) hrank]
        split_ifs <;> first | rfl | (exfalso; omega)
      · split_ifs <;> first | rfl | (exfalso; omega)
    · intro s d t
      simp only [packUp]
      split_ifs <;> first | rfl | (exfalso; omega)
    · simp only [packUp]
      split_ifs <;> omega

theorem pack_exec_up {size : Int} {parts : Int → linearpart α} (args : Int → PackState)
    (hr : Ranked size parts) (hs : 2 ≤ size) (j : Nat) (hj : (j : Int) ≤ size) :
    ∃ sched, exec sched (packUp size parts args 0) = some (packUp size parts args j)
      ∧ ∀ x ∈ sched, 0 ≤ x ∧ x < size := by
  induction j with
  | zero => exact ⟨[], by simp [exec], by simp⟩
  | succ j ih =>
    obtain ⟨s1, h1e, h1m⟩ := ih (by push_cast at hj; omega)
    have hj0 : (0 : Int) ≤ j := Int.ofNat_nonneg j
    have hj1 : (j : Int) < size := by push_cast at hj; omega
    obtain ⟨s2, h2e, h2m⟩ := pack_step_up args hr hs hj0 hj1
    have he : (j : Int) + 1 = ((j + 1 : Nat) : Int) := by push_cast; ring
    rw [he] at h2e
    refine ⟨s1 ++ s2, exec_trans h1e h2e, ?_⟩
    intro x hx
    rcases List.mem_append.mp hx with hx | hx
    · exact h1m x hx
    · have := h2m x hx
      omega

theorem length_msgAbove {s : PackState} (hv : s.Valid) :
    ((s.msgAbove.length : Nat) : Int) = s.countA := by
  obtain ⟨h1, h2, _, _⟩ := hv
  have := length_readRow s.bufferAbove 0 s.countA (by simp only [Int.toNat_zero]; omega)
  simp only [PackState.msgAbove]
  omega

theorem length_msgBelow {s : PackState} (hv : s.Valid) :
    ((s.msgBelow.length : Nat) : Int) = s.countB := by
  obtain ⟨_, _, h1, h2⟩ := hv
  have := length_readRow s.bufferBelow 0 s.countB (by simp only [Int.toNat_zero]; omega)
  simp only [PackState.msgBelow]
  omega

theorem packAbove_below (size : Int) (args : Int → PackState) (r : Int) :
    (packAbove size args r).countB = (args r).countB
      ∧ (packAbove size args r).bufferBelow = (args r).bufferBelow := by
  simp only [packAbove]
  split_ifs <;> exact ⟨rfl, rfl⟩

theorem packAbove_msgBelow (size : Int) (args : Int → PackState) (r : Int) :
    (packAbove size args r).msgBelow = (args r).msgBelow := by
  simp only [PackState.msgBelow, (packAbove_below size args r).1,
    (packAbove_below size args r).2]

/-- Rank `k` below the last takes the buffer of rank `k+1` and sends its
downward buffer (lines 393-400). -/
theorem pack_step_first {size : Int} {parts : Int → linearpart α} (args : Int → PackState)
    (hr : Ranked size parts) {k : Int} (h0 : 0 ≤ k) (h1 : k < size - 1)
    (hcap : (((args (k + 1)).msgAbove.length : Nat) : Int) ≤ (args k).bufferAbove.length) :
    exec [k, k] (packDown size parts args k) = some (packMid size parts args k) := by
  have hrank := hr.rank_eq k h0 (by omega)
  have hsize := hr.size_eq k h0 (by omega)
  have hproc : (packDown size parts args k).procs k
      = ⟨args k, Act.recv (k + 1) 3 (fun m s => s.recvAbove m)
          :: Act.send (k + 1) 3 (fun s => s.msgBelow) :: (parts k).packLast⟩ := by
    have hp : (parts k).rank < (parts k).size - 1 := by omega
    simp only [packDown]
    rw [packTail_of_lt hp, hrank]
    split_ifs <;> first | rfl | (exfalso; omega)
  have hchan : (packDown size parts args k).chan (k + 1) k 3 = [(args (k + 1)).msgAbove] := by
    simp only [packDown, true_and, and_true, add_sub_cancel_right, le_refl]
    split_ifs <;> first | rfl | (exfalso; omega)
  have hrecv : (args k).recvAbove (args (k + 1)).msgAbove = some (packAbove size args k) := by
    have hc : (args (k + 1)).msgAbove.length ≤ (args k).bufferAbove.length := by
      exact_mod_cast hcap
    simp only [PackState.recvAbove, if_pos hc, packAbove, if_pos h1]
  have hstep1 := step_of_recv hproc hchan hrecv
  have hstep2 := step_of_send
    (w := ((packDown size parts args k).put k
      ⟨packAbove size args k,
        Act.send (k + 1) 3 (fun s => s.msgBelow) :: (parts k).packLast⟩).pop (k + 1) k 3)
    (r := k) (a := packAbove size args k) (d := k + 1) (t := 3)
    (f := fun s => s.msgBelow) (l := (parts k).packLast) (by simp)
  simp only [exec, hstep1, hstep2, Option.some_bind]
  congr 1
  apply World.ext_iff3
  · intro r
    simp only [packMid, packDown, push_procs, put_procs, pop_procs]
    by_cases hrk : r = k
    · subst hrk
      simp only [if_true]
    · simp only [if_neg hrk]
  · intro s d t
    simp only [packMid, packDown, push_chan, put_chan, pop_chan, packAbove_msgBelow]
    by_cases hsk : s = k
    · subst hsk
      split_ifs <;> first | rfl | (exfalso; omega)
    · split_ifs <;> first | rfl | (exfalso; omega)
  · simp only [packMid, packDown, push_sent, put_sent, pop_sent]
    split_ifs <;> omega

/-- Rank `k` above 0 takes the buffer of rank `k-1` and returns (lines
401-405). -/
theorem pack_step_last {size : Int} {parts : Int → linearpart α} (args : Int → PackState)
    (hr : Ranked size parts) {k : Int} (h0 : 0 < k) (h1 : k < size)
    (hcap : (((args (k - 1)).msgBelow.length : Nat) : Int) ≤ (args k).bufferBelow.length) :
    exec [k] (packMid size parts args k) = some (packDown size parts args (k + 1)) := by
  have hrank := hr.rank_eq k (by omega) h1
  have hproc : (packMid size parts args k).procs k
      = ⟨packAbove size args k, [Act.recv (k - 1) 3 (fun m s => s.recvBelow m)]⟩ := by
    simp only [packMid, if_true]
    rw [packLast_of_pos (by omega), hrank]
  have hchan : (packMid size parts args k).chan (k - 1) k 3 = [(args (k - 1)).msgBelow] := by
    simp only [packMid, true_and, and_true, true_or, or_true, sub_add_cancel]
    split_ifs <;> first | rfl | (exfalso; omega)
  have hrecv : (packAbove size args k).recvBelow (args (k - 1)).msgBelow
      = some (packFinal size args k) := by
    have hc : (args (k - 1)).msgBelow.length ≤ (packAbove size args k).bufferBelow.length := by
      rw [(packAbove_below size args k).2]
      exact_mod_cast hcap
    simp only [PackState.recvBelow, if_pos hc, packFinal, gt_iff_lt, if_pos h0]
  have hstep1 := step_of_recv hproc hchan hrecv
  simp only [exec, hstep1, Option.some_bind]
  congr 1
  apply World.ext_iff3
  · intro r
    simp only [packMid, packDown, put_procs, pop_procs]
    by_cases hrk : r = k
    · subst hrk
      simp only [if_true]
      split_ifs <;> first | rfl | (exfalso; omega)
    · simp only [if_neg hrk]
      split_ifs <;> first | rfl | (exfalso; omega)
  · intro s d t
    simp only [packMid, packDown, put_chan, pop_chan]
    by_cases hsk : s = k
    · subst hsk
      split_ifs <;> first | rfl | (exfalso; omega)
    · split_ifs <;> first | rfl | (exfalso; omega)
  · simp only [packMid, packDown, put_sent, pop_sent]
    split_ifs <;> omega

theorem packMid_last {size : Int} {parts : Int → linearpart α} (args : Int → PackState)
    (hr : Ranked size parts) (hs : 2 ≤ size) :
    packDown size parts args (size - 1) = packMid size parts args (size - 1) := by
  have hrank := hr.rank_eq (size - 1) (by omega) (by omega)
  have hsize := hr.size_eq (size - 1) (by omega) (by omega)
  apply World.ext_iff3
  · intro r
    simp only [packMid, packDown]
    by_cases hrk : r = size - 1
    · subst hrk
      have hp : ¬ (parts (size - 1)).rank < (parts (size - 1)).size - 1 := by omega
      have hq : ¬ (size - 1 < size - 1) := by omega
      rw [packTail_of_last hp]
      simp only [packAbove, if_neg hq, if_true]
      split_ifs <;> first | rfl | (exfalso; omega)
    · simp only [if_neg hrk]
  · intro s d t
    simp only [packMid, packDown]
    split_ifs <;> first | rfl | (exfalso; omega)
  · simp only [packMid, packDown]
    split_ifs <;> omega

theorem packMid_zero {size : Int} {parts : Int → linearpart α} (args : Int → PackState)
    (hr : Ranked size parts) (hs : 2 ≤ size) :
    packMid size parts args 0 = packDown size parts args (0 + 1) := by
  have hrank := hr.rank_eq 0 (by omega) (by omega)
  apply World.ext_iff3
  · intro r
    simp only [packMid, packDown]
    by_cases hrk : r = 0
    · subst hrk
      have hq : ¬ ((0 : Int) > 0) := by omega
      rw [packLast_of_zero hrank]
      simp only [packFinal, if_neg hq, if_true]
      split_ifs <;> first | rfl | (exfalso; omega)
    · simp only [if_neg hrk]
      split_ifs <;> first | rfl | (exfalso; omega)
  · intro s d t
    simp only [packMid, packDown]
    split_ifs <;> first | rfl | (exfalso; omega)
  · simp only [packMid, packDown]
    split_ifs <;> omega

/-- Rank `k` makes its calls from line 393 on, once the ranks below it have
returned and the rank above it has sent. -/
theorem pack_step_down {size : Int} {parts : Int → linearpart α} (args : Int → PackState)
    (hr : Ranked size parts) (hs : 2 ≤ size)
    (hv : ∀ r, 0 ≤ r → r < size → (args r).Valid)
    (hcapA : ∀ r, 0 ≤ r → r < size - 1 →
      (args (r + 1)).countA ≤ (args r).bufferAbove.length)
    (hcapB : ∀ r, 0 < r → r < size →
      (args (r - 1)).countB ≤ (args r).bufferBelow.length)
    {k : Int} (h0 : 0 ≤ k) (h1 : k < size) :
    ∃ sched, exec sched (packDown size parts args k) = some (packDown size parts args (k + 1))
      ∧ ∀ x ∈ sched, x = k := by
  have hA : ∃ s1, exec s1 (packDown size parts args k) = some (packMid size parts args k)
      ∧ ∀ x ∈ s1, x = k := by
    by_cases hlt : k < size - 1
    · have hcap := hcapA k h0 hlt
      rw [← length_msgAbove (hv (k + 1) (by omega) (by omega))] at hcap
      exact ⟨[k, k], pack_step_first args hr h0 hlt hcap, by simp⟩
    · have hk : k = size - 1 := by omega
      subst hk
      refine ⟨[], ?_, by simp⟩
      simp only [exec, packMid_last args hr hs]
  have hB : ∃ s2, exec s2 (packMid size parts args k) = some (packDown size parts args (k + 1))
      ∧ ∀ x ∈ s2, x = k := by
    by_cases hgt : 0 < k
    · have hcap := hcapB k hgt h1
      rw [← length_msgBelow (hv (k - 1) (by omega) (by omega))] at hcap
      exact ⟨[k], pack_step_last args hr hgt h1 hcap, by simp⟩
    · have hk : k = 0 := by omega
      subst hk
      refine ⟨[], ?_, by simp⟩
      simp only [exec, packMid_zero args hr hs]
  obtain ⟨s1, h1e, h1m⟩ := hA
  obtain ⟨s2, h2e, h2m⟩ := hB
  refine ⟨s1 ++ s2, exec_trans h1e h2e, ?_⟩
  intro x hx
  rcases List.mem_append.mp hx with hx | hx
  · exact h1m x hx
  · exact h2m x hx

theorem pack_exec_down {size : Int} {parts : Int → linearpart α} (args : Int → PackState)
    (hr : Ranked size parts) (hs : 2 ≤ size)
    (hv : ∀ r, 0 ≤ r → r < size → (args r).Valid)
    (hcapA : ∀ r, 0 ≤ r → r < size - 1 →
      (args (r + 1)).countA ≤ (args r).bufferAbove.length)
    (hcapB : ∀ r, 0 < r → r < size →
      (args (r - 1)).countB ≤ (args r).bufferBelow.length)
    (j : Nat) (hj : (j : Int) ≤ size) :
    ∃ sched, exec sched (packDown size parts args 0) = some (packDown size parts args j)
      ∧ ∀ x ∈ sched, 0 ≤ x ∧ x < size := by
  induction j with
  | zero => exact ⟨[], by simp [exec], by simp⟩
  | succ j ih =>
    obtain ⟨s1, h1e, h1m⟩ := ih (by push_cast at hj; omega)
    have hj0 : (0 : Int) ≤ j := Int.ofNat_nonneg j
    have hj1 : (j : Int) < size := by push_cast at hj; omega
    obtain ⟨s2, h2e, h2m⟩ := pack_step_down args hr hs hv hcapA hcapB hj0 hj1
    have he : (j : Int) + 1 = ((j + 1 : Nat) : Int) := by push_cast; ring
    rw [he] at h2e
    refine ⟨s1 ++ s2, exec_trans h1e h2e, ?_⟩
    intro x hx
    rcases List.mem_append.mp hx with hx | hx
    · exact h1m x hx
    · have := h2m x hx
      omega

/-- A complete schedule of `transferPack` on two ranks or more. -/
theorem pack_exec {size : Int} {parts : Int → linearpart α} (args : Int → PackState)
    (hr : Ranked size parts) (hs : 2 ≤ size)
    (hv : ∀ r, 0 ≤ r → r < size → (args r).Valid)
    (hcapA : ∀ r, 0 ≤ r → r < size - 1 →
      (args (r + 1)).countA ≤ (args r).bufferAbove.length)
    (hcapB : ∀ r, 0 < r → r < size →
      (args (r - 1)).countB ≤ (args r).bufferBelow.length) :
    ∃ sched, exec sched (transferPack size parts args) = some (packDown size parts args size)
      ∧ ∀ x ∈ sched, 0 ≤ x ∧ x < size := by
  obtain ⟨s1, h1e, h1m⟩ := pack_exec_up args hr hs size.toNat (by omega)
  obtain ⟨s2, h2e, h2m⟩ := pack_exec_down args hr hs hv hcapA hcapB size.toNat (by omega)
  have e1 : ((size.toNat : Nat) : Int) = size := by omega
  rw [e1] at h1e h2e
  have hstart : transferPack size parts args = packUp size parts args 0 := by
    apply World.ext_iff3
    · intro r
      simp only [packUp]
      split_ifs <;> first | rfl | (exfalso; omega)
    · intro s d t
      simp only [packUp, transferPack, start]
      split_ifs <;> first | rfl | (exfalso; omega)
    · simp only [packUp, transferPack, start]
      split_ifs <;> omega
  have hmid : packUp size parts args size = packDown size parts args 0 := by
    apply World.ext_iff3
    · intro r
      simp only [packUp, packDown]
      split_ifs <;> first | rfl | (exfalso; omega)
    · intro s d t
      simp only [packUp, packDown]
      split_ifs <;> first | rfl | (exfalso; omega)
    · simp only [packUp, packDown]
      split_ifs <;> omega
  rw [← hstart, hmid] at h1e
  refine ⟨s1 ++ s2, exec_trans h1e h2e, ?_⟩
  intro x hx
  rcases List.mem_append.mp hx with hx | hx
  · exact h1m x hx
  · exact h2m x hx

theorem packDown_done (size : Int) (parts : Int → linearpart α) (args : Int → PackState) :
    (packDown size parts args size).Done := by
  intro r
  simp only [packDown, transferPack_procs]
  split_ifs <;> first | rfl | (exfalso; omega)

theorem packDown_st (size : Int) (parts : Int → linearpart α) (args : Int → PackState)
    {r : Int} (h0 : 0 ≤ r) (h1 : r < size) :
    ((packDown size parts args size).procs r).st = packFinal size args r := by
  simp only [packDown]
  rw [if_pos ⟨h0, h1, h1⟩]

theorem packFinal_above (size : Int) (args : Int → PackState) (r : Int) :
    (packFinal size args r).countA = (packAbove size args r).countA
      ∧ (packFinal size args r).bufferAbove = (packAbove size args r).bufferAbove := by
  simp only [packFinal]
  split_ifs <;> exact ⟨rfl, rfl⟩

/-- What a rank below the last returns with in `countA` and `bufferAbove`. -/
theorem packFinal_of_lt {size : Int} (args : Int → PackState) {r : Int}
    (h1 : r < size - 1) (hv : (args (r + 1)).Valid) :
    (packFinal size args r).countA = (args (r + 1)).countA
      ∧ readRow (packFinal size args r).bufferAbove 0 (packFinal size args r).countA
          = readRow (args (r + 1)).bufferAbove 0 (args (r + 1)).countA := by
  have hl := length_msgAbove hv
  have hc : (packAbove size args r).countA = (args (r + 1)).countA := by
    simp only [packAbove, if_pos h1, PackState.storeAbove, hl]
  have hb : (packAbove size args r).bufferAbove
      = writeRow (args r).bufferAbove 0 (args (r + 1)).msgAbove := by
    simp only [packAbove, if_pos h1, PackState.storeAbove]
  rw [(packFinal_above size args r).1, (packFinal_above size args r).2, hc, hb]
  refine ⟨rfl, ?_⟩
  rw [readRow_writeRow_zero _ _ _ (by omega)]
  rfl

/-- What a rank above 0 returns with in `countB` and `bufferBelow`. -/
theorem packFinal_of_pos {size : Int} (args : Int → PackState) {r : Int}
    (h0 : 0 < r) (hv : (args (r - 1)).Valid) :
    (packFinal size args r).countB = (args (r - 1)).countB
      ∧ readRow (packFinal size args r).bufferBelow 0 (packFinal size args r).countB
          = readRow (args (r - 1)).bufferBelow 0 (args (r - 1)).countB := by
  have hl := length_msgBelow hv
  have hc : (packFinal size args r).countB = (args (r - 1)).countB := by
    simp only [packFinal, gt_iff_lt, if_pos h0, PackState.storeBelow, hl]
  have hb : (packFinal size args r).bufferBelow
      = writeRow (packAbove size args r).bufferBelow 0 (args (r - 1)).msgBelow := by
    simp only [packFinal, gt_iff_lt, if_pos h0, PackState.storeBelow]
  rw [hc, hb]
  refine ⟨rfl, ?_⟩
  rw [readRow_writeRow_zero _ _ _ (by omega)]
  rfl

theorem packFinal_last {size : Int} (args : Int → PackState) :
    (packFinal size args (size - 1)).countA = (args (size - 1)).countA
      ∧ (packFinal size args (size - 1)).bufferAbove = (args (size - 1)).bufferAbove := by
  have hq : ¬ (size - 1 < size - 1) := by omega
  rw [(packFinal_above size args (size - 1)).1, (packFinal_above size args (size - 1)).2]
  simp only [packAbove, if_neg hq, and_self]

theorem packFinal_zero {size : Int} (args : Int → PackState) :
    (packFinal size args 0).countB = (args 0).countB
      ∧ (packFinal size args 0).bufferBelow = (args 0).bufferBelow := by
  have hq : ¬ ((0 : Int) > 0) := by omega
  simp only [packFinal, if_neg hq]
  exact packAbove_below size args 0

/-- C18. Let the ranks `0 .. size-1`, `size >= 1`, call `transferPack` with
counts that are non-negative and within their arrays, and with arrays long
enough for the buffer of the neighbour.  Then the collective call completes
(under the scheduler, and with the same result under every interleaving of the
calls), and afterwards: on every rank `r < size-1`, `countA` and the first
`countA` elements of `bufferAbove` are the `countA` and the first `countA`
elements of `bufferAbove` that rank `r+1` had before the call; on every rank
`r > 0`, `countB` and the first `countB` elements of `bufferBelow` are those
that rank `r-1` had before the call; `countA` and `bufferAbove` of the last
rank and `countB` and `bufferBelow` of rank 0 are as before; and on a single
rank no message is sent and the arguments are as before. -/
theorem transferPack_exchanges (size : Int) (parts : Int → linearpart α)
    (args : Int → PackState) (hs : 1 ≤ size) (hr : Ranked size parts)
    (hv : ∀ r, 0 ≤ r → r < size → (args r).Valid)
    (hcapA : ∀ r, 0 ≤ r → r < size - 1 →
      (args (r + 1)).countA ≤ (args r).bufferAbove.length)
    (hcapB : ∀ r, 0 < r → r < size →
      (args (r - 1)).countB ≤ (args r).bufferBelow.length) :
    ∃ t, Mpi.Outcome size (transferPack size parts args) t
      ∧ (∀ r, 0 ≤ r → r < size - 1 →
          (t.procs r).st.countA = (args (r + 1)).countA
          ∧ readRow (t.procs r).st.bufferAbove 0 (t.procs r).st.countA
              = readRow (args (r + 1)).bufferAbove 0 (args (r + 1)).countA)
      ∧ (∀ r, 0 < r → r < size →
          (t.procs r).st.countB = (args (r - 1)).countB
          ∧ readRow (t.procs r).st.bufferBelow 0 (t.procs r).st.countB
              = readRow (args (r - 1)).bufferBelow 0 (args (r - 1)).countB)
      ∧ ((t.procs (size - 1)).st.countA = (args (size - 1)).countA
          ∧ (t.procs (size - 1)).st.bufferAbove = (args (size - 1)).bufferAbove)
      ∧ ((t.procs 0).st.countB = (args 0).countB
          ∧ (t.procs 0).st.bufferBelow = (args 0).bufferBelow)
      ∧ (size = 1 → t.sent = 0 ∧ (t.procs 0).st = args 0) := by
  by_cases h1 : size = 1
  · refine ⟨transferPack size parts args, Mpi.outcome_of_done (Mpi.start_done ?_),
      ?_, ?_, ⟨rfl, rfl⟩, ⟨rfl, rfl⟩, fun _ => ⟨rfl, rfl⟩⟩
    · intro r a b
      exact transferPackProg_single (by rw [hr.size_eq r a b, h1])
    · intro r a b
      exfalso; omega
    · intro r a b
      exfalso; omega
  · have hs2 : 2 ≤ size := by omega
    obtain ⟨sched, hex, hmem⟩ := pack_exec args hr hs2 hv hcapA hcapB
    refine ⟨packDown size parts args size,
      outcome_of_exec hex (packDown_done size parts args) hmem, ?_, ?_, ?_, ?_, ?_⟩
    · intro r a b
      rw [packDown_st size parts args a (by omega)]
      exact packFinal_of_lt args b (hv (r + 1) (by omega) (by omega))
    · intro r a b
      rw [packDown_st size parts args (le_of_lt a) b]
      exact packFinal_of_pos args a (hv (r - 1) (by omega) (by omega))
    · rw [packDown_st size parts args (show 0 ≤ size - 1 by omega) (by omega)]
      exact packFinal_last args
    · rw [packDown_st size parts args (le_refl 0) (by omega)]
      exact packFinal_zero args
    · intro h
      exact absurd h h1

/-- C18, on the three ranks of `exampleParts 3` with the arguments
`examplePack`. -/
theorem transferPack_exchanges_witness :
    ∃ t, Mpi.Outcome 3 (transferPack 3 (exampleParts 3) examplePack) t
      ∧ (∀ r, 0 ≤ r → r < 3 - 1 →
          (t.procs r).st.countA = (examplePack (r + 1)).countA
          ∧ readRow (t.procs r).st.bufferAbove 0 (t.procs r).st.countA
              = readRow (examplePack (r + 1)).bufferAbove 0 (examplePack (r + 1)).countA)
      ∧ (∀ r, 0 < r → r < 3 →
          (t.procs r).st.countB = (examplePack (r - 1)).countB
          ∧ readRow (t.procs r).st.bufferBelow 0 (t.procs r).st.countB
              = readRow (examplePack (r - 1)).bufferBelow 0 (examplePack (r - 1)).countB)
      ∧ ((t.procs (3 - 1)).st.countA = (examplePack (3 - 1)).countA
          ∧ (t.procs (3 - 1)).st.bufferAbove = (examplePack (3 - 1)).bufferAbove)
      ∧ ((t.procs 0).st.countB = (examplePack 0).countB
          ∧ (t.procs 0).st.bufferBelow = (examplePack 0).bufferBelow)
      ∧ ((3 : Int) = 1 → t.sent = 0 ∧ (t.procs 0).st = examplePack 0) :=
  transferPack_exchanges 3 (exampleParts 3) examplePack (by decide) (exampleParts_ranked 3)
    (fun _ _ _ => by simp [examplePack, PackState.Valid])
    (fun _ _ _ => by simp [examplePack])
    (fun _ _ _ => by simp [examplePack])

end linearpart

/-! ## `addBorders`: the exchange, then the loop -/

namespace Mpi

variable {S M : Type}

theorem localStep_extend {p q : Proc S M} {e : Effect M} {head : Int → Int → Option M}
    (l : List (Act S M)) (h : localStep p head = some (q, e)) :
    localStep ⟨p.st, p.prog ++ l⟩ head = some (⟨q.st, q.prog ++ l⟩, e) := by
  unfold localStep at h ⊢
  cases hprog : p.prog with
  | nil => rw [hprog] at h; simp at h
  | cons a rest =>
    rw [hprog] at h
    cases a with
    | send d t payload =>
      simp only [Option.some.injEq, Prod.mk.injEq] at h
      obtain ⟨h1, h2⟩ := h
      subst h1
      simp only [List.cons_append, h2]
    | recv s t store =>
      simp only [List.cons_append]
      simp only at h
      cases hh : head s t with
      | none => rw [hh] at h; simp at h
      | some m =>
        rw [hh] at h
        simp only at h ⊢
        cases hs : store m p.st with
        | none => rw [hs] at h; simp at h
        | some st1 =>
          rw [hs] at h
          simp only [Option.map_some', Option.some.injEq, Prod.mk.injEq] at h ⊢
          obtain ⟨h1, h2⟩ := h
          subst h1
          exact ⟨rfl, h2⟩
    | compute f =>
      simp only [List.cons_append]
      simp only at h
      cases hs : f p.st with
      | none => rw [hs] at h; simp at h
      | some st1 =>
        rw [hs] at h
        simp only [Option.map_some', Option.some.injEq, Prod.mk.injEq] at h ⊢
        obtain ⟨h1, h2⟩ := h
        subst h1
        exact ⟨rfl, h2⟩

theorem applyEffect_extend (w : World S M) (suf : Int → List (Act S M)) (r : Int)
    (q : Proc S M) (e : Effect M) :
    applyEffect (w.extend suf) r ⟨q.st, q.prog ++ suf r⟩ e
      = (applyEffect w r q e).extend suf := by
  cases e with
  | pushed d t m =>
    apply World.ext_iff3
    · intro k
      simp only [applyEffect, World.extend, push_procs, put_procs]
      split_ifs with hk
      · subst hk; rfl
      · rfl
    · intro s d1 t1
      rfl
    · rfl
  | popped s t =>
    apply World.ext_iff3
    · intro k
      simp only [applyEffect, World.extend, pop_procs, put_procs]
      split_ifs with hk
      · subst hk; rfl
      · rfl
    · intro s1 d1 t1
      rfl
    · rfl
  | silent =>
    apply World.ext_iff3
    · intro k
      simp only [applyEffect, World.extend, put_procs]
      split_ifs with hk
      · subst hk; rfl
      · rfl
    · intro s1 d1 t1
      rfl
    · rfl

/-- A call that a rank can make it can make as well when more calls follow. -/
theorem step_extend {w w1 : World S M} {r : Int} (suf : Int → List (Act S M))
    (h : step w r = some w1) : step (w.extend suf) r = some (w1.extend suf) := by
  unfold step at h ⊢
  cases hl : localStep (w.procs r) (fun s t => (w.chan s r t).head?) with
  | none => rw [hl] at h; simp at h
  | some pe =>
    obtain ⟨q, e⟩ := pe
    rw [hl] at h
    simp only [Option.map_some', Option.some.injEq] at h
    have h2 := localStep_extend (suf r) hl
    have hp : (w.extend suf).procs r = ⟨(w.procs r).st, (w.procs r).prog ++ suf r⟩ := rfl
    have hc : (fun s t => ((w.extend suf).chan s r t).head?)
        = (fun s t => (w.chan s r t).head?) := rfl
    rw [hp, hc, h2]
    simp only [Option.map_some', Option.some.injEq]
    rw [applyEffect_extend, h]

theorem exec_extend {l : List Int} {w w1 : World S M} (suf : Int → List (Act S M))
    (h : exec l w = some w1) : exec l (w.extend suf) = some (w1.extend suf) := by
  induction l generalizing w with
  | nil =>
    simp only [exec, Option.some.injEq] at h ⊢
    rw [h]
  | cons r rs ih =>
    rw [exec_cons] at h ⊢
    cases hs : step w r with
    | none => rw [hs] at h; simp at h
    | some w2 =>
      rw [hs] at h
      simp only [Option.some_bind] at h
      rw [step_extend suf hs]
      simp only [Option.some_bind]
      exact ih h

theorem start_extend (size : Int) (st : Int → S) (prog suf : Int → List (Act S M)) :
    (start size st prog).extend (fun r => if 0 ≤ r ∧ r < size then suf r else [])
      = start size st (fun r => prog r ++ suf r) := by
  apply World.ext_iff3
  · intro k
    simp only [World.extend, start]
    split_ifs <;> simp
  · intro s d t
    rfl
  · rfl

/-- A world in which every rank has returned and no message is in flight, with
one local computation more on every rank. -/
theorem done_extend {size : Int} {w : World S M} (f : S → Option S) (hd : w.Done)
    (hc : ∀ s d t, w.chan s d t = []) :
    w.extend (fun r => if 0 ≤ r ∧ r < size then [Act.compute f] else [])
      = computeUpto size (fun r => (w.procs r).st) f w.sent 0 := by
  apply World.ext_iff3
  · intro k
    have hk : (w.procs k).prog = [] := hd k
    simp only [World.extend, computeUpto, hk, List.nil_append]
    split_ifs <;> first | rfl | (exfalso; omega)
  · intro s d t
    simp only [World.extend, computeUpto, hc]
  · rfl

theorem compute_exec (size : Int) (st : Int → S) (f : S → Option S) (n : Nat)
    (hf : ∀ r, 0 ≤ r → r < size → ∃ b, f (st r) = some b) (k : Nat) (hk : (k : Int) ≤ size) :
    ∃ sched, exec sched (computeUpto size st f n 0 : World S M)
        = some (computeUpto size st f n k)
      ∧ ∀ x ∈ sched, 0 ≤ x ∧ x < size := by
  induction k with
  | zero => exact ⟨[], by simp [exec], by simp⟩
  | succ k ih =>
    obtain ⟨sched, hex, hmem⟩ := ih (by push_cast at hk; omega)
    have hk0 : (0 : Int) ≤ k := Int.ofNat_nonneg k
    have hk1 : (k : Int) < size := by push_cast at hk; omega
    obtain ⟨b, hb⟩ := hf k hk0 hk1
    have hproc : (computeUpto size st f n k : World S M).procs k
        = ⟨st k, [Act.compute f]⟩ := by
      simp only [computeUpto]
      split_ifs <;> first | rfl | (exfalso; omega)
    refine ⟨sched ++ [(k : Int)], exec_snoc hex ((step_of_compute hproc hb).trans ?_), ?_⟩
    · congr 1
      apply World.ext_iff3
      · intro r
        simp only [computeUpto, put_procs, Nat.cast_succ]
        by_cases hr : r = k
        · subst hr
          simp only [if_true, hb, Option.getD_some]
          split_ifs <;> first | rfl | (exfalso; omega)
        · simp only [if_neg hr]
          split_ifs <;> first | rfl | (exfalso; omega)
      · intro s d t
        rfl
      · rfl
    · intro x hx
      rcases List.mem_append.mp hx with hx | hx
      · exact hmem x hx
      · simp only [List.mem_singleton] at hx
        omega

theorem computeUpto_done (size : Int) (st : Int → S) (f : S → Option S) (n : Nat) :
    (computeUpto size st f n size : World S M).Done := by
  intro r
  simp only [computeUpto]
  split_ifs <;> first | rfl | (exfalso; omega)

/-- A collective call that completes in `u`, followed on every rank by the
local computation `f`, completes, each rank holding the result of `f` on the
state in which it left the call. -/
theorem outcome_then_compute {size : Int} {l : List Int} {w u : World S M}
    (f : S → Option S) (hs : 0 ≤ size) (hex : exec l w = some u) (hd : u.Done)
    (hc : ∀ s d t, u.chan s d t = []) (hmem : ∀ x ∈ l, 0 ≤ x ∧ x < size)
    (hf : ∀ r, 0 ≤ r → r < size → ∃ b, f (u.procs r).st = some b) :
    ∃ t, Outcome size
          (w.extend (fun r => if 0 ≤ r ∧ r < size then [Act.compute f] else [])) t
      ∧ t.sent = u.sent
      ∧ ∀ r, 0 ≤ r → r < size → f (u.procs r).st = some (t.procs r).st := by
  have h1 := exec_extend (fun r => if 0 ≤ r ∧ r < size then [Act.compute f] else []) hex
  rw [done_extend f hd hc] at h1
  obtain ⟨s2, h2e, h2m⟩ := compute_exec (M := M) size (fun r => (u.procs r).st) f u.sent hf
    size.toNat (by omega)
  have e : ((size.toNat : Nat) : Int) = size := by omega
  rw [e] at h2e
  refine ⟨computeUpto size (fun r => (u.procs r).st) f u.sent size,
    outcome_of_exec (exec_trans h1 h2e) (computeUpto_done _ _ _ _) ?_, rfl, ?_⟩
  · intro x hx
    rcases List.mem_append.mp hx with hx | hx
    · exact hmem x hx
    · exact h2m x hx
  · intro r h0 h1
    obtain ⟨b, hb⟩ := hf r h0 h1
    simp only [computeUpto]
    rw [if_pos ⟨h0, h1, h1⟩, hb]
    rfl

end Mpi

namespace linearpart

open Mpi

variable {α : Type}

theorem exampleRows_collective (size : Int) :
    linearpart.Collective size 2 (exampleRows size) :=
  ⟨fun _ _ _ => rfl, fun _ _ _ => rfl, fun _ _ _ => rfl,
    fun _ _ _ => ⟨by simp [exampleRows], by simp [exampleRows], by simp [exampleRows]⟩⟩

/-- The calls of `addBorders()` are those of `passBorders()` and then the
loop, on every rank. -/
theorem addBorders_eq_extend [DecidableEq α] [Add α] (size : Int)
    (parts : Int → linearpart α) (junk : Int → List α) :
    addBorders size parts junk
      = (passBorders size parts junk).extend
          (fun r => if 0 ≤ r ∧ r < size then [Act.compute (fun s => s.addLoop)] else []) := by
  have h := start_extend size (fun r => (⟨parts r, junk r⟩ : PassState α))
    (fun r => (parts r).passBordersProg) (fun _ => [Act.compute (fun s => s.addLoop)])
  rw [passBorders, h]
  rfl

theorem addLoop_eq_some [DecidableEq α] [Add α] {s t : PassState α}
    (h : s.addLoop = some t) : s.part.addBordersLoop = .ok t.part := by
  unfold PassState.addLoop at h
  cases hq : s.part.addBordersLoop with
  | error e => rw [hq] at h; simp at h
  | ok q =>
    rw [hq] at h
    simp only [Option.some.injEq] at h
    rw [← h]

/-- A cell of the owned band, read in `gridData`. -/
theorem readCell_gridData (p : linearpart α) (hnx : 0 ≤ p.nx) {k : Int} (h0 : 0 ≤ k)
    (h1 : k < p.nx * p.ny) :
    readCell p.rawData (p.gridOff + k) = readCell p.gridData k := by
  have hk : k.toNat < (p.nx * p.ny).toNat := by omega
  have hoff : (p.nx + k).toNat = p.nx.toNat + k.toNat := by omega
  have hpos : 0 ≤ p.nx + k := by omega
  simp only [readCell, if_pos h0, gridData, readRow, gridOff]
  rw [if_pos hpos, hoff, List.getElem?_take_of_lt hk, List.getElem?_drop]

theorem band_offset_bounds {nx ny x y : Int} (hx : 0 ≤ x ∧ x < nx) (hy : 0 ≤ y ∧ y < ny) :
    0 ≤ x + y * nx ∧ x + y * nx < nx * ny := by
  have h1 : 0 ≤ y * nx := mul_nonneg hy.1 (by omega)
  have h2 : 0 ≤ (ny - 1 - y) * nx := mul_nonneg (by omega) (by omega)
  have e2 : (ny - 1 - y) * nx = nx * ny - nx - y * nx := by ring
  omega

/-- Two partitions of one shape with the same owned band answer `getData`
alike on the owned rows. -/
theorem getData_band_of_gridData {p q : linearpart α} (enx : q.nx = p.nx) (eny : q.ny = p.ny)
    (hnx : 0 ≤ p.nx) (h : q.gridData = p.gridData) {x y : Int}
    (hx : 0 ≤ x ∧ x < p.nx) (hy : 0 ≤ y ∧ y < p.ny) :
    q.getData x y = p.getData x y := by
  obtain ⟨b0, b1⟩ := band_offset_bounds hx hy
  have hc1 : x ≥ 0 ∧ x < p.nx ∧ y ≥ -1 ∧ y ≤ p.ny := by omega
  have hc2 : x ≥ 0 ∧ x < q.nx ∧ y ≥ -1 ∧ y ≤ q.ny := by rw [enx, eny]; exact hc1
  rw [getData, getData, if_pos hc1, if_pos hc2]
  rw [readCell_gridData q (by rw [enx]; exact hnx) (by rw [enx]; exact b0)
    (by rw [enx, eny]; exact b1)]
  rw [readCell_gridData p hnx b0 b1, h, enx]

theorem passBottom_noData (size : Int) (parts : Int → linearpart α) (r : Int) :
    (passBottom size parts r).noData = (parts r).noData := by
  by_cases hlt : r < size - 1
  · rw [passBottom_of_lt hlt]
  · rw [passBottom_of_last hlt]

/-- The partition with which a rank returns from `passBorders()` has the shape
and the owned band with which it entered. -/
theorem passFinal_shape {size nx : Int} {parts : Int → linearpart α} (junk : Int → List α)
    (hc : Collective size nx parts) {r : Int} (h0 : 0 ≤ r) (h1 : r < size) :
    (passFinal size parts junk r).part.WF
      ∧ (passFinal size parts junk r).part.nx = (parts r).nx
      ∧ (passFinal size parts junk r).part.ny = (parts r).ny
      ∧ (passFinal size parts junk r).part.noData = (parts r).noData
      ∧ ∀ x y, 0 ≤ x ∧ x < (parts r).nx → 0 ≤ y ∧ y < (parts r).ny →
          (passFinal size parts junk r).part.getData x y = (parts r).getData x y := by
  have hw := hc.wf r h0 h1
  have hx := hc.nx_eq r h0 h1
  have hn := hw.nx_nonneg
  have hpb := passBottom_nx hc h0 h1
  have hlen := length_passBottom hc h0 h1
  have hrow := length_passTemp_row nx parts junk r
  have h2 : 0 ≤ nx * (parts r).ny := mul_nonneg (by omega) hw.ny_nonneg
  have e1 : (passFinal size parts junk r).part.nx = (parts r).nx := by
    simp only [passFinal, PassState.moveTemp, hpb.1, hx]
  have e2 : (passFinal size parts junk r).part.ny = (parts r).ny := by
    simp only [passFinal, PassState.moveTemp, hpb.2]
  have e3 : (passFinal size parts junk r).part.noData = (parts r).noData := by
    simp only [passFinal, PassState.moveTemp, passBottom_noData]
  have e4 : (passFinal size parts junk r).part.rawData.length
      = (nx * (parts r).ny + 2 * nx).toNat := by
    simp only [passFinal, PassState.moveTemp, topOff, hpb.1]
    rw [length_writeRow _ _ _ (by simp only [Int.toNat_zero, hlen]; omega), hlen]
  refine ⟨⟨by rw [e1]; exact hn, by rw [e2]; exact hw.ny_nonneg, by rw [e4, e1, e2, hx]⟩,
    e1, e2, e3, ?_⟩
  intro x y hx1 hy1
  exact getData_band_of_gridData e1 e2 hn (gridData_passFinal junk hc h0 h1) hx1 hy1

/-- The collective `passBorders()` completes on one rank or more, and every
rank leaves it with a partition of the shape and the owned band with which it
entered. -/
theorem pass_outcome {size nx : Int} {parts : Int → linearpart α} (junk : Int → List α)
    (hs : 1 ≤ size) (hc : Collective size nx parts) :
    ∃ l u, exec l (passBorders size parts junk) = some u ∧ u.Done
      ∧ (∀ s d t, u.chan s d t = []) ∧ (∀ x ∈ l, 0 ≤ x ∧ x < size)
      ∧ ∀ r, 0 ≤ r → r < size →
          (u.procs r).st.part.WF
          ∧ (u.procs r).st.part.nx = (parts r).nx
          ∧ (u.procs r).st.part.ny = (parts r).ny
          ∧ (u.procs r).st.part.noData = (parts r).noData
          ∧ ∀ x y, 0 ≤ x ∧ x < (parts r).nx → 0 ≤ y ∧ y < (parts r).ny →
              (u.procs r).st.part.getData x y = (parts r).getData x y := by
  by_cases h1 : size = 1
  · refine ⟨[], passBorders size parts junk, rfl, start_done ?_, fun _ _ _ => rfl,
      by simp, ?_⟩
    · intro r a b
      exact passBordersProg_single (by rw [hc.size_eq r a b]; omega)
    · intro r a b
      exact ⟨hc.wf r a b, rfl, rfl, rfl, fun _ _ _ _ => rfl⟩
  · have hs2 : 2 ≤ size := by omega
    obtain ⟨l, hex, hmem⟩ := pass_exec junk hc hs2
    refine ⟨l, passDown size parts junk size, hex, passDown_done size parts junk, ?_, hmem, ?_⟩
    · intro s d t
      simp only [passDown]
      split_ifs <;> first | rfl | (exfalso; omega)
    · intro r a b
      rw [passDown_st size parts junk a b]
      exact passFinal_shape junk hc a b

/-- The collective `addBorders()` completes on one rank or more whose
partitions have one row or more: every rank makes the calls of `passBorders()`
and then runs the loop, without a failed assertion, on the partition with
which it left the exchange. -/
theorem addBorders_outcome [DecidableEq α] [Add α] {size nx : Int}
    {parts : Int → linearpart α} (junk : Int → List α) (hs : 1 ≤ size)
    (hc : Collective size nx parts) (hny : ∀ r, 0 ≤ r → r < size → 1 ≤ (parts r).ny) :
    ∃ u t, Outcome size (passBorders size parts junk) u
      ∧ Outcome size (addBorders size parts junk) t
      ∧ ∀ r, 0 ≤ r → r < size →
          (u.procs r).st.part.WF
          ∧ (u.procs r).st.part.nx = (parts r).nx
          ∧ (u.procs r).st.part.ny = (parts r).ny
          ∧ (u.procs r).st.part.noData = (parts r).noData
          ∧ (∀ x y, 0 ≤ x ∧ x < (parts r).nx → 0 ≤ y ∧ y < (parts r).ny →
              (u.procs r).st.part.getData x y = (parts r).getData x y)
          ∧ (u.procs r).st.part.addBordersLoop = .ok (t.procs r).st.part := by
  obtain ⟨l, u, hex, hd, hch, hmem, hall⟩ := pass_outcome junk hs hc
  have hf : ∀ r, 0 ≤ r → r < size →
      ∃ b, (fun s : PassState α => s.addLoop) (u.procs r).st = some b := by
    intro r a b
    obtain ⟨hwf, _, eny, _, _⟩ := hall r a b
    obtain ⟨q, hq, _, _⟩ := addBordersLoop_spec hwf (by rw [eny]; exact hny r a b)
    exact ⟨{ (u.procs r).st with part := q }, by simp only [PassState.addLoop, hq]⟩
  obtain ⟨t, ht, _, hst⟩ := outcome_then_compute (fun s : PassState α => s.addLoop)
    (by omega) hex hd hch hmem hf
  rw [← addBorders_eq_extend] at ht
  refine ⟨u, t, outcome_of_exec hex hd hmem, ht, ?_⟩
  intro r a b
  obtain ⟨hwf, enx, eny, end1, hband⟩ := hall r a b
  exact ⟨hwf, enx, eny, end1, hband, addLoop_eq_some (hst r a b)⟩

/-- C7. On one rank or more, with partitions of one width and one row or more
each, the collective `addBorders()` completes (under the scheduler, and with
the same result under every interleaving of the calls).  On every rank with
`ny ≥ 2` and for every column `i` of `0 .. nx-1`, with `g` and `b` the top and
bottom guard cells of the column as they stand after the exchange (the
collective `passBorders()` with which `addBorders()` starts) and `v` and `w`
the cells of rows 0 and `ny-1` before the call: afterwards cell `(i, 0)` holds
`noData` if `g` or `v` is `noData` and `v + g` otherwise, and cell `(i, ny-1)`
holds `noData` if `b` or `w` is `noData` and `w + b` otherwise. -/
theorem addBorders_accumulates [DecidableEq α] [Add α] (size nx : Int)
    (parts : Int → linearpart α) (junk : Int → List α) (hs : 1 ≤ size)
    (hc : Collective size nx parts) (hny : ∀ r, 0 ≤ r → r < size → 1 ≤ (parts r).ny) :
    ∃ u t, Mpi.Outcome size (passBorders size parts junk) u
      ∧ Mpi.Outcome size (addBorders size parts junk) t
      ∧ ∀ r, 0 ≤ r → r < size → 2 ≤ (parts r).ny → ∀ i, 0 ≤ i → i < nx →
          ∃ g v b w,
            (u.procs r).st.part.getData i (-1) = .ok g
            ∧ (parts r).getData i 0 = .ok v
            ∧ (u.procs r).st.part.getData i (parts r).ny = .ok b
            ∧ (parts r).getData i ((parts r).ny - 1) = .ok w
            ∧ (t.procs r).st.part.getData i 0
                = .ok (if g = (parts r).noData ∨ v = (parts r).noData
                    then (parts r).noData else v + g)
            ∧ (t.procs r).st.part.getData i ((parts r).ny - 1)
                = .ok (if b = (parts r).noData ∨ w = (parts r).noData
                    then (parts r).noData else w + b) := by
  obtain ⟨u, t, hu, ht, hall⟩ := addBorders_outcome junk hs hc hny
  refine ⟨u, t, hu, ht, ?_⟩
  intro r h0 h1 h2 i hi0 hi1
  obtain ⟨hwf, enx, eny, end1, hband, hloop⟩ := hall r h0 h1
  have hx := hc.nx_eq r h0 h1
  have hi : 0 ≤ i ∧ i < (u.procs r).st.part.nx := by rw [enx, hx]; exact ⟨hi0, hi1⟩
  have hip : 0 ≤ i ∧ i < (parts r).nx := by rw [hx]; exact ⟨hi0, hi1⟩
  have hg := getData_eq_cell hwf hi
    (show (-1 : Int) ≤ -1 ∧ -1 ≤ (u.procs r).st.part.ny by rw [eny]; omega)
  have hb := getData_eq_cell hwf hi
    (show (-1 : Int) ≤ (u.procs r).st.part.ny
      ∧ (u.procs r).st.part.ny ≤ (u.procs r).st.part.ny by rw [eny]; omega)
  have hv := getData_eq_cell hwf hi
    (show (-1 : Int) ≤ 0 ∧ 0 ≤ (u.procs r).st.part.ny by rw [eny]; omega)
  have hw1 := getData_eq_cell hwf hi
    (show (-1 : Int) ≤ (u.procs r).st.part.ny - 1
      ∧ (u.procs r).st.part.ny - 1 ≤ (u.procs r).st.part.ny by rw [eny]; omega)
  obtain ⟨q, hq, hrows⟩ := addBordersLoop_rows (u.procs r).st.part hwf (by rw [eny]; exact h2)
  rw [hloop] at hq
  have hqt : (t.procs r).st.part = q := by
    simpa using hq
  obtain ⟨r1, r2⟩ := hrows i _ _ _ _ hi.1 hi.2 hg hv hb hw1
  rw [← hqt, end1] at r1 r2
  rw [eny] at r2 hb hw1
  rw [hband i 0 hip (by omega)] at hv
  rw [hband i ((parts r).ny - 1) hip (by omega)] at hw1
  exact ⟨_, _, _, _, hg, hv, hb, hw1, r1, r2⟩

/-- C7, on the two ranks of `exampleParts 2`, the fresh `tempBorder` of each
rank holding `[7, 7]`. -/
theorem addBorders_accumulates_witness :
    ∃ u t, Mpi.Outcome 2 (passBorders 2 (exampleParts 2) (fun _ => [7, 7])) u
      ∧ Mpi.Outcome 2 (addBorders 2 (exampleParts 2) (fun _ => [7, 7])) t
      ∧ ∀ r, 0 ≤ r → r < 2 → 2 ≤ (exampleParts 2 r).ny → ∀ i, 0 ≤ i → i < 2 →
          ∃ g v b w,
            (u.procs r).st.part.getData i (-1) = .ok g
            ∧ (exampleParts 2 r).getData i 0 = .ok v
            ∧ (u.procs r).st.part.getData i (exampleParts 2 r).ny = .ok b
            ∧ (exampleParts 2 r).getData i ((exampleParts 2 r).ny - 1) = .ok w
            ∧ (t.procs r).st.part.getData i 0
                = .ok (if g = (exampleParts 2 r).noData ∨ v = (exampleParts 2 r).noData
                    then (exampleParts 2 r).noData else v + g)
            ∧ (t.procs r).st.part.getData i ((exampleParts 2 r).ny - 1)
                = .ok (if b = (exampleParts 2 r).noData ∨ w = (exampleParts 2 r).noData
                    then (exampleParts 2 r).noData else w + b) :=
  addBorders_accumulates 2 2 (exampleParts 2) (fun _ => [7, 7]) (by decide)
    (exampleParts_collective 2) (fun _ _ _ => by simp [exampleParts])

/-- C20. On one rank or more, with partitions of one width and one row or
more each, the collective `addBorders()` completes (under the scheduler, and
with the same result under every interleaving of the calls).  On every rank
with `ny == 1` and for every column `i` of `0 .. nx-1`, with `g` and `b` the
top and bottom guard cells of the column as they stand after the exchange and
`v` the cell `(i, 0)` before the call: afterwards cell `(i, 0)` holds `noData`
if `g`, `b` or `v` is `noData` or if `v + g` equals `noData`, and `v + g + b`
otherwise. -/
theorem addBorders_single_row [DecidableEq α] [Add α] (size nx : Int)
    (parts : Int → linearpart α) (junk : Int → List α) (hs : 1 ≤ size)
    (hc : Collective size nx parts) (hny : ∀ r, 0 ≤ r → r < size → 1 ≤ (parts r).ny) :
    ∃ u t, Mpi.Outcome size (passBorders size parts junk) u
      ∧ Mpi.Outcome size (addBorders size parts junk) t
      ∧ ∀ r, 0 ≤ r → r < size → (parts r).ny = 1 → ∀ i, 0 ≤ i → i < nx →
          ∃ g v b,
            (u.procs r).st.part.getData i (-1) = .ok g
            ∧ (parts r).getData i 0 = .ok v
            ∧ (u.procs r).st.part.getData i (parts r).ny = .ok b
            ∧ (t.procs r).st.part.getData i 0
                = .ok (if g = (parts r).noData ∨ b = (parts r).noData
                      ∨ v = (parts r).noData ∨ v + g = (parts r).noData
                    then (parts r).noData else v + g + b) := by
  obtain ⟨u, t, hu, ht, hall⟩ := addBorders_outcome junk hs hc hny
  refine ⟨u, t, hu, ht, ?_⟩
  intro r h0 h1 h2 i hi0 hi1
  obtain ⟨hwf, enx, eny, end1, hband, hloop⟩ := hall r h0 h1
  have hx := hc.nx_eq r h0 h1
  have hi : 0 ≤ i ∧ i < (u.procs r).st.part.nx := by rw [enx, hx]; exact ⟨hi0, hi1⟩
  have hip : 0 ≤ i ∧ i < (parts r).nx := by rw [hx]; exact ⟨hi0, hi1⟩
  have hg := getData_eq_cell hwf hi
    (show (-1 : Int) ≤ -1 ∧ -1 ≤ (u.procs r).st.part.ny by rw [eny]; omega)
  have hb := getData_eq_cell hwf hi
    (show (-1 : Int) ≤ (u.procs r).st.part.ny
      ∧ (u.procs r).st.part.ny ≤ (u.procs r).st.part.ny by rw [eny]; omega)
  have hv := getData_eq_cell hwf hi
    (show (-1 : Int) ≤ 0 ∧ 0 ≤ (u.procs r).st.part.ny by rw [eny]; omega)
  obtain ⟨q, hq, hrow⟩ := addBordersLoop_single_row (u.procs r).st.part hwf
    (by rw [eny]; exact h2)
  rw [hloop] at hq
  have hqt : (t.procs r).st.part = q := by
    simpa using hq
  have r1 := hrow i _ _ _ hi.1 hi.2 hg hv hb
  rw [← hqt, end1] at r1
  rw [eny] at r1 hb
  rw [hband i 0 hip (by omega)] at hv
  exact ⟨_, _, _, hg, hv, hb, r1⟩

/-- C20, on the two ranks of `exampleRows 2`, the fresh `tempBorder` of each
rank holding `[7, 7]`. -/
theorem addBorders_single_row_witness :
    ∃ u t, Mpi.Outcome 2 (passBorders 2 (exampleRows 2) (fun _ => [7, 7])) u
      ∧ Mpi.Outcome 2 (addBorders 2 (exampleRows 2) (fun _ => [7, 7])) t
      ∧ ∀ r, 0 ≤ r → r < 2 → (exampleRows 2 r).ny = 1 → ∀ i, 0 ≤ i → i < 2 →
          ∃ g v b,
            (u.procs r).st.part.getData i (-1) = .ok g
            ∧ (exampleRows 2 r).getData i 0 = .ok v
            ∧ (u.procs r).st.part.getData i (exampleRows 2 r).ny = .ok b
            ∧ (t.procs r).st.part.getData i 0
                = .ok (if g = (exampleRows 2 r).noData ∨ b = (exampleRows 2 r).noData
                      ∨ v = (exampleRows 2 r).noData ∨ v + g = (exampleRows 2 r).noData
                    then (exampleRows 2 r).noData else v + g + b) :=
  addBorders_single_row 2 2 (exampleRows 2) (fun _ => [7, 7]) (by decide)
    (exampleRows_collective 2) (fun _ _ _ => by simp [exampleRows])

end linearpart
